import Mathlib

/-!
Verification of the smelter repository's two tree-rewriting pipelines.

Pipeline A (codegen): Brigadier command-tree JSON -> BrigadierTree ->
literal consolidation -> execute-redirect rewriting -> command enumeration ->
TypeScript emission.

Pipeline B (compiler_prototype): scripting-language AST -> Mcfunction data pack.

Rust `BTreeSet`/`BTreeMap` containers are modelled as lists kept sorted by
insertion (`BTreeSet::insert` keeps the existing element when an equal one is
already present, `BTreeMap::insert` replaces the value).  The `HashMap` used by
the literal consolidator has a run-dependent iteration order; it is modelled by
an explicit reordering parameter `ord` applied to the association list of merge
candidates built in first-encounter order (a faithful HashMap order is any
permutation, captured by the hypothesis `∀ l, List.Perm (ord l) l`).
Rust panics are modelled by `Option`/`Except` failure.
-/

namespace Smelter

/-! ### Pipeline A data model (src/codegen/src/brigadier_tree.rs) -/

mutual

/-- `BrigadierTreeNode` from brigadier_tree.rs.  `properties` holds opaque JSON
values, modelled as strings (they are carried around but never inspected). -/
inductive BrigadierTreeNode where
  | argument (name : String) (executable : Bool) (parser : String)
      (properties : Option (List (String × String))) (children : BrigadierTreeNodeChildren)
  | enum (name : String) (values : List String) (executable : Bool)
      (children : BrigadierTreeNodeChildren)
  | literal (name : String) (executable : Bool) (children : BrigadierTreeNodeChildren)
deriving Repr

/-- `BrigadierTreeNodeChildren` from brigadier_tree.rs.  The `nodes` list models
a `BTreeSet<BrigadierTreeNode>`: strictly sorted by node name. -/
inductive BrigadierTreeNodeChildren where
  | nodes (nodes : List BrigadierTreeNode)
  | redirect (path : List String)
deriving Repr

end

/-- `BrigadierTree` from brigadier_tree.rs; `commands` models the top-level
`BTreeSet<BrigadierTreeNode>`. -/
structure BrigadierTree where
  commands : List BrigadierTreeNode
deriving Repr

namespace BrigadierTreeNode

/-- `BrigadierTreeNode::get_name`. -/
def get_name : BrigadierTreeNode → String
  | .argument name .. => name
  | .enum name .. => name
  | .literal name .. => name

/-- `BrigadierTreeNode::is_executable`. -/
def is_executable : BrigadierTreeNode → Bool
  | .argument _ executable .. => executable
  | .enum _ _ executable .. => executable
  | .literal _ executable .. => executable

/-- `BrigadierTreeNode::get_children_or_redirect`. -/
def get_children_or_redirect : BrigadierTreeNode → BrigadierTreeNodeChildren
  | .argument _ _ _ _ children => children
  | .enum _ _ _ children => children
  | .literal _ _ children => children

/-- `BrigadierTreeNode::get_children` (Some for a `Nodes` child set, None for a
redirect). -/
def get_children (n : BrigadierTreeNode) : Option (List BrigadierTreeNode) :=
  match n.get_children_or_redirect with
  | .nodes nodes => some nodes
  | .redirect _ => none

/-- `BrigadierTreeNode::clone(children)`: same head data, replaced children. -/
def cloneWith : BrigadierTreeNode → BrigadierTreeNodeChildren → BrigadierTreeNode
  | .argument name executable parser properties _, children =>
      .argument name executable parser properties children
  | .enum name values executable _, children => .enum name values executable children
  | .literal name executable _, children => .literal name executable children

/-- `BrigadierTreeNode::is_followed_by_any_command`: non-executable with an
empty `Nodes` child set. -/
def is_followed_by_any_command (n : BrigadierTreeNode) : Bool :=
  !n.is_executable &&
    match n.get_children_or_redirect with
    | .nodes nodes => nodes.isEmpty
    | .redirect _ => false

end BrigadierTreeNode

/-- Lexicographic comparison of character lists (each character by code
point), matching Rust's `String` ordering (UTF-8 byte order coincides with
code-point order). -/
def charListLt : List Char → List Char → Bool
  | [], [] => false
  | [], _ :: _ => true
  | _ :: _, [] => false
  | a :: as, b :: bs => if a < b then true else if b < a then false else charListLt as bs

/-- Rust `String` `Ord::lt`. -/
def strLt (a b : String) : Bool := charListLt a.data b.data

/-- Rust `str::starts_with`. -/
def strStartsWith (s p : String) : Bool := p.data.isPrefixOf s.data

/-- Rust `bool` rendered by `format!` ("true"/"false"). -/
def boolStr (b : Bool) : String := if b then "true" else "false"

/-- Rust `Vec::<String>::join(sep)`. -/
def sjoin (sep : String) : List String → String
  | [] => ""
  | [x] => x
  | x :: rest => x ++ sep ++ sjoin sep rest

/-- `BrigadierTreeNode::get_canonical_string`: variant-specific shape string
(name omitted for nothing here; `Lit(name,exec)`, `Arg(name,parser,exec)`,
`En(values|…,exec)`). -/
def BrigadierTreeNode.get_canonical_string : BrigadierTreeNode → String
  | .argument name executable parser _ _ =>
      "Arg(" ++ name ++ "," ++ parser ++ "," ++ boolStr executable ++ ")"
  | .enum _ values executable _ =>
      "En(" ++ sjoin "|" values ++ "," ++ boolStr executable ++ ")"
  | .literal name executable _ =>
      "Lit(" ++ name ++ "," ++ boolStr executable ++ ")"

/-! ### Ordered-set primitives

`BTreeSet<BrigadierTreeNode>` orders nodes by name alone (impl Ord in
brigadier_tree.rs); `BTreeSet<(BrigadierTreeNode, String)>` orders pairs
lexicographically, hence by (name, string).  `insert` keeps the existing
element when an equal one is present. -/

/-- Insert into a name-sorted node list, keeping the existing node on an equal
name (Rust `BTreeSet::insert` semantics with `Ord` = name comparison). -/
def insertNode (n : BrigadierTreeNode) : List BrigadierTreeNode → List BrigadierTreeNode
  | [] => [n]
  | m :: rest =>
      if strLt n.get_name m.get_name then n :: m :: rest
      else if n.get_name = m.get_name then m :: rest
      else m :: insertNode n rest

/-- Collect a node iterator into a `BTreeSet<BrigadierTreeNode>`. -/
def collectNodes (l : List BrigadierTreeNode) : List BrigadierTreeNode :=
  l.foldl (fun acc n => insertNode n acc) []

/-- Strict lexicographic order on (node, canon-string) pairs, as induced by the
derived tuple `Ord` with node `Ord` = name comparison. -/
def pairLt (a b : BrigadierTreeNode × String) : Bool :=
  strLt a.1.get_name b.1.get_name || (a.1.get_name = b.1.get_name && strLt a.2 b.2)

/-- Equality as seen by `BTreeSet<(BrigadierTreeNode, String)>`: equal name and
equal canon string. -/
def pairEq (a b : BrigadierTreeNode × String) : Bool :=
  a.1.get_name = b.1.get_name && a.2 = b.2

/-- Insert into a sorted pair list, keeping the existing pair on equality. -/
def insertPair (p : BrigadierTreeNode × String) :
    List (BrigadierTreeNode × String) → List (BrigadierTreeNode × String)
  | [] => [p]
  | q :: rest =>
      if pairLt p q then p :: q :: rest
      else if pairEq p q then q :: rest
      else q :: insertPair p rest

/-! ### Literal consolidation (src/codegen/src/command_map/optimizations/enums.rs) -/

/-- A merge candidate: the pieces of a rewritten `Literal` child.  The Rust code
stores whole nodes known (by the insertion-site match) to be literals and
re-matches them at use sites, panicking otherwise; storing name and children
destructured makes that unreachable panic branch unrepresentable.  The shared
executable flag lives in the partition key. -/
abbrev MergeCandidate := String × BrigadierTreeNodeChildren

/-- The `merge_candidates : HashMap<(String, bool), Vec<Node>>` association
list, in first-encounter key order with per-key `Vec` push order. -/
abbrev MergeCandidates := List ((String × Bool) × List MergeCandidate)

/-- A HashMap iteration-order model: a reordering applied to the association
list before the merge loop runs.  Faithful instances permute the list. -/
abbrev MergeOrd := MergeCandidates → MergeCandidates

/-- `merge_candidates` update: append to an existing key's `Vec`, or add a new
key at the end (first-encounter order). -/
def addCandidate (key : String × Bool) (v : MergeCandidate) :
    MergeCandidates → MergeCandidates
  | [] => [(key, [v])]
  | (k, vs) :: rest =>
      if k = key then (k, vs ++ [v]) :: rest else (k, vs) :: addCandidate key v rest

/-- The first loop body of `consolidate_literals_into_enums_inner`: a rewritten
literal child joins the merge candidates under key (canon, executable), any
other child goes straight into the pair set. -/
def consolidateAccumulate (acc : List (BrigadierTreeNode × String) × MergeCandidates)
    (cs : BrigadierTreeNode × String) :
    List (BrigadierTreeNode × String) × MergeCandidates :=
  match cs with
  | (.literal nm ex ch, s) => (acc.1, addCandidate (s, ex) (nm, ch) acc.2)
  | (c, s) => (insertPair (c, s) acc.1, acc.2)

/-- The second loop body: a singleton partition passes its literal through, a
larger partition becomes an Enum whose values are the candidate names in push
order and whose children are the last (`pop`ped) candidate's children. -/
def consolidateMerge (pairs : List (BrigadierTreeNode × String))
    (entry : (String × Bool) × List MergeCandidate) :
    List (BrigadierTreeNode × String) :=
  match entry with
  | (_, []) => pairs
  | ((s, ex), [single]) => insertPair (.literal single.1 ex single.2, s) pairs
  | ((s, ex), candidates) =>
      let values := candidates.map (fun c => c.1)
      let enumChildren := (candidates.getLastD ("", .nodes [])).2
      insertPair (.enum (sjoin "|" values) values ex enumChildren, s) pairs

/-- The body of `consolidate_literals_into_enums_inner` after the recursive
calls: given the rewritten (child, canon) results in child order, run the two
loops and the final child-set/canon construction.  `ord` models the `HashMap`
iteration order of the second loop. -/
def consolidateStep (ord : MergeOrd) (processed : List (BrigadierTreeNode × String)) :
    BrigadierTreeNodeChildren × String :=
  let start : List (BrigadierTreeNode × String) × MergeCandidates :=
    processed.foldl consolidateAccumulate ([], [])
  let pairs1 : List (BrigadierTreeNode × String) :=
    (ord start.2).foldl consolidateMerge start.1
  let newChildren := pairs1.foldl (fun acc cs => insertNode cs.1 acc) []
  let subtrees := pairs1.map (fun cs => cs.1.get_canonical_string ++ "[" ++ cs.2 ++ "]")
  (.nodes newChildren, sjoin ";" subtrees)

mutual

/-- `consolidate_literals_into_enums_inner`: rewrite a node and return it with
the canonical string of its (rewritten) subtree. -/
def consolidate_literals_into_enums_inner (ord : MergeOrd) :
    BrigadierTreeNode → BrigadierTreeNode × String
  | .argument name executable parser properties children =>
      let r := consolidateChildren ord children
      (.argument name executable parser properties r.1, r.2)
  | .enum name values executable children =>
      let r := consolidateChildren ord children
      (.enum name values executable r.1, r.2)
  | .literal name executable children =>
      let r := consolidateChildren ord children
      (.literal name executable r.1, r.2)

/-- Children processing of `consolidate_literals_into_enums_inner`: a redirect
is returned unchanged with canon `"->" ++ path.join(",")`; a child set is
recursively rewritten and merged. -/
def consolidateChildren (ord : MergeOrd) :
    BrigadierTreeNodeChildren → BrigadierTreeNodeChildren × String
  | .redirect path => (.redirect path, "->" ++ sjoin "," path)
  | .nodes l => consolidateStep ord (consolidateList ord l)

/-- Rewrites each child in iteration (list) order. -/
def consolidateList (ord : MergeOrd) :
    List BrigadierTreeNode → List (BrigadierTreeNode × String)
  | [] => []
  | c :: rest => consolidate_literals_into_enums_inner ord c :: consolidateList ord rest

end

/-- `consolidate_literals_into_enums`: rewrite every top-level command and
re-collect (top-level commands are never merged with each other). -/
def consolidate_literals_into_enums (ord : MergeOrd) (tree : BrigadierTree) :
    BrigadierTree :=
  ⟨collectNodes (tree.commands.map
      (fun node => (consolidate_literals_into_enums_inner ord node).1))⟩

/-! ### Execute-redirect rewriting (src/codegen/src/command_map/optimizations/execute.rs)

`handle_execute_command_inner` calls `path.first().unwrap()` on a redirect
path; an empty path panics, modelled by `Option` failure. -/

mutual

/-- `handle_execute_command_inner`. -/
def handle_execute_command_inner : BrigadierTreeNode → Option BrigadierTreeNode
  | .argument name executable parser properties children =>
      (handleExecuteChildren children).map (.argument name executable parser properties ·)
  | .enum name values executable children =>
      (handleExecuteChildren children).map (.enum name values executable ·)
  | .literal name executable children =>
      (handleExecuteChildren children).map (.literal name executable ·)

/-- Children step of `handle_execute_command_inner`: a redirect whose first
element is `execute` becomes a single synthetic `run` literal, any other
redirect becomes an empty child set, a child set is rewritten recursively and
re-collected. -/
def handleExecuteChildren : BrigadierTreeNodeChildren → Option BrigadierTreeNodeChildren
  | .nodes l => (handleExecuteList l).map (fun l2 => .nodes (collectNodes l2))
  | .redirect [] => none
  | .redirect (e :: _) =>
      some (.nodes (if e = "execute" then [.literal "run" false (.nodes [])] else []))

/-- Rewrites each child in iteration order, short-circuiting on panic. -/
def handleExecuteList : List BrigadierTreeNode → Option (List BrigadierTreeNode)
  | [] => some []
  | c :: rest => do
      let c2 ← handle_execute_command_inner c
      let rest2 ← handleExecuteList rest
      pure (c2 :: rest2)

end

/-- `handle_execute_command`: rewrite only the top-level command named
`execute`; every other command passes through unchanged. -/
def handle_execute_command (tree : BrigadierTree) : Option BrigadierTree := do
  let commands ← tree.commands.mapM (fun command =>
    if command.get_name = "execute" then handle_execute_command_inner command
    else some command)
  pure ⟨collectNodes commands⟩

/-! ### Command enumeration (src/codegen/src/command_map.rs) -/

/-- `CommandToken` from command_map.rs. -/
inductive CommandToken where
  | argument (name : String) (parser : String) (is_optional : Bool)
  | enum (values : List String) (is_optional : Bool)
  | literal (value : String) (is_optional : Bool)
deriving Repr, DecidableEq

/-- `CommandMap = BTreeMap<String, Vec<Vec<CommandToken>>>`, modelled as an
association list strictly sorted by key. -/
abbrev CommandMap := List (String × List (List CommandToken))

/-- `BTreeMap::insert` (replaces the value of an existing key). -/
def mapInsert (key : String) (v : List (List CommandToken)) : CommandMap → CommandMap
  | [] => [(key, v)]
  | (k, w) :: rest =>
      if strLt key k then (key, v) :: (k, w) :: rest
      else if key = k then (key, v) :: rest
      else (k, w) :: mapInsert key v rest

/-- `BTreeMap::get`. -/
def mapGet (key : String) : CommandMap → Option (List (List CommandToken))
  | [] => none
  | (k, w) :: rest => if key = k then some w else mapGet key rest

/-- `BTreeMap::remove` (dropping the returned value). -/
def mapRemove (key : String) : CommandMap → CommandMap
  | [] => []
  | (k, w) :: rest => if key = k then rest else (k, w) :: mapRemove key rest

/-- `commands.get_mut(name).unwrap().push(tokens)`.  The key is always present
when `list_command_variants` runs (inserted by `map_commands` beforehand); an
absent key leaves the map unchanged here, standing for that unreachable
`unwrap` panic. -/
def mapAppendVariant (key : String) (tokens : List CommandToken) : CommandMap → CommandMap
  | [] => []
  | (k, w) :: rest =>
      if key = k then (k, w ++ [tokens]) :: rest
      else (k, w) :: mapAppendVariant key tokens rest

/-- The optional-suffix chain walked by the loop in `list_command_variants`:
consecutive descendants that are single children and executable. -/
def optionalChain : BrigadierTreeNode → List BrigadierTreeNode
  | .argument _ _ _ _ (.nodes [c]) => if c.is_executable then c :: optionalChain c else []
  | .enum _ _ _ (.nodes [c]) => if c.is_executable then c :: optionalChain c else []
  | .literal _ _ (.nodes [c]) => if c.is_executable then c :: optionalChain c else []
  | _ => []

/-- Token for one branch node (`list_command_variants`'s map closure). -/
def tokenOfNode (n : BrigadierTreeNode) (is_optional : Bool) : CommandToken :=
  match n with
  | .argument name _ parser _ _ => .argument name parser is_optional
  | .enum _ values _ _ => .enum values is_optional
  | .literal name _ _ => .literal name is_optional

mutual

/-- Tree depth, used as recursion fuel for `list_command_variants` (whose
recursion steps from a node to a child of a descendant, which structural
recursion cannot see). -/
def nodeDepth : BrigadierTreeNode → Nat
  | .argument _ _ _ _ ch => 1 + childrenDepth ch
  | .enum _ _ _ ch => 1 + childrenDepth ch
  | .literal _ _ ch => 1 + childrenDepth ch

def childrenDepth : BrigadierTreeNodeChildren → Nat
  | .nodes l => nodeListDepth l
  | .redirect _ => 0

def nodeListDepth : List BrigadierTreeNode → Nat
  | [] => 0
  | c :: rest => max (nodeDepth c) (nodeListDepth rest)

end

/-- `list_command_variants`, fuelled: each recursive call descends at least one
tree level, so `nodeDepth node` fuel never runs out (fuel 0 returns the map
unchanged, an unreachable case under sufficient fuel). -/
def listCommandVariantsFuel : Nat → BrigadierTreeNode → List BrigadierTreeNode →
    CommandMap → CommandMap
  | 0, _, _, commands => commands
  | fuel + 1, node, branch, commands =>
      let branchCopy := branch ++ [node]
      let commandName := (branchCopy.headD node).get_name
      if node.is_executable || node.is_followed_by_any_command then
        let nodeIndex := branchCopy.length - 1
        let chain := optionalChain node
        let branchExt := branchCopy ++ chain
        let branchLast := chain.getLastD node
        let commandTokens :=
          (branchExt.drop 1).enum.map (fun p => tokenOfNode p.2 (decide (p.1 + 1 > nodeIndex)))
        let commandTokens :=
          if branchLast.is_followed_by_any_command then
            commandTokens ++ [.argument "callback" "TODO" false]
          else commandTokens
        let commands := mapAppendVariant commandName commandTokens commands
        match branchLast.get_children with
        | some children =>
            children.foldl (fun cmds child => listCommandVariantsFuel fuel child branchExt cmds)
              commands
        | none => commands
      else
        match node.get_children with
        | some children =>
            children.foldl (fun cmds child => listCommandVariantsFuel fuel child branchCopy cmds)
              commands
        | none => commands

/-- `list_command_variants` with sufficient fuel. -/
def list_command_variants (node : BrigadierTreeNode) (branch : List BrigadierTreeNode)
    (commands : CommandMap) : CommandMap :=
  listCommandVariantsFuel (nodeDepth node) node branch commands

/-- `map_commands`: enumerate every top-level command, dropping commands that
produced no variants. -/
def map_commands (tree : BrigadierTree) : CommandMap :=
  tree.commands.foldl
    (fun commands node =>
      let commands := mapInsert node.get_name [] commands
      let commands := list_command_variants node [] commands
      match mapGet node.get_name commands with
      | some [] => mapRemove node.get_name commands
      | _ => commands)
    []

/-- `impl From<BrigadierTree> for CommandMap`. -/
def commandMapFromTree (ord : MergeOrd) (tree : BrigadierTree) : Option CommandMap :=
  (handle_execute_command (consolidate_literals_into_enums ord tree)).map map_commands

/-! ### TypeScript emission (src/codegen/src/code_generator/languages/typescript.rs)

`fix_identifier` slices `s[0..1]` of each dash-separated segment after the
first; that panics when the segment is empty or its first character is not a
single UTF-8 byte (ASCII).  Panics are modelled by `Option` failure, which
propagates to the whole emission. -/

/-- Rust `str::split(sep)` for a single-character pattern, at the
character-list level: the list of separated segments (never empty; adjacent or
trailing separators yield empty segments). -/
def splitOnChar (sep : Char) : List Char → List (List Char)
  | [] => [[]]
  | c :: rest =>
      if c = sep then [] :: splitOnChar sep rest
      else
        match splitOnChar sep rest with
        | s :: ss => (c :: s) :: ss
        | [] => [[c]]

/-- Rust `str::split('-')`. -/
def splitOnDash (l : List Char) : List (List Char) := splitOnChar '-' l

/-- `s[0..1].to_ascii_uppercase() + &s[1..]` on one segment: panics (`none`) on
an empty segment or a multi-byte first character. -/
def capitalizeSegment (s : List Char) : Option (List Char) :=
  match s with
  | [] => none
  | c :: rest => if 128 ≤ c.toNat then none else some (c.toUpper :: rest)

/-- `RESERVED_KEYWORDS_JAVASCRIPT` from typescript.rs. -/
def RESERVED_KEYWORDS_JAVASCRIPT : List String :=
  ["break", "case", "catch", "class", "const", "continue", "debugger", "default",
   "delete", "do", "else", "export", "extends", "false", "finally", "for",
   "function", "if", "import", "in", "instanceof", "new", "null", "return",
   "super", "switch", "this", "throw", "true", "try", "typeof", "var", "void",
   "while", "with", "let", "static", "yield", "await", "enum", "implements",
   "interface", "package", "private", "protected", "public", "arguments", "eval"]

/-- `fix_identifier`: lowerCamelCase the dash-separated segments (first segment
unchanged), then append `_` when the result is a reserved keyword. -/
def fix_identifier (identifier : String) : Option String := do
  let segments := splitOnDash identifier.data
  let fixedTail ← segments.tail.mapM capitalizeSegment
  let withoutDashes := String.mk ((segments.headD [] :: fixedTail).flatten)
  if RESERVED_KEYWORDS_JAVASCRIPT.contains withoutDashes then
    pure (withoutDashes ++ "_")
  else
    pure withoutDashes

/-- `fix_object_type_key`: quote keys containing a dash. -/
def fix_object_type_key (key : String) : String :=
  if key.data.contains '-' then "\"" ++ key ++ "\"" else key

/-- One signature parameter per token; `litIndex` is the running `opt<n>`
counter consumed by Enum and Literal tokens. -/
def tokenParameter (litIndex : Nat) : CommandToken → Option (String × Nat)
  | .argument name parser is_optional => do
      let fixed ← fix_identifier name
      pure (fixed ++ (if is_optional then "?" else "") ++ ": \"" ++ parser ++ "\"", litIndex)
  | .enum values is_optional =>
      pure ("opt" ++ toString litIndex ++ (if is_optional then "?" else "") ++ ": " ++
        sjoin " | " (values.map (fun v => "\"" ++ v ++ "\"")), litIndex + 1)
  | .literal value is_optional =>
      pure ("opt" ++ toString litIndex ++ (if is_optional then "?" else "") ++ ": \"" ++
        value ++ "\"", litIndex + 1)

/-- Fold step accumulating rendered parameters and the running opt
counter. -/
def variantParametersStep (acc : List String × Nat) (token : CommandToken) :
    Option (List String × Nat) := do
  let r ← tokenParameter acc.2 token
  pure (acc.1 ++ [r.1], r.2)

/-- The parameter list of one variant. -/
def variantParameters (tokens : List CommandToken) : Option (List String) :=
  (tokens.foldlM variantParametersStep
    (([], 0) : List String × Nat)).map (fun (acc : List String × Nat) => acc.1)

/-- One emitted variant signature line (the inner loop body of
`write_to_typescript`). -/
def variantLine (tokens : List CommandToken) : Option String := do
  let parameters ← variantParameters tokens
  pure ("    (" ++ sjoin ", " parameters ++ "): void;\n")

/-- One emitted command block (the outer loop body of
`write_to_typescript`). -/
def commandBlock (entry : String × List (List CommandToken)) : Option String := do
  let variantLines ← entry.2.mapM variantLine
  pure ("  " ++ fix_object_type_key entry.1 ++ ": \x7b\n" ++
    String.join variantLines ++ "  \x7d;\n")

/-- One emitted `export const` line (the final loop body of
`write_to_typescript`). -/
def exportLine (entry : String × List (List CommandToken)) : Option String := do
  let fixed ← fix_identifier entry.1
  pure ("export const " ++ fixed ++ " = __emitMacro(\"" ++ entry.1 ++ "\");\n")

/-- `write_to_typescript`: the full emitted text (each `writeln!` appends one
`\n`-terminated line).  Braces in the emitted TypeScript are written with
`\x7b`/`\x7d` escapes. -/
def write_to_typescript (commands : CommandMap) : Option String := do
  let commandBlocks ← commands.mapM commandBlock
  let exports ← commands.mapM exportLine
  pure ("type MinecraftCommands = \x7b\n" ++ String.join commandBlocks ++ "\x7d;\n" ++
    "\n" ++
    "function __emitMacro<Command extends keyof MinecraftCommands>(command: Command): MinecraftCommands[typeof command] \x7b\n" ++
    "  return (...tokens: any[]) => console.log(\"$\", ...tokens);\n" ++
    "\x7d\n" ++
    "\n" ++
    String.join exports)

/-! ### JSON tree building (src/codegen/src/tree_provider/brigadier_json.rs)

The deserialized `BrigadierJsonNode` struct is modelled directly (raw-text
parsing is serde's, out of scope); its `children` `BTreeMap` is an association
list whose well-formed instances are strictly sorted by key. -/

/-- `ConversionError` from brigadier_json.rs (the serde error payload is
modelled as its message). -/
inductive ConversionError where
  | deserializationError (msg : String)
  | malformedTree (msg : String)
deriving Repr, DecidableEq

/-- `BrigadierJsonNodeType`. -/
inductive BrigadierJsonNodeType where
  | argument
  | literal
  | root
deriving Repr, DecidableEq

/-- `BrigadierJsonNode`. -/
inductive BrigadierJsonNode where
  | mk (node_type : BrigadierJsonNodeType)
      (children : Option (List (String × BrigadierJsonNode)))
      (executable : Option Bool) (parser : Option String)
      (properties : Option (List (String × String))) (redirect : Option (List String))
deriving Repr

namespace BrigadierJsonNode

def node_type : BrigadierJsonNode → BrigadierJsonNodeType
  | .mk t _ _ _ _ _ => t

def children : BrigadierJsonNode → Option (List (String × BrigadierJsonNode))
  | .mk _ c _ _ _ _ => c

def executable : BrigadierJsonNode → Option Bool
  | .mk _ _ e _ _ _ => e

def parser : BrigadierJsonNode → Option String
  | .mk _ _ _ p _ _ => p

def properties : BrigadierJsonNode → Option (List (String × String))
  | .mk _ _ _ _ pr _ => pr

def redirect : BrigadierJsonNode → Option (List String)
  | .mk _ _ _ _ _ r => r

end BrigadierJsonNode

mutual

/-- `to_brigadier_tree_node`. -/
def to_brigadier_tree_node (name : String) (json_node : BrigadierJsonNode) (depth : Nat) :
    Except ConversionError BrigadierTreeNode :=
  match json_node with
  | .mk node_type jsonChildren executable parser properties redirect => do
      let children : BrigadierTreeNodeChildren ←
        match jsonChildren with
        | some json_children => do
            let converted ← jsonChildrenToNodes json_children (depth + 1)
            pure (BrigadierTreeNodeChildren.nodes (collectNodes converted))
        | none =>
            match redirect with
            | some path => pure (BrigadierTreeNodeChildren.redirect path)
            | none => pure (BrigadierTreeNodeChildren.nodes [])
      let executableFlag : Bool := executable.getD false
      match node_type with
      | .argument =>
          match parser with
          | some p => pure (BrigadierTreeNode.argument name executableFlag p properties children)
          | none =>
              throw (ConversionError.malformedTree
                "Found a `type=argument` node without a `parser`.")
      | .literal => pure (BrigadierTreeNode.literal name executableFlag children)
      | .root =>
          throw (ConversionError.malformedTree "Found a `type=root` node within the JSON tree.")

/-- Converts each named child at `depth`, short-circuiting on the first
error (the `collect::<Result<…>>` of the Rust iterator). -/
def jsonChildrenToNodes (l : List (String × BrigadierJsonNode)) (depth : Nat) :
    Except ConversionError (List BrigadierTreeNode) :=
  match l with
  | [] => pure []
  | (nm, c) :: rest => do
      let n ← to_brigadier_tree_node nm c depth
      let ns ← jsonChildrenToNodes rest depth
      pure (n :: ns)

end

/-- `impl TryFrom<BrigadierJsonNode> for BrigadierTree`: convert the root's
children at depth 1. -/
def brigadierTreeFromJson (value : BrigadierJsonNode) : Except ConversionError BrigadierTree :=
  match value.children with
  | some ch => do
      let nodes ← jsonChildrenToNodes ch 1
      pure ⟨collectNodes nodes⟩
  | none => pure ⟨[]⟩

/-- Pipeline A end to end, from the deserialized JSON root to the emitted
TypeScript text (composition performed by codegen's `main`); `ord` is the
HashMap-iteration-order model threaded into literal consolidation. -/
def runPipelineA (ord : MergeOrd) (root : BrigadierJsonNode) : Option String := do
  let tree ← (brigadierTreeFromJson root).toOption
  let commands ← commandMapFromTree ord tree
  write_to_typescript commands

/-! ### Pipeline B (src/packages/compiler_prototype/src/main.rs)

Mcfunction bodies are lists of command lines.  In the transcribed command
strings, `\x7b`/`\x7d` are literal braces and `\x27` literal apostrophes. -/

/-- `Mcfunction`. -/
structure Mcfunction where
  name : String
  body : List String
deriving Repr, DecidableEq

/-- `debug_log`. -/
def debug_log (message : String) : String :=
  "execute if score #debug smelter_internal matches 1.. run tellraw @a \x27[smelter] " ++
    message ++ "\x27"

/-- `make_function_name` (`<identifier_lowercased>_<offset>` or
`anon_func_<offset>`). -/
def make_function_name (id : Option String) (spanStart : Nat) : String :=
  match id with
  | some identifier => String.mk (identifier.data.map Char.toLower) ++ "_" ++ toString spanStart
  | none => "anon_func_" ++ toString spanStart

/-- `compile_command_wrapper_function_body`. -/
def compile_command_wrapper_function_body (command : String) : List String :=
  [debug_log ("entering wrapper function " ++ command),
   "execute unless data storage smelter:smelter current_arguments[0].string run data modify storage smelter:smelter current_return_value set value \x7bthrow: \x27TypeError\x27\x7d",
   "execute unless data storage smelter:smelter current_arguments[0].string run return fail",
   "data modify storage smelter:smelter internal.command_args.tail set from storage smelter:smelter current_arguments[0].string",
   debug_log ("returning from wrapper function " ++ command),
   "return run function smelter:" ++ command ++
     "_macro with storage smelter:smelter internal.command_args"]

/-- `compile_command_macro_function`. -/
def compile_command_macro_function (command : String) : Mcfunction :=
  { name := command ++ "_macro",
    body := ["$" ++ debug_log ("entering macro function " ++ command ++ ": tail=$(tail)"),
             "$" ++ command ++ " $(tail)",
             debug_log ("exiting macro function " ++ command)] }

/-- `compile_init_function`. -/
def compile_init_function : Mcfunction :=
  { name := "initialize",
    body := ["data modify storage smelter:smelter environment_stack set value []",
             "data modify storage smelter:smelter current_arguments set value []",
             "data modify storage smelter:smelter current_environment set value \x7bparent: -1, bindings: \x7b\x7d, evaluations: \x7b\x7d\x7d",
             "data modify storage smelter:smelter current_return_value set value \x7b\x7d",
             "data modify storage smelter:smelter internal set value \x7b\x7d",
             "scoreboard objectives add smelter_internal dummy"] }

/-- `compile_identifier_resolution`: the fixed `resolve` runtime-library
macro-function. -/
def compile_identifier_resolution : Mcfunction :=
  { name := "resolve",
    body := ["$" ++ debug_log
        "entering resolve: identifier=$(identifier) stack_index=$(stack_index) expression_id=$(expression_id)",
      "$execute if data storage smelter:smelter environment_stack[$(stack_index)].bindings.$(identifier) run data modify storage smelter:smelter current_environment.evaluations.$(expression_id) set from storage smelter:smelter environment_stack[$(stack_index)].bindings.$(identifier)",
      debug_log "resolve: checking if binding exists here",
      "$execute if data storage smelter:smelter environment_stack[$(stack_index)].bindings.$(identifier) run return 1",
      "$execute store result score #resolve__parent_index smelter_internal run data get storage smelter:smelter environment_stack[$(stack_index)].parent",
      debug_log "resolve: checking if parent exists",
      "execute if score #resolve__parent_index smelter_internal matches ..-1 run return fail",
      "execute store result storage smelter:smelter internal.resolve_args.stack_index int 1 run scoreboard players get #resolve__parent_index smelter_internal",
      debug_log "resolve: calling with parent",
      "return run function smelter_resolve with storage smelter:smelter internal.resolve_args"] }

/-- `compile_function_invocation`: the fixed `invoke` runtime-library
macro-function. -/
def compile_function_invocation : Mcfunction :=
  { name := "invoke",
    body := ["$" ++ debug_log "entering invoke: name=$(name) environment_index=$(environment_index)",
      "$data modify storage smelter:smelter current_environment set from storage smelter:smelter environment_stack[$(environment_index)]",
      "$function smelter:$(name)",
      debug_log "exiting invoke"] }

/-- `compile_stack_pop`: the fixed `pop_stack` runtime-library
macro-function. -/
def compile_stack_pop : Mcfunction :=
  { name := "pop_stack",
    body := ["$" ++ debug_log "entering pop_stack: stack_size=$(stack_size)",
      "$data modify storage smelter:smelter current_environment set from storage smelter:smelter environment_stack[$(stack_size)]",
      "$data remove storage smelter:smelter environment_stack[$(stack_size)]",
      debug_log "exiting pop_stack"] }

/-! #### AST model (the oxc constructs the compiler inspects) -/

mutual

/-- The expression forms `compile_expression` distinguishes; every node
carries its span start offset. -/
inductive Expression where
  | arrowFunctionExpression (spanStart : Nat)
  | identifier (spanStart : Nat) (name : String)
  | stringLiteral (spanStart : Nat) (value : String)
  | callExpression (spanStart : Nat) (callee : Expression) (arguments : List CallArgument)
  | otherExpression (spanStart : Nat)
deriving Repr

/-- A call argument: an expression, or a spread element
(`Argument::as_expression()` returns None). -/
inductive CallArgument where
  | expressionArg (e : Expression)
  | spreadElement (spanStart : Nat)
deriving Repr

end

/-- `span().start` of an expression. -/
def Expression.spanStart : Expression → Nat
  | .arrowFunctionExpression s => s
  | .identifier s _ => s
  | .stringLiteral s _ => s
  | .callExpression s _ _ => s
  | .otherExpression s => s

/-- `span().start` of a call argument. -/
def CallArgument.spanStart : CallArgument → Nat
  | .expressionArg e => e.spanStart
  | .spreadElement s => s

/-- `Argument::as_expression()`. -/
def CallArgument.asExpression : CallArgument → Option Expression
  | .expressionArg e => some e
  | .spreadElement _ => none

/-- `make_expression_id` (`expr_<span.start>`). -/
def make_expression_id (e : Expression) : String := "expr_" ++ toString e.spanStart

/-- `reduce_compiled`: concatenate command lists and subfunction lists. -/
def reduce_compiled (v : List (List String × List Mcfunction)) :
    List String × List Mcfunction :=
  v.foldl (fun acc r => (acc.1 ++ r.1, acc.2 ++ r.2)) ([], [])

/-- The fixed tail of `compile_call_expression`: push the environment, invoke
the callee, pop, clear arguments. -/
def invokeBlock (callee_expr_id : String) : List String :=
  [debug_log ("invoking function " ++ callee_expr_id),
   "data modify storage smelter:smelter environment_stack append from storage smelter:smelter current_environment",
   "function smelter:invoke with storage smelter:smelter current_environment.evaluations." ++
     callee_expr_id ++ ".function",
   "data modify storage smelter:smelter internal.pop_stack_args set value \x7bstack_size: 0\x7d",
   "execute store result storage smelter:smelter internal.pop_stack_args.stack_size int 1 run data get storage smelter:smelter environment_stack",
   "function smelter:pop_stack with storage smelter:smelter internal.pop_stack_args",
   "data modify storage smelter:smelter current_arguments set value []",
   debug_log ("done invoking function " ++ callee_expr_id)]

mutual

/-- `compile_expression`. -/
def compile_expression (expression : Expression) : List String × List Mcfunction :=
  match expression with
  | .arrowFunctionExpression spanStart =>
      let expression_id := "expr_" ++ toString spanStart
      let function_name := make_function_name none spanStart
      ([debug_log ("evaluating arrow function " ++ function_name),
        "data modify storage smelter:smelter current_environment.evaluations." ++
          expression_id ++ " set value \x7bfunction: \x7bname: \x27" ++ function_name ++
          "\x27\x7d\x7d",
        "execute store result storage smelter:smelter current_environment.evaluations." ++
          expression_id ++
          ".function.environment_index int 1 run data get storage smelter:smelter environment_stack",
        debug_log ("done evaluating arrow function " ++ function_name)],
       [])
  | .identifier spanStart name =>
      let expression_id := "expr_" ++ toString spanStart
      ([debug_log ("evaluating identifier " ++ name),
        "execute if data storage smelter:smelter current_environment.bindings." ++ name ++
          " run data modify storage smelter:smelter current_environment.evaluations." ++
          expression_id ++ " set from storage smelter:smelter current_environment.bindings." ++
          name,
        "execute unless data storage smelter:smelter current_environment.evaluations." ++
          expression_id ++
          " run data modify storage smelter:smelter internal.resolve_args set value \x7bidentifier: \x27" ++
          name ++ "\x27, expression_id: \x27" ++ expression_id ++ "\x27\x7d",
        "execute unless data storage smelter:smelter current_environment.evaluations." ++
          expression_id ++
          " run data modify storage smelter:smelter internal.resolve_args.stack_index set from storage smelter:smelter current_environment.parent",
        "execute unless data storage smelter:smelter current_environment.evaluations." ++
          expression_id ++
          " run function smelter:resolve with storage smelter:smelter internal.resolve_args",
        debug_log ("done evaluating identifier " ++ name)],
       [])
  | .stringLiteral spanStart value =>
      let expression_id := "expr_" ++ toString spanStart
      ([debug_log ("evaluating string literal " ++ value),
        "data modify storage smelter:smelter current_environment.evaluations." ++
          expression_id ++ " set value \x7bstring: \x27" ++ value ++ "\x27\x7d",
        debug_log ("done evaluating string literal " ++ value)],
       [])
  | .callExpression _ callee arguments =>
      let callee_expr_id := make_expression_id callee
      let compiled := compile_expression callee :: compileArgumentEvals arguments
      let compiled := compiled ++ arguments.map (fun argument =>
        (["data modify storage smelter:smelter current_arguments append from storage smelter:smelter current_environment.evaluations.expr_" ++
            toString argument.spanStart],
         ([] : List Mcfunction)))
      let compiled := compiled ++ [(invokeBlock callee_expr_id, [])]
      reduce_compiled compiled
  | .otherExpression _ => ([], [])

/-- The `filter_map(as_expression).map(compile_expression)` pass over call
arguments. -/
def compileArgumentEvals (arguments : List CallArgument) :
    List (List String × List Mcfunction) :=
  match arguments with
  | [] => []
  | .expressionArg e :: rest => compile_expression e :: compileArgumentEvals rest
  | .spreadElement _ :: rest => compileArgumentEvals rest

end

/-- The statement forms `compile_statement` distinguishes.  A function
declaration is recorded with its optional identifier, span start, and whether
it has a body; a variable declaration lists `(identifier?, initializer?)`
declarators. -/
inductive Statement where
  | expressionStatement (e : Expression)
  | functionDeclaration (id : Option String) (spanStart : Nat) (hasBody : Bool)
  | variableDeclaration (declarations : List (Option String × Option Expression))
  | otherStatement
deriving Repr

/-- `compile_statement`.  `none` models the `unwrap` panic on a bodied
function declaration without an identifier. -/
def compile_statement (statement : Statement) : Option (List String × List Mcfunction) :=
  match statement with
  | .expressionStatement e => some (compile_expression e)
  | .functionDeclaration id spanStart hasBody =>
      if hasBody then
        match id with
        | some function_identifier =>
            let function_name := make_function_name id spanStart
            some ([debug_log ("evaluating function declaration " ++ function_name),
              "data modify storage smelter:smelter current_environment.bindings." ++
                function_identifier ++ " set value \x7bfunction: \x7bname: \x27" ++
                function_name ++ "\x27\x7d\x7d",
              "execute store result storage smelter:smelter current_environment.bindings." ++
                function_identifier ++
                ".function.environment_index int 1 run data get storage smelter:smelter environment_stack",
              debug_log ("done evaluating function declaration " ++ function_name)],
             [])
        | none => none
      else some ([], [])
  | .variableDeclaration declarations =>
      declarations.foldlM
        (fun (acc : List String × List Mcfunction) declarator =>
          match declarator.1 with
          | none => some acc
          | some name =>
              let enter := debug_log ("evaluating variable declaration " ++ name)
              let leave := debug_log ("done evaluating variable declaration " ++ name)
              match declarator.2 with
              | some initializer =>
                  let expression_id := make_expression_id initializer
                  let compiled := compile_expression initializer
                  some (acc.1 ++ [enter] ++ compiled.1 ++
                    ["data modify storage smelter:smelter current_environment.bindings." ++
                      name ++
                      " set from storage smelter:smelter current_environment.evaluations." ++
                      expression_id, leave],
                    acc.2 ++ compiled.2)
              | none =>
                  some (acc.1 ++ [enter,
                    "data modify storage smelter:smelter current_environment.bindings." ++
                      name ++ " set value \x7bundefined: true\x7d", leave],
                    acc.2))
        ([], [])
  | .otherStatement => some ([], [])

/-- A formal-parameter pattern as `compile_bind_argument` sees it. -/
inductive BindingPatternKind where
  | bindingIdentifier (name : String)
  | otherPattern
deriving Repr, DecidableEq

/-- `FormalParameters`: positional patterns plus an optional rest element
(whose `get_identifier_name()` result is the inner option). -/
structure FormalParameters where
  items : List BindingPatternKind
  rest : Option (Option String)
deriving Repr

/-- `FunctionBody`: leading string-literal directives and statements. -/
structure FunctionBody where
  directives : List String
  statements : List Statement
deriving Repr

/-- `compile_bind_argument`. -/
def compile_bind_argument (pattern : BindingPatternKind) : List String :=
  match pattern with
  | .bindingIdentifier name =>
      [debug_log ("binding argument " ++ name),
       "execute unless data storage smelter:smelter current_arguments[0] run data modify storage smelter:smelter current_environment.bindings." ++
         name ++ " set value \x7bundefined: true\x7d",
       "execute if data storage smelter:smelter current_arguments[0] run data modify storage smelter:smelter current_environment.bindings." ++
         name ++ " set from storage smelter:smelter current_arguments[0]",
       "data remove storage smelter:smelter current_arguments[0]",
       debug_log ("done binding argument " ++ name)]
  | .otherPattern => []

/-- `compile_bind_rest_argument`. -/
def compile_bind_rest_argument (identifierName : Option String) : List String :=
  let name := identifierName.getD ""
  [debug_log ("binding rest argument " ++ name),
   "data modify storage smelter:smelter current_environment.bindings." ++ name ++
     " set from storage smelter:smelter current_arguments",
   debug_log ("done binding rest argument " ++ name)]

/-- `compile_function`.  `none` models a panic while lowering a body
statement; the `smelter <cmd>` directive path never fails. -/
def compile_function (id : Option String) (parameters : FormalParameters)
    (body : FunctionBody) (spanStart : Nat) : Option (List Mcfunction) := do
  let function_name := make_function_name id spanStart
  let pair : Option (List Mcfunction) :=
    match body.directives.find? (fun directive => strStartsWith directive "smelter") with
    | some directive =>
        match ((splitOnChar ' ' directive.data).map String.mk)[1]? with
        | some command =>
            some [{ name := function_name, body := compile_command_wrapper_function_body command },
              compile_command_macro_function command]
        | none => none
    | none => none
  match pair with
  | some result => pure result
  | none => do
      let binds := (parameters.items.map compile_bind_argument).flatten
      let restBinds :=
        match parameters.rest with
        | some identifierName => compile_bind_rest_argument identifierName
        | none => []
      let compiledStatements ← body.statements.mapM compile_statement
      let reduced := reduce_compiled compiledStatements
      let compiled_body := [debug_log ("entering function " ++ function_name)] ++
        binds ++ restBinds ++ reduced.1 ++
        [debug_log ("exiting function " ++ function_name)]
      pure (reduced.2 ++ [{ name := function_name, body := compiled_body }])

/-! ### Observables and invariant predicates -/

mutual

/-- Number of Enum nodes in a subtree. -/
def countEnums : BrigadierTreeNode → Nat
  | .argument _ _ _ _ ch => countEnumsChildren ch
  | .enum _ _ _ ch => 1 + countEnumsChildren ch
  | .literal _ _ ch => countEnumsChildren ch

def countEnumsChildren : BrigadierTreeNodeChildren → Nat
  | .nodes l => countEnumsList l
  | .redirect _ => 0

def countEnumsList : List BrigadierTreeNode → Nat
  | [] => 0
  | n :: rest => countEnums n + countEnumsList rest

end

/-- Number of Enum nodes in a whole tree. -/
def treeCountEnums (t : BrigadierTree) : Nat := countEnumsList t.commands

/-- Sibling names in strictly ascending lexicographic order. -/
def namesSortedB : List BrigadierTreeNode → Bool
  | [] => true
  | [_] => true
  | a :: b :: rest => strLt a.get_name b.get_name && namesSortedB (b :: rest)

mutual

/-- Every `Children::Nodes` set in the subtree is strictly sorted by name. -/
def nodeSortedB : BrigadierTreeNode → Bool
  | .argument _ _ _ _ ch => childrenSortedB ch
  | .enum _ _ _ ch => childrenSortedB ch
  | .literal _ _ ch => childrenSortedB ch

def childrenSortedB : BrigadierTreeNodeChildren → Bool
  | .nodes l => namesSortedB l && nodeListSortedB l
  | .redirect _ => true

def nodeListSortedB : List BrigadierTreeNode → Bool
  | [] => true
  | n :: rest => nodeSortedB n && nodeListSortedB rest

end

/-- Every children set of the tree (top set included) is strictly sorted by
name: the `BTreeSet` representation invariant. -/
def treeSortedB (t : BrigadierTree) : Bool :=
  namesSortedB t.commands && nodeListSortedB t.commands

/-- No `|` character in a string. -/
def stringNoPipe (s : String) : Bool := !s.data.contains '|'

mutual

/-- No node name in the subtree contains `|`. -/
def nodeNoPipeB : BrigadierTreeNode → Bool
  | .argument name _ _ _ ch => stringNoPipe name && childrenNoPipeB ch
  | .enum name _ _ ch => stringNoPipe name && childrenNoPipeB ch
  | .literal name _ ch => stringNoPipe name && childrenNoPipeB ch

def childrenNoPipeB : BrigadierTreeNodeChildren → Bool
  | .nodes l => nodeListNoPipeB l
  | .redirect _ => true

def nodeListNoPipeB : List BrigadierTreeNode → Bool
  | [] => true
  | n :: rest => nodeNoPipeB n && nodeListNoPipeB rest

end

/-- No node name in the tree contains `|`. -/
def treeNoPipeB (t : BrigadierTree) : Bool := nodeListNoPipeB t.commands

mutual

/-- No Enum node in the subtree. -/
def noEnumB : BrigadierTreeNode → Bool
  | .argument _ _ _ _ ch => noEnumChildrenB ch
  | .enum _ _ _ _ => false
  | .literal _ _ ch => noEnumChildrenB ch

def noEnumChildrenB : BrigadierTreeNodeChildren → Bool
  | .nodes l => noEnumListB l
  | .redirect _ => true

def noEnumListB : List BrigadierTreeNode → Bool
  | [] => true
  | n :: rest => noEnumB n && noEnumListB rest

end

/-- No Enum node in the tree. -/
def treeNoEnumB (t : BrigadierTree) : Bool := noEnumListB t.commands

mutual

/-- All nodes of a subtree (the node itself included), preorder. -/
def allNodes : BrigadierTreeNode → List BrigadierTreeNode
  | .argument name executable parser properties ch =>
      .argument name executable parser properties ch :: allNodesChildren ch
  | .enum name values executable ch => .enum name values executable ch :: allNodesChildren ch
  | .literal name executable ch => .literal name executable ch :: allNodesChildren ch

def allNodesChildren : BrigadierTreeNodeChildren → List BrigadierTreeNode
  | .nodes l => allNodesList l
  | .redirect _ => []

def allNodesList : List BrigadierTreeNode → List BrigadierTreeNode
  | [] => []
  | n :: rest => allNodes n ++ allNodesList rest

end

/-- All nodes of a tree. -/
def treeAllNodes (t : BrigadierTree) : List BrigadierTreeNode := allNodesList t.commands

mutual

/-- No `Redirect` children set anywhere in the subtree. -/
def noRedirectsB : BrigadierTreeNode → Bool
  | .argument _ _ _ _ ch => noRedirectsChildrenB ch
  | .enum _ _ _ ch => noRedirectsChildrenB ch
  | .literal _ _ ch => noRedirectsChildrenB ch

def noRedirectsChildrenB : BrigadierTreeNodeChildren → Bool
  | .nodes l => noRedirectsListB l
  | .redirect _ => false

def noRedirectsListB : List BrigadierTreeNode → Bool
  | [] => true
  | n :: rest => noRedirectsB n && noRedirectsListB rest

end

mutual

/-- No empty redirect path anywhere in the subtree (the data-model invariant
"a redirect path is a non-empty sequence"; `handle_execute_command_inner`
panics on an empty one). -/
def noEmptyRedirectB : BrigadierTreeNode → Bool
  | .argument _ _ _ _ ch => noEmptyRedirectChildrenB ch
  | .enum _ _ _ ch => noEmptyRedirectChildrenB ch
  | .literal _ _ ch => noEmptyRedirectChildrenB ch

def noEmptyRedirectChildrenB : BrigadierTreeNodeChildren → Bool
  | .nodes l => noEmptyRedirectListB l
  | .redirect path => !path.isEmpty

def noEmptyRedirectListB : List BrigadierTreeNode → Bool
  | [] => true
  | n :: rest => noEmptyRedirectB n && noEmptyRedirectListB rest

end

/-- No empty redirect path in the tree. -/
def treeNoEmptyRedirectB (t : BrigadierTree) : Bool := noEmptyRedirectListB t.commands

mutual

/-- Is the node's type Argument without a parser, or Root, here or in any
descendant: exactly the `MalformedTree` conditions of
`to_brigadier_tree_node`. -/
def malformedB : BrigadierJsonNode → Bool
  | .mk node_type children _ parser _ _ =>
      (node_type = BrigadierJsonNodeType.root) ||
      (node_type = BrigadierJsonNodeType.argument && parser = none) ||
      (match children with
       | some l => malformedListB l
       | none => false)

def malformedListB : List (String × BrigadierJsonNode) → Bool
  | [] => false
  | (_, c) :: rest => malformedB c || malformedListB rest

end

/-! ### Concrete inputs used by counterexamples and witnesses -/

/-- A childless literal. -/
def litLeaf (nm : String) (ex : Bool) : BrigadierTreeNode := .literal nm ex (.nodes [])

/-- Scenario P-A-3 input: command `t`, Argument `n` (non-executable,
`brigadier:integer`), Literal `done` (executable). -/
def c1InputTree : BrigadierTree :=
  ⟨[.literal "t" false (.nodes [.argument "n" false "brigadier:integer" none
      (.nodes [.literal "done" true (.nodes [])])])]⟩

/-- C3 failing input: command `x` with sibling literals `a`, `b`
(non-executable) and `a|b` (executable), all childless.  The synthesised Enum
`a|b` and the literal `a|b` compare equal in the
`BTreeSet<(BrigadierTreeNode, String)>`, so whichever the HashMap iteration
order processes first survives. -/
def c3InputJson : BrigadierJsonNode :=
  .mk .root (some [("x", .mk .literal (some [
      ("a", .mk .literal none none none none none),
      ("a|b", .mk .literal none (some true) none none none),
      ("b", .mk .literal none none none none none)]) none none none none)])
    none none none none

/-- An `a|b`-named Argument over a single literal child. -/
def c4Arg (inner : String) : BrigadierTreeNode :=
  .argument "a|b" false "p" none (.nodes [litLeaf inner false])

/-- C4 failing input: under `c`, literal `x` has children `a`, `b` (identical
subtrees, merged to an Enum named `a|b` that is then dropped against the
sibling Argument `a|b`) and literal `y` has the Argument alone; after one pass
`x` and `y` have identical children but different recorded canonical strings,
so a second pass merges them. -/
def c4InputTree : BrigadierTree :=
  ⟨[.literal "c" false (.nodes [
      .literal "x" false (.nodes [
        .literal "a" false (.nodes [litLeaf "z" false]),
        c4Arg "w",
        .literal "b" false (.nodes [litLeaf "z" false])]),
      .literal "y" false (.nodes [c4Arg "w"])])]⟩

/-- C8 input: `function f() { "smelter say"; … }` (span start 0), with a
regular body statement that must be discarded. -/
def c8Function : Option (List Mcfunction) :=
  compile_function (some "f") ⟨[], none⟩
    ⟨["smelter say"], [.expressionStatement (.stringLiteral 20 "hello")]⟩ 0

/-- Pipeline A output on `c3InputJson` when the HashMap processes the
two-literal partition first (the Enum survives the pair-set collision). -/
def c3OutputEnumVariant : String :=
  "type MinecraftCommands = \x7b\n  x: \x7b\n    (opt0: \"a\" | \"b\", callback: \"TODO\"): void;\n  \x7d;\n\x7d;\n\nfunction __emitMacro<Command extends keyof MinecraftCommands>(command: Command): MinecraftCommands[typeof command] \x7b\n  return (...tokens: any[]) => console.log(\"$\", ...tokens);\n\x7d\n\nexport const x = __emitMacro(\"x\");\n"

/-- Pipeline A output on `c3InputJson` when the HashMap processes the
singleton partition first (the executable literal survives the collision). -/
def c3OutputLiteralVariant : String :=
  "type MinecraftCommands = \x7b\n  x: \x7b\n    (opt0: \"a|b\"): void;\n  \x7d;\n\x7d;\n\nfunction __emitMacro<Command extends keyof MinecraftCommands>(command: Command): MinecraftCommands[typeof command] \x7b\n  return (...tokens: any[]) => console.log(\"$\", ...tokens);\n\x7d\n\nexport const x = __emitMacro(\"x\");\n"

/-- The emitted TypeScript for `c1InputTree`: one variant for `t`, whose
trailing literal parameter is `opt0: "done"` and not optional. -/
def c1Output : String :=
  "type MinecraftCommands = \x7b\n  t: \x7b\n    (n: \"brigadier:integer\", opt0: \"done\"): void;\n  \x7d;\n\x7d;\n\nfunction __emitMacro<Command extends keyof MinecraftCommands>(command: Command): MinecraftCommands[typeof command] \x7b\n  return (...tokens: any[]) => console.log(\"$\", ...tokens);\n\x7d\n\nexport const t = __emitMacro(\"t\");\n"

/-- The literal-sibling origin of an Enum's values: a shared canonical string
`canon` such that every value names a Literal member of `l` carrying the
Enum's executable flag whose rewritten subtree has canonical string `canon`
(the consolidation partition key). -/
def enumFromSiblings (ord : MergeOrd) (values : List String) (ex : Bool)
    (l : List BrigadierTreeNode) : Prop :=
  ∃ canon : String, ∀ v ∈ values, ∃ chl : BrigadierTreeNodeChildren,
    BrigadierTreeNode.literal v ex chl ∈ l ∧
    (consolidate_literals_into_enums_inner ord (BrigadierTreeNode.literal v ex chl)).2 =
      canon

/-- Some node of `scope` has a `Nodes` children set from whose Literal members
the Enum's values were drawn. -/
def enumOriginIn (ord : MergeOrd) (values : List String) (ex : Bool)
    (scope : List BrigadierTreeNode) : Prop :=
  ∃ p ∈ scope, ∃ cs : List BrigadierTreeNode,
    p.get_children_or_redirect = BrigadierTreeNodeChildren.nodes cs ∧
    enumFromSiblings ord values ex cs

/-- C5 witness input: command `x` over executable literal leaves `a` and `b`
(identical empty subtrees, so consolidation merges them into an Enum). -/
def c5InputTree : BrigadierTree :=
  ⟨[.literal "x" false (.nodes [litLeaf "a" true, litLeaf "b" true])]⟩

/-- The Enum synthesised from `a` and `b` in `c5InputTree`. -/
def c5EnumNode : BrigadierTreeNode :=
  .enum "a|b" ["a", "b"] true (.nodes [])

/-- Strict name order on (node, canon) pairs. -/
abbrev pairNameLt (a b : BrigadierTreeNode × String) : Prop :=
  strLt a.1.get_name b.1.get_name = true

/-- The merge-candidates partition key of a Literal pair. -/
def litKey : BrigadierTreeNode × String → Option (String × Bool)
  | (.literal _ ex _, s) => some (s, ex)
  | _ => none

/-- The singleton merge-candidates entry contributed by a Literal pair. -/
def litEntry : BrigadierTreeNode × String → Option ((String × Bool) × List MergeCandidate)
  | (.literal nm ex ch, s) => some ((s, ex), [(nm, ch)])
  | _ => none

/-- The pair (if any) that the second consolidation loop inserts for one
merge-candidates entry. -/
def mergeEntryPair : (String × Bool) × List MergeCandidate →
    Option (BrigadierTreeNode × String)
  | (_, []) => none
  | ((s, ex), [single]) => some (.literal single.1 ex single.2, s)
  | ((s, ex), candidates) =>
      some (.enum (sjoin "|" (candidates.map (fun c => c.1)))
        (candidates.map (fun c => c.1)) ex
        ((candidates.getLastD ("", .nodes [])).2), s)

/-- The pair list produced by the two loops of one consolidation step. -/
def consolidatePairs (ord : MergeOrd) (l : List BrigadierTreeNode) :
    List (BrigadierTreeNode × String) :=
  (ord ((consolidateList ord l).foldl consolidateAccumulate ([], [])).2).foldl
    consolidateMerge ((consolidateList ord l).foldl consolidateAccumulate ([], [])).1

/-! ### Theorems -/

/-- C1 (counterexample): on the P-A-3 input, enumeration produces exactly one
variant for `t`, but its trailing Literal token has `is_optional = false` and
is rendered `opt0: "done"` — not the optional `opt1?: "done"` the claim
states.  (No emit point is reached at the non-executable Argument `n`, so the
optional-suffix walk never runs; the emit point is `done` itself.) -/
theorem claim_C1_counterexample :
    commandMapFromTree id c1InputTree =
      some [("t", [[CommandToken.argument "n" "brigadier:integer" false,
                    CommandToken.literal "done" false]])] ∧
    variantParameters [CommandToken.argument "n" "brigadier:integer" false,
        CommandToken.literal "done" false] =
      some ["n: \"brigadier:integer\"", "opt0: \"done\""] :=
  ⟨rfl, rfl⟩

set_option maxRecDepth 4000 in
/-- C1 (amended): command enumeration plus TypeScript emission on the P-A-3
input produce exactly one variant for `t`, emitted as the signature
`(n: "brigadier:integer", opt0: "done"): void`, with the trailing Literal
token required (not optional). -/
theorem claim_C1 :
    (commandMapFromTree id c1InputTree).bind write_to_typescript = some c1Output :=
  rfl

/-- C2: the `resolve` runtime-library Mcfunction's recursive call on the
parent environment references the function as `smelter_resolve` (underscore
form), and the colon-form line the claim requires appears nowhere in its
body. -/
theorem claim_C2 :
    compile_identifier_resolution.body.getLast? =
      some "return run function smelter_resolve with storage smelter:smelter internal.resolve_args" ∧
    "return run function smelter:resolve with storage smelter:smelter internal.resolve_args" ∉
      compile_identifier_resolution.body :=
  ⟨rfl, by decide⟩

set_option maxRecDepth 4000 in
/-- C3: Pipeline A is not deterministic.  On `c3InputJson`, two legitimate
HashMap iteration orders of the merge-candidate partitions (first-encounter
order and its reverse — any permutation is realizable) produce different
emitted texts: the synthesised Enum `a|b` and the executable literal `a|b`
compare equal in the `BTreeSet<(BrigadierTreeNode, String)>`, so whichever is
inserted first survives. -/
theorem claim_C3 :
    (∀ l : MergeCandidates, List.Perm l.reverse l) ∧
    runPipelineA id c3InputJson = some c3OutputEnumVariant ∧
    runPipelineA (fun l => l.reverse) c3InputJson = some c3OutputLiteralVariant ∧
    c3OutputEnumVariant ≠ c3OutputLiteralVariant :=
  ⟨fun l => l.reverse_perm, rfl, rfl, by decide⟩

/-- C4 (counterexample): consolidation is not idempotent.  On `c4InputTree`
(whose node names contain `|`), one pass produces no Enum node but a second
pass merges the now-identical literals `x` and `y` into an Enum `x|y`. -/
theorem claim_C4_counterexample :
    consolidate_literals_into_enums id (consolidate_literals_into_enums id c4InputTree) ≠
      consolidate_literals_into_enums id c4InputTree ∧
    treeCountEnums (consolidate_literals_into_enums id
      (consolidate_literals_into_enums id c4InputTree)) = 1 ∧
    treeCountEnums (consolidate_literals_into_enums id c4InputTree) = 0 := by
  have h1 : treeCountEnums (consolidate_literals_into_enums id
      (consolidate_literals_into_enums id c4InputTree)) = 1 := rfl
  have h0 : treeCountEnums (consolidate_literals_into_enums id c4InputTree) = 0 := rfl
  refine ⟨fun h => ?_, h1, h0⟩
  rw [h, h0] at h1
  exact absurd h1 (by omega)

/-- C8 (counterexample): a `smelter say` directive yields exactly two
Mcfunctions, but the macro function's body is three lines (debug-logging lines
around `$say $(tail)`), not the single line the claim states. -/
theorem claim_C8_counterexample :
    c8Function = some
      [{ name := "f_0", body := compile_command_wrapper_function_body "say" },
       { name := "say_macro",
         body := ["$" ++ debug_log "entering macro function say: tail=$(tail)",
                  "$say $(tail)",
                  debug_log "exiting macro function say"] }] ∧
    (compile_command_macro_function "say").body ≠ ["$say $(tail)"] :=
  ⟨rfl, by decide⟩

/-- C8 (amended): for every function whose directives include one starting
with `smelter` whose second space-separated token is a command name `command`,
compilation returns exactly two Mcfunctions — the wrapper under the usual
naming scheme and `<command>_macro`, whose body is the three lines shown (its
second line being `$<command> $(tail)`) — and none of the regular body
statements are lowered. -/
theorem claim_C8 (id : Option String) (parameters : FormalParameters)
    (body : FunctionBody) (spanStart : Nat) (directive command : String)
    (hfind : body.directives.find? (fun d => strStartsWith d "smelter") = some directive)
    (hcmd : ((splitOnChar ' ' directive.data).map String.mk)[1]? = some command) :
    compile_function id parameters body spanStart =
      some [{ name := make_function_name id spanStart,
              body := compile_command_wrapper_function_body command },
            { name := command ++ "_macro",
              body := ["$" ++ debug_log ("entering macro function " ++ command ++ ": tail=$(tail)"),
                       "$" ++ command ++ " $(tail)",
                       debug_log ("exiting macro function " ++ command)] }] := by
  unfold compile_function
  rw [hfind]
  dsimp only
  rw [hcmd]
  rfl

/-- C8 witness: the amended theorem applied to the concrete
`function f() { "smelter say"; … }` input. -/
theorem claim_C8_witness :
    compile_function (some "f") ⟨[], none⟩
      ⟨["smelter say"], [.expressionStatement (.stringLiteral 20 "hello")]⟩ 0 =
      some [{ name := make_function_name (some "f") 0,
              body := compile_command_wrapper_function_body "say" },
            { name := "say" ++ "_macro",
              body := ["$" ++ debug_log ("entering macro function " ++ "say" ++ ": tail=$(tail)"),
                       "$" ++ "say" ++ " $(tail)",
                       debug_log ("exiting macro function " ++ "say")] }] :=
  claim_C8 (some "f") ⟨[], none⟩
    ⟨["smelter say"], [.expressionStatement (.stringLiteral 20 "hello")]⟩ 0
    "smelter say" "say" rfl rfl

/-! ### Helper lemmas about the split/emission primitives -/

theorem splitOnChar_ne_nil (sep : Char) (l : List Char) : splitOnChar sep l ≠ [] := by
  induction l with
  | nil => simp [splitOnChar]
  | cons c rest ih =>
    by_cases hc : c = sep
    · simp [splitOnChar, hc]
    · simp only [splitOnChar, if_neg hc]
      cases h : splitOnChar sep rest with
      | nil => simp
      | cons s ss => simp

theorem splitOnChar_append (sep : Char) (xs ys : List Char) :
    splitOnChar sep (xs ++ sep :: ys) = splitOnChar sep xs ++ splitOnChar sep ys := by
  induction xs with
  | nil => simp [splitOnChar]
  | cons c rest ih =>
    by_cases hc : c = sep
    · subst hc
      simp [splitOnChar, ih]
    · simp only [List.cons_append, splitOnChar, if_neg hc, List.append_eq, ih]
      cases h : splitOnChar sep rest with
      | nil => exact absurd h (splitOnChar_ne_nil sep rest)
      | cons s ss => simp [h]

theorem optionMapM_eq_none {α β : Type} (f : α → Option β) {l : List α} {x : α}
    (hx : x ∈ l) (hf : f x = none) : l.mapM f = none := by
  induction l with
  | nil => cases hx
  | cons a as ih =>
    rw [List.mapM_cons]
    rcases List.mem_cons.mp hx with h | h
    · subst h
      rw [hf]
      rfl
    · cases hfa : f a with
      | none => rfl
      | some y =>
        have hnone : as.mapM f = none := ih h
        simp only [hfa, hnone]
        rfl

theorem optionFoldlM_eq_none {α β : Type} (step : β → α → Option β) {l : List α} {x : α}
    (hx : x ∈ l) (hf : ∀ acc, step acc x = none) :
    ∀ acc, l.foldlM step acc = none := by
  induction l with
  | nil => cases hx
  | cons a as ih =>
    intro acc
    rw [List.foldlM_cons]
    rcases List.mem_cons.mp hx with h | h
    · subst h
      rw [hf acc]
      rfl
    · cases hfa : step acc a with
      | none => rfl
      | some acc2 => simpa [hfa] using ih h acc2

/-- C10: `fix_identifier` panics on every identifier with a trailing dash or
two consecutive dashes (such identifiers have an empty dash-separated segment
after the first, whose `[0..1]` byte slice is out of range), and emission of
any `CommandMap` containing such a command name or such an Argument token name
fails. -/
theorem claim_C10 (s : String)
    (hbad : (∃ xs, s.data = xs ++ ['-']) ∨ ∃ a b, s.data = a ++ '-' :: '-' :: b) :
    fix_identifier s = none ∧
    (∀ (m : CommandMap) (variants : List (List CommandToken)),
      (s, variants) ∈ m → write_to_typescript m = none) ∧
    (∀ (m : CommandMap) (name : String) (variants : List (List CommandToken))
      (tokens : List CommandToken) (parser : String) (opt : Bool),
      (name, variants) ∈ m → tokens ∈ variants →
      CommandToken.argument s parser opt ∈ tokens → write_to_typescript m = none) := by
  have hmem : [] ∈ (splitOnDash s.data).tail := by
    rcases hbad with ⟨xs, hxs⟩ | ⟨a, b, hab⟩
    · rw [show splitOnDash s.data = splitOnChar '-' (xs ++ '-' :: []) by rw [← hxs]; rfl]
      rw [splitOnChar_append]
      rcases List.exists_cons_of_ne_nil (splitOnChar_ne_nil '-' xs) with ⟨s0, ss0, h⟩
      rw [h]
      simp [splitOnChar]
    · rw [show splitOnDash s.data = splitOnChar '-' (a ++ '-' :: ('-' :: b)) by rw [← hab]; rfl]
      rw [splitOnChar_append]
      rcases List.exists_cons_of_ne_nil (splitOnChar_ne_nil '-' a) with ⟨s0, ss0, h⟩
      rw [h]
      simp [splitOnChar]
  have htail : (splitOnDash s.data).tail.mapM capitalizeSegment = none :=
    optionMapM_eq_none capitalizeSegment hmem rfl
  have hfix : fix_identifier s = none := by
    show ((splitOnDash s.data).tail.mapM capitalizeSegment >>= _) = none
    rw [htail]
    rfl
  refine ⟨hfix, ?_, ?_⟩
  · intro m variants hm
    have hline : exportLine (s, variants) = none := by
      show (fix_identifier s >>= _) = none
      rw [hfix]
      rfl
    have hmap : m.mapM exportLine = none := optionMapM_eq_none exportLine hm hline
    unfold write_to_typescript
    cases hblocks : m.mapM commandBlock with
    | none => rfl
    | some blocks =>
      show (m.mapM exportLine >>= _) = none
      rw [hmap]
      rfl
  · intro m name variants tokens parser opt hm hv ht
    have hstep : ∀ (acc : List String × Nat),
        variantParametersStep acc (CommandToken.argument s parser opt) = none := by
      intro acc
      have htok : tokenParameter acc.2 (CommandToken.argument s parser opt) = none := by
        show (fix_identifier s >>= _) = none
        rw [hfix]
        rfl
      show (tokenParameter acc.2 (CommandToken.argument s parser opt) >>= _) = none
      rw [htok]
      rfl
    have hvp : variantParameters tokens = none := by
      unfold variantParameters
      rw [optionFoldlM_eq_none variantParametersStep ht hstep (([], 0) : List String × Nat)]
      rfl
    have hvl : variantLine tokens = none := by
      show (variantParameters tokens >>= _) = none
      rw [hvp]
      rfl
    have hblock : commandBlock (name, variants) = none := by
      show ((variants.mapM variantLine : Option (List String)) >>= _) = none
      rw [optionMapM_eq_none variantLine hv hvl]
      rfl
    have hmap : m.mapM commandBlock = none := optionMapM_eq_none commandBlock hm hblock
    unfold write_to_typescript
    rw [hmap]
    rfl

/-- C10 witness: the trailing-dash name `foo-` panics `fix_identifier` and
fails whole-map emission when present as a command name. -/
theorem claim_C10_witness :
    fix_identifier "foo-" = none ∧ write_to_typescript [("foo-", [])] = none := by
  have h := claim_C10 "foo-" (Or.inl ⟨['f', 'o', 'o'], rfl⟩)
  exact ⟨h.1, h.2.1 [("foo-", [])] [] (List.Mem.head _)⟩

/-! ### Tree-builder error behaviour (C9) -/

mutual

theorem toNode_spec (name : String) (j : BrigadierJsonNode) (depth : Nat) :
    ((∃ e, to_brigadier_tree_node name j depth = Except.error e) ↔ malformedB j = true) ∧
    (∀ e, to_brigadier_tree_node name j depth = Except.error e →
      ∃ msg, e = ConversionError.malformedTree msg) :=
  match j with
  | .mk ty ch ex p pr rd => by
    cases ch with
    | some l =>
      have hIH := childrenToNodes_spec l (depth + 1)
      cases hcl : jsonChildrenToNodes l (depth + 1) with
      | error e =>
        have hl : malformedListB l = true := hIH.1.mp ⟨e, hcl⟩
        have hch : to_brigadier_tree_node name (.mk ty (some l) ex p pr rd) depth =
            Except.error e := by
          simp only [to_brigadier_tree_node, hcl]
          rfl
        refine ⟨⟨fun _ => ?_, fun _ => ⟨e, hch⟩⟩, fun e2 he2 => ?_⟩
        · simp [malformedB, hl]
        · rw [hch] at he2
          cases he2
          exact hIH.2 e hcl
      | ok conv =>
        have hl : malformedListB l = false := by
          by_contra hcon
          rcases hIH.1.mpr (by simpa using hcon) with ⟨e, he⟩
          rw [hcl] at he
          cases he
        have hch : to_brigadier_tree_node name (.mk ty (some l) ex p pr rd) depth =
            (match ty with
             | BrigadierJsonNodeType.argument =>
                match p with
                | some parser => Except.ok (BrigadierTreeNode.argument name (ex.getD false)
                    parser pr (BrigadierTreeNodeChildren.nodes (collectNodes conv)))
                | none => Except.error (ConversionError.malformedTree
                    "Found a `type=argument` node without a `parser`.")
             | BrigadierJsonNodeType.literal => Except.ok (BrigadierTreeNode.literal name
                 (ex.getD false) (BrigadierTreeNodeChildren.nodes (collectNodes conv)))
             | BrigadierJsonNodeType.root => Except.error (ConversionError.malformedTree
                 "Found a `type=root` node within the JSON tree.")) := by
          simp only [to_brigadier_tree_node, hcl]
          rfl
        cases ty with
        | argument =>
          cases p with
          | some parser =>
            dsimp only at hch
            refine ⟨?_, fun e he => ?_⟩
            · simp [hch, malformedB, hl]
            · rw [hch] at he
              cases he
          | none =>
            dsimp only at hch
            refine ⟨?_, fun e he => ?_⟩
            · simp [hch, malformedB]
            · rw [hch] at he
              cases he
              exact ⟨_, rfl⟩
        | literal =>
          dsimp only at hch
          refine ⟨?_, fun e he => ?_⟩
          · simp [hch, malformedB, hl]
          · rw [hch] at he
            cases he
        | root =>
          dsimp only at hch
          refine ⟨?_, fun e he => ?_⟩
          · simp [hch, malformedB]
          · rw [hch] at he
            cases he
            exact ⟨_, rfl⟩
    | none =>
      obtain ⟨chv, hch⟩ : ∃ chv, to_brigadier_tree_node name (.mk ty none ex p pr rd) depth =
          (match ty with
           | BrigadierJsonNodeType.argument =>
              match p with
              | some parser => Except.ok (BrigadierTreeNode.argument name (ex.getD false)
                  parser pr chv)
              | none => Except.error (ConversionError.malformedTree
                  "Found a `type=argument` node without a `parser`.")
           | BrigadierJsonNodeType.literal => Except.ok (BrigadierTreeNode.literal name
               (ex.getD false) chv)
           | BrigadierJsonNodeType.root => Except.error (ConversionError.malformedTree
               "Found a `type=root` node within the JSON tree.")) := by
        cases rd with
        | some path =>
          refine ⟨BrigadierTreeNodeChildren.redirect path, ?_⟩
          simp only [to_brigadier_tree_node]
          cases ty with
          | argument => cases p <;> rfl
          | literal => rfl
          | root => rfl
        | none =>
          refine ⟨BrigadierTreeNodeChildren.nodes [], ?_⟩
          simp only [to_brigadier_tree_node]
          cases ty with
          | argument => cases p <;> rfl
          | literal => rfl
          | root => rfl
      cases ty with
      | argument =>
        cases p with
        | some parser =>
          dsimp only at hch
          refine ⟨?_, fun e he => ?_⟩
          · simp [hch, malformedB]
          · rw [hch] at he
            cases he
        | none =>
          dsimp only at hch
          refine ⟨?_, fun e he => ?_⟩
          · simp [hch, malformedB]
          · rw [hch] at he
            cases he
            exact ⟨_, rfl⟩
      | literal =>
        dsimp only at hch
        refine ⟨?_, fun e he => ?_⟩
        · simp [hch, malformedB]
        · rw [hch] at he
          cases he
      | root =>
        dsimp only at hch
        refine ⟨?_, fun e he => ?_⟩
        · simp [hch, malformedB]
        · rw [hch] at he
          cases he
          exact ⟨_, rfl⟩

theorem childrenToNodes_spec (l : List (String × BrigadierJsonNode)) (depth : Nat) :
    ((∃ e, jsonChildrenToNodes l depth = Except.error e) ↔ malformedListB l = true) ∧
    (∀ e, jsonChildrenToNodes l depth = Except.error e →
      ∃ msg, e = ConversionError.malformedTree msg) :=
  match l with
  | [] => by
    refine ⟨?_, fun e he => ?_⟩
    · simp [jsonChildrenToNodes, malformedListB]
      intro e he
      cases he
    · simp only [jsonChildrenToNodes] at he
      cases he
  | (nm, c) :: rest => by
    have hc := toNode_spec nm c depth
    have hr := childrenToNodes_spec rest depth
    cases hnode : to_brigadier_tree_node nm c depth with
    | error e =>
      have heval : jsonChildrenToNodes ((nm, c) :: rest) depth = Except.error e := by
        simp only [jsonChildrenToNodes, hnode]
        rfl
      refine ⟨⟨fun _ => ?_, fun _ => ⟨e, heval⟩⟩, fun e2 he2 => ?_⟩
      · simp [malformedListB, hc.1.mp ⟨e, hnode⟩]
      · rw [heval] at he2
        cases he2
        exact hc.2 e hnode
    | ok n =>
      have hcm : malformedB c = false := by
        by_contra hcon
        rcases hc.1.mpr (by simpa using hcon) with ⟨e, he⟩
        rw [hnode] at he
        cases he
      cases hrest : jsonChildrenToNodes rest depth with
      | error e =>
        have heval : jsonChildrenToNodes ((nm, c) :: rest) depth = Except.error e := by
          simp only [jsonChildrenToNodes, hnode, hrest]
          rfl
        refine ⟨⟨fun _ => ?_, fun _ => ⟨e, heval⟩⟩, fun e2 he2 => ?_⟩
        · simp [malformedListB, hr.1.mp ⟨e, hrest⟩]
        · rw [heval] at he2
          cases he2
          exact hr.2 e hrest
      | ok ns =>
        have hrm : malformedListB rest = false := by
          by_contra hcon
          rcases hr.1.mpr (by simpa using hcon) with ⟨e, he⟩
          rw [hrest] at he
          cases he
        have heval : jsonChildrenToNodes ((nm, c) :: rest) depth = Except.ok (n :: ns) := by
          simp only [jsonChildrenToNodes, hnode, hrest]
          rfl
        refine ⟨?_, fun e he => ?_⟩
        · simp [heval, malformedListB, hcm, hrm]
        · rw [heval] at he
          cases he

end

/-- The `executable` field defaults to `false` when absent. -/
theorem toNode_executable_default (name : String) (j : BrigadierJsonNode) (depth : Nat)
    (hex : j.executable = none) (n : BrigadierTreeNode)
    (hok : to_brigadier_tree_node name j depth = Except.ok n) :
    n.is_executable = false := by
  rcases j with ⟨ty, ch, ex, p, pr, rd⟩
  cases hex
  cases ch with
  | some l =>
    cases hcl : jsonChildrenToNodes l (depth + 1) with
    | error e =>
      rw [show to_brigadier_tree_node name (.mk ty (some l) none p pr rd) depth =
          Except.error e by simp only [to_brigadier_tree_node, hcl]; rfl] at hok
      cases hok
    | ok conv =>
      cases ty with
      | argument =>
        cases p with
        | some parser =>
          rw [show to_brigadier_tree_node name
              (.mk .argument (some l) none (some parser) pr rd) depth =
              Except.ok (BrigadierTreeNode.argument name false parser pr
                (BrigadierTreeNodeChildren.nodes (collectNodes conv))) by
            simp only [to_brigadier_tree_node, hcl]; rfl] at hok
          cases hok
          rfl
        | none =>
          rw [show to_brigadier_tree_node name
              (.mk .argument (some l) none none pr rd) depth =
              Except.error (ConversionError.malformedTree
                "Found a `type=argument` node without a `parser`.") by
            simp only [to_brigadier_tree_node, hcl]; rfl] at hok
          cases hok
      | literal =>
        rw [show to_brigadier_tree_node name (.mk .literal (some l) none p pr rd) depth =
            Except.ok (BrigadierTreeNode.literal name false
              (BrigadierTreeNodeChildren.nodes (collectNodes conv))) by
          simp only [to_brigadier_tree_node, hcl]; rfl] at hok
        cases hok
        rfl
      | root =>
        rw [show to_brigadier_tree_node name (.mk .root (some l) none p pr rd) depth =
            Except.error (ConversionError.malformedTree
              "Found a `type=root` node within the JSON tree.") by
          simp only [to_brigadier_tree_node, hcl]; rfl] at hok
        cases hok
  | none =>
    obtain ⟨chv, hch⟩ : ∃ chv, to_brigadier_tree_node name (.mk ty none none p pr rd) depth =
        (match ty with
         | BrigadierJsonNodeType.argument =>
            match p with
            | some parser => Except.ok (BrigadierTreeNode.argument name false parser pr chv)
            | none => Except.error (ConversionError.malformedTree
                "Found a `type=argument` node without a `parser`.")
         | BrigadierJsonNodeType.literal => Except.ok (BrigadierTreeNode.literal name false chv)
         | BrigadierJsonNodeType.root => Except.error (ConversionError.malformedTree
             "Found a `type=root` node within the JSON tree.")) := by
      cases rd with
      | some path =>
        refine ⟨BrigadierTreeNodeChildren.redirect path, ?_⟩
        simp only [to_brigadier_tree_node]
        cases ty with
        | argument => cases p <;> rfl
        | literal => rfl
        | root => rfl
      | none =>
        refine ⟨BrigadierTreeNodeChildren.nodes [], ?_⟩
        simp only [to_brigadier_tree_node]
        cases ty with
        | argument => cases p <;> rfl
        | literal => rfl
        | root => rfl
    cases ty with
    | argument =>
      cases p with
      | some parser =>
        dsimp only at hch
        rw [hch] at hok
        cases hok
        rfl
      | none =>
        dsimp only at hch
        rw [hch] at hok
        cases hok
    | literal =>
      dsimp only at hch
      rw [hch] at hok
      cases hok
      rfl
    | root =>
      dsimp only at hch
      rw [hch] at hok
      cases hok

set_option maxRecDepth 2000 in
/-- C9: conversion of a JSON node returns a `MalformedTree` error exactly when
the node or one of its descendants is an Argument without a parser or a Root
(to_brigadier_tree_node is only invoked below the outermost level); every
error it returns is of kind `MalformedTree`; and when conversion succeeds with
`executable` absent, the resulting node's executable flag is `false`. -/
theorem claim_C9 (name : String) (j : BrigadierJsonNode) (depth : Nat) :
    ((∃ e, to_brigadier_tree_node name j depth = Except.error e) ↔ malformedB j = true) ∧
    (∀ e, to_brigadier_tree_node name j depth = Except.error e →
      ∃ msg, e = ConversionError.malformedTree msg) ∧
    (j.executable = none → ∀ n, to_brigadier_tree_node name j depth = Except.ok n →
      n.is_executable = false) :=
  ⟨(toNode_spec name j depth).1, (toNode_spec name j depth).2,
   fun hex n hok => toNode_executable_default name j depth hex n hok⟩

/-- C9 witness: a parserless Argument node is malformed (conversion fails),
and a plain literal node without `executable` converts to a non-executable
node. -/
theorem claim_C9_witness :
    malformedB (.mk .argument none none none none none) = true ∧
    (BrigadierTreeNode.literal "lit" false (.nodes [])).is_executable = false := by
  constructor
  · exact ((claim_C9 "a" (.mk .argument none none none none none) 1).1).mp ⟨_, rfl⟩
  · exact (claim_C9 "lit" (.mk .literal none none none none none) 1).2.2 rfl
      (BrigadierTreeNode.literal "lit" false (.nodes [])) rfl

/-! ### Order and sorted-insertion lemmas -/

theorem charListLt_trichotomy : ∀ a b : List Char,
    charListLt a b = true ∨ a = b ∨ charListLt b a = true := by
  intro a
  induction a with
  | nil =>
    intro b
    cases b with
    | nil => exact Or.inr (Or.inl rfl)
    | cons x xs => exact Or.inl rfl
  | cons x xs ih =>
    intro b
    cases b with
    | nil => exact Or.inr (Or.inr rfl)
    | cons y ys =>
      rcases lt_trichotomy x y with h | h | h
      · exact Or.inl (by simp [charListLt, h])
      · subst h
        rcases ih ys with h2 | h2 | h2
        · exact Or.inl (by simp [charListLt, h2])
        · exact Or.inr (Or.inl (by rw [h2]))
        · exact Or.inr (Or.inr (by simp [charListLt, h2]))
      · exact Or.inr (Or.inr (by simp [charListLt, h]))

theorem strLt_total (a b : String) : strLt a b = true ∨ a = b ∨ strLt b a = true := by
  rcases charListLt_trichotomy a.data b.data with h | h | h
  · exact Or.inl h
  · refine Or.inr (Or.inl ?_)
    cases a
    cases b
    exact congrArg String.mk (by simpa using h)
  · exact Or.inr (Or.inr h)

theorem namesSortedB_tail {a : BrigadierTreeNode} {l : List BrigadierTreeNode}
    (h : namesSortedB (a :: l) = true) : namesSortedB l = true := by
  cases l with
  | nil => rfl
  | cons b rest =>
    simp only [namesSortedB, Bool.and_eq_true] at h
    exact h.2

theorem namesSortedB_cons {a b : BrigadierTreeNode} {l : List BrigadierTreeNode}
    (h : namesSortedB (a :: b :: l) = true) : strLt a.get_name b.get_name = true := by
  simp only [namesSortedB, Bool.and_eq_true] at h
  exact h.1

theorem namesSortedB_cons_of {a b : BrigadierTreeNode} {l : List BrigadierTreeNode}
    (h1 : strLt a.get_name b.get_name = true) (h2 : namesSortedB (b :: l) = true) :
    namesSortedB (a :: b :: l) = true := by
  simp only [namesSortedB, Bool.and_eq_true]
  exact ⟨h1, h2⟩

theorem insertNode_sorted (n : BrigadierTreeNode) :
    ∀ l : List BrigadierTreeNode, namesSortedB l = true →
      namesSortedB (insertNode n l) = true ∧
      ∀ m0 : BrigadierTreeNode, strLt m0.get_name n.get_name = true →
        namesSortedB (m0 :: l) = true → namesSortedB (m0 :: insertNode n l) = true := by
  intro l
  induction l with
  | nil =>
    intro _
    refine ⟨rfl, fun m0 h0 _ => ?_⟩
    simpa [insertNode, namesSortedB] using h0
  | cons m rest ih =>
    intro h
    have htl : namesSortedB rest = true := namesSortedB_tail h
    by_cases h1 : strLt n.get_name m.get_name = true
    · constructor
      · simp only [insertNode, if_pos h1]
        exact namesSortedB_cons_of h1 h
      · intro m0 h0 _
        simp only [insertNode, if_pos h1]
        exact namesSortedB_cons_of h0 (namesSortedB_cons_of h1 h)
    · by_cases h2 : n.get_name = m.get_name
      · constructor
        · simp only [insertNode, if_neg h1, if_pos h2]
          exact h
        · intro m0 _ hm0
          simp only [insertNode, if_neg h1, if_pos h2]
          exact hm0
      · have hmn : strLt m.get_name n.get_name = true := by
          rcases strLt_total n.get_name m.get_name with hx | hx | hx
          · exact absurd hx h1
          · exact absurd hx h2
          · exact hx
        constructor
        · simp only [insertNode, if_neg h1, if_neg h2]
          exact (ih htl).2 m hmn h
        · intro m0 h0 hm0
          simp only [insertNode, if_neg h1, if_neg h2]
          have hm0m : strLt m0.get_name m.get_name = true := namesSortedB_cons hm0
          cases hval : insertNode n rest with
          | nil =>
            simpa [namesSortedB] using hm0m
          | cons q qs =>
            have := (ih htl).2 m hmn h
            rw [hval] at this
            exact namesSortedB_cons_of hm0m this

theorem foldl_insertNode_sorted (l : List BrigadierTreeNode) :
    ∀ acc : List BrigadierTreeNode, namesSortedB acc = true →
      namesSortedB (l.foldl (fun a n => insertNode n a) acc) = true := by
  induction l with
  | nil => intro acc h; simpa using h
  | cons n rest ih =>
    intro acc h
    simp only [List.foldl_cons]
    exact ih (insertNode n acc) ((insertNode_sorted n acc h).1)

theorem collectNodes_sorted (l : List BrigadierTreeNode) :
    namesSortedB (collectNodes l) = true :=
  foldl_insertNode_sorted l [] rfl

theorem foldl_insertPairNode_sorted (pairs : List (BrigadierTreeNode × String)) :
    ∀ acc : List BrigadierTreeNode, namesSortedB acc = true →
      namesSortedB (pairs.foldl (fun acc cs => insertNode cs.1 acc) acc) = true := by
  induction pairs with
  | nil => intro acc h; simpa using h
  | cons p rest ih =>
    intro acc h
    simp only [List.foldl_cons]
    exact ih (insertNode p.1 acc) ((insertNode_sorted p.1 acc h).1)

/-! ### Membership lemmas for the consolidation folds -/

theorem mem_insertNode {x n : BrigadierTreeNode} :
    ∀ {l : List BrigadierTreeNode}, x ∈ insertNode n l → x = n ∨ x ∈ l := by
  intro l
  induction l with
  | nil =>
    intro h
    simpa [insertNode] using h
  | cons m rest ih =>
    intro h
    by_cases h1 : strLt n.get_name m.get_name = true
    · simp only [insertNode, if_pos h1] at h
      rcases List.mem_cons.mp h with h | h
      · exact Or.inl h
      · exact Or.inr h
    · by_cases h2 : n.get_name = m.get_name
      · simp only [insertNode, if_neg h1, if_pos h2] at h
        exact Or.inr h
      · simp only [insertNode, if_neg h1, if_neg h2] at h
        rcases List.mem_cons.mp h with h | h
        · exact Or.inr (List.mem_cons.mpr (Or.inl h))
        · rcases ih h with h | h
          · exact Or.inl h
          · exact Or.inr (List.mem_cons.mpr (Or.inr h))

theorem mem_insertPair {q p : BrigadierTreeNode × String} :
    ∀ {l : List (BrigadierTreeNode × String)}, q ∈ insertPair p l → q = p ∨ q ∈ l := by
  intro l
  induction l with
  | nil =>
    intro h
    simpa [insertPair] using h
  | cons r rest ih =>
    intro h
    by_cases h1 : pairLt p r = true
    · simp only [insertPair, if_pos h1] at h
      rcases List.mem_cons.mp h with h | h
      · exact Or.inl h
      · exact Or.inr h
    · by_cases h2 : pairEq p r = true
      · simp only [insertPair, if_neg h1, if_pos h2] at h
        exact Or.inr h
      · simp only [insertPair, if_neg h1, if_neg h2] at h
        rcases List.mem_cons.mp h with h | h
        · exact Or.inr (List.mem_cons.mpr (Or.inl h))
        · rcases ih h with h | h
          · exact Or.inl h
          · exact Or.inr (List.mem_cons.mpr (Or.inr h))

theorem mem_foldl_insertNode {x : BrigadierTreeNode}
    {pairs : List (BrigadierTreeNode × String)} :
    ∀ {acc : List BrigadierTreeNode},
      x ∈ pairs.foldl (fun acc cs => insertNode cs.1 acc) acc →
      x ∈ acc ∨ ∃ cs ∈ pairs, x = cs.1 := by
  induction pairs with
  | nil =>
    intro acc h
    exact Or.inl (by simpa using h)
  | cons p rest ih =>
    intro acc h
    simp only [List.foldl_cons] at h
    rcases ih h with h | ⟨cs, hcs, hx⟩
    · rcases mem_insertNode h with h | h
      · exact Or.inr ⟨p, List.mem_cons.mpr (Or.inl rfl), h⟩
      · exact Or.inl h
    · exact Or.inr ⟨cs, List.mem_cons.mpr (Or.inr hcs), hx⟩

theorem addCandidate_carries {key0 : String × Bool} {v0 : MergeCandidate}
    {key : String × Bool} {vs : List MergeCandidate} {v : MergeCandidate} :
    ∀ {cands : MergeCandidates}, (key, vs) ∈ addCandidate key0 v0 cands → v ∈ vs →
      (key = key0 ∧ v = v0) ∨ ∃ vs', (key, vs') ∈ cands ∧ v ∈ vs' := by
  intro cands
  induction cands with
  | nil =>
    intro h hv
    simp only [addCandidate, List.mem_singleton] at h
    rw [Prod.mk.injEq] at h
    obtain ⟨h1, h2⟩ := h
    subst h2
    exact Or.inl ⟨h1, List.mem_singleton.mp hv⟩
  | cons e rest ih =>
    obtain ⟨k, vs0⟩ := e
    intro h hv
    by_cases hk : k = key0
    · rw [show addCandidate key0 v0 ((k, vs0) :: rest) = (k, vs0 ++ [v0]) :: rest by
        simp only [addCandidate]; rw [if_pos hk]] at h
      rcases List.mem_cons.mp h with h | h
      · rw [Prod.mk.injEq] at h
        obtain ⟨h1, h2⟩ := h
        subst h2
        rcases List.mem_append.mp hv with h | h
        · exact Or.inr ⟨vs0, List.mem_cons.mpr (Or.inl (by rw [h1])), h⟩
        · exact Or.inl ⟨h1.trans hk, List.mem_singleton.mp h⟩
      · exact Or.inr ⟨vs, List.mem_cons.mpr (Or.inr h), hv⟩
    · rw [show addCandidate key0 v0 ((k, vs0) :: rest) =
          (k, vs0) :: addCandidate key0 v0 rest by
        simp only [addCandidate]; rw [if_neg hk]] at h
      rcases List.mem_cons.mp h with h | h
      · rw [Prod.mk.injEq] at h
        obtain ⟨h1, h2⟩ := h
        subst h2
        exact Or.inr ⟨vs, List.mem_cons.mpr (Or.inl (by rw [h1])), hv⟩
      · rcases ih h hv with h | ⟨vs', hvs', hv'⟩
        · exact Or.inl h
        · exact Or.inr ⟨vs', List.mem_cons.mpr (Or.inr hvs'), hv'⟩

theorem getLastD_mem {α : Type} : ∀ (l : List α) (d : α), l ≠ [] → l.getLastD d ∈ l := by
  intro l
  induction l with
  | nil => intro d h; exact absurd rfl h
  | cons a rest ih =>
    intro d _
    cases rest with
    | nil => simp [List.getLastD]
    | cons b rs =>
      have := ih d (by simp)
      simp only [List.getLastD]
      exact List.mem_cons.mpr (Or.inr this)

theorem nodeListSortedB_iff (l : List BrigadierTreeNode) :
    nodeListSortedB l = true ↔ ∀ x ∈ l, nodeSortedB x = true := by
  induction l with
  | nil => simp [nodeListSortedB]
  | cons n rest ih =>
    simp only [nodeListSortedB, Bool.and_eq_true, ih, List.mem_cons]
    constructor
    · rintro ⟨h1, h2⟩ x (rfl | hx)
      · exact h1
      · exact h2 x hx
    · intro h
      exact ⟨h n (Or.inl rfl), fun x hx => h x (Or.inr hx)⟩

theorem mem_collectNodes {x : BrigadierTreeNode} {l : List BrigadierTreeNode} :
    x ∈ collectNodes l → x ∈ l := by
  have general : ∀ (l : List BrigadierTreeNode) (acc : List BrigadierTreeNode),
      x ∈ l.foldl (fun a n => insertNode n a) acc → x ∈ acc ∨ x ∈ l := by
    intro l
    induction l with
    | nil => intro acc h; exact Or.inl (by simpa using h)
    | cons n rest ih =>
      intro acc h
      simp only [List.foldl_cons] at h
      rcases ih (insertNode n acc) h with h | h
      · rcases mem_insertNode h with h | h
        · exact Or.inr (List.mem_cons.mpr (Or.inl h))
        · exact Or.inl h
      · exact Or.inr (List.mem_cons.mpr (Or.inr h))
  intro h
  rcases general l [] h with h | h
  · cases h
  · exact h

theorem optionMapM_mem {α β : Type} (f : α → Option β) :
    ∀ (l : List α) (l2 : List β), l.mapM f = some l2 →
      ∀ y ∈ l2, ∃ x ∈ l, f x = some y := by
  intro l
  induction l with
  | nil =>
    intro l2 h y hy
    simp only [List.mapM_nil] at h
    cases h
    cases hy
  | cons a rest ih =>
    intro l2 h y hy
    rw [List.mapM_cons] at h
    cases hfa : f a with
    | none => rw [hfa] at h; cases h
    | some b =>
      rw [hfa] at h
      cases hrest : rest.mapM f with
      | none =>
        rw [hrest] at h
        cases h
      | some bs =>
        rw [hrest] at h
        have : l2 = b :: bs := by
          have : some (b :: bs) = some l2 := h
          exact (Option.some.injEq _ _ ▸ this).symm
        subst this
        rcases List.mem_cons.mp hy with rfl | hy
        · exact ⟨a, List.mem_cons.mpr (Or.inl rfl), hfa⟩
        · rcases ih bs hrest y hy with ⟨x, hx, hfx⟩
          exact ⟨x, List.mem_cons.mpr (Or.inr hx), hfx⟩

/-- Characterization of the first consolidation loop: every pair it passes
through came directly from a rewritten non-literal child, and every merge
candidate came from a rewritten literal child with the matching partition
key. -/
theorem consolidateAccumulate_spec (processed : List (BrigadierTreeNode × String)) :
    ∀ acc : List (BrigadierTreeNode × String) × MergeCandidates,
      (∀ q ∈ (processed.foldl consolidateAccumulate acc).1, q ∈ acc.1 ∨ q ∈ processed) ∧
      (∀ (key : String × Bool) (vs : List MergeCandidate) (v : MergeCandidate),
        (key, vs) ∈ (processed.foldl consolidateAccumulate acc).2 → v ∈ vs →
        (∃ vs', (key, vs') ∈ acc.2 ∧ v ∈ vs') ∨
          (BrigadierTreeNode.literal v.1 key.2 v.2, key.1) ∈ processed) := by
  induction processed with
  | nil =>
    intro acc
    exact ⟨fun q hq => Or.inl hq, fun key vs v h hv => Or.inl ⟨vs, h, hv⟩⟩
  | cons cs rest ih =>
    intro acc
    have hstep : ∀ q ∈ (consolidateAccumulate acc cs).1, q ∈ acc.1 ∨ q = cs := by
      rcases cs with ⟨c, s⟩
      cases c with
      | literal nm ex ch => intro q hq; exact Or.inl hq
      | argument nm ex p pr ch =>
        intro q hq
        rcases mem_insertPair hq with h | h
        · exact Or.inr h
        · exact Or.inl h
      | enum nm values ex ch =>
        intro q hq
        rcases mem_insertPair hq with h | h
        · exact Or.inr h
        · exact Or.inl h
    have hstep2 : ∀ (key : String × Bool) (vs : List MergeCandidate) (v : MergeCandidate),
        (key, vs) ∈ (consolidateAccumulate acc cs).2 → v ∈ vs →
        (∃ vs', (key, vs') ∈ acc.2 ∧ v ∈ vs') ∨
          cs = (BrigadierTreeNode.literal v.1 key.2 v.2, key.1) := by
      rcases cs with ⟨c, s⟩
      cases c with
      | literal nm ex ch =>
        intro key vs v h hv
        rcases addCandidate_carries h hv with ⟨hk, hval⟩ | ⟨vs', hvs', hv'⟩
        · subst hk
          subst hval
          exact Or.inr rfl
        · exact Or.inl ⟨vs', hvs', hv'⟩
      | argument nm ex p pr ch => intro key vs v h hv; exact Or.inl ⟨vs, h, hv⟩
      | enum nm values ex ch => intro key vs v h hv; exact Or.inl ⟨vs, h, hv⟩
    constructor
    · intro q hq
      simp only [List.foldl_cons] at hq
      rcases (ih (consolidateAccumulate acc cs)).1 q hq with h | h
      · rcases hstep q h with h | h
        · exact Or.inl h
        · exact Or.inr (List.mem_cons.mpr (Or.inl h))
      · exact Or.inr (List.mem_cons.mpr (Or.inr h))
    · intro key vs v h hv
      simp only [List.foldl_cons] at h
      rcases (ih (consolidateAccumulate acc cs)).2 key vs v h hv with ⟨vs', hvs', hv'⟩ | h
      · rcases hstep2 key vs' v hvs' hv' with h | h
        · exact Or.inl h
        · exact Or.inr (List.mem_cons.mpr (Or.inl h.symm))
      · exact Or.inr (List.mem_cons.mpr (Or.inr h))

/-- Characterization of the second consolidation loop: every pair in the
result was already there, or is a singleton partition's literal, or is an Enum
synthesised from a partition of two or more candidates. -/
theorem consolidateMerge_fold_mem (entries : MergeCandidates) :
    ∀ (acc : List (BrigadierTreeNode × String)) (q : BrigadierTreeNode × String),
      q ∈ entries.foldl consolidateMerge acc →
      q ∈ acc ∨ ∃ entry ∈ entries,
        (∃ single, entry.2 = [single] ∧
          q = (BrigadierTreeNode.literal single.1 entry.1.2 single.2, entry.1.1)) ∨
        (2 ≤ entry.2.length ∧
          q = (BrigadierTreeNode.enum (sjoin "|" (entry.2.map (fun c => c.1)))
            (entry.2.map (fun c => c.1)) entry.1.2
            ((entry.2.getLastD ("", BrigadierTreeNodeChildren.nodes [])).2), entry.1.1)) := by
  induction entries with
  | nil => intro acc q h; exact Or.inl (by simpa using h)
  | cons entry rest ih =>
    intro acc q h
    simp only [List.foldl_cons] at h
    have hstep : q ∈ consolidateMerge acc entry → q ∈ acc ∨
        (∃ single, entry.2 = [single] ∧
          q = (BrigadierTreeNode.literal single.1 entry.1.2 single.2, entry.1.1)) ∨
        (2 ≤ entry.2.length ∧
          q = (BrigadierTreeNode.enum (sjoin "|" (entry.2.map (fun c => c.1)))
            (entry.2.map (fun c => c.1)) entry.1.2
            ((entry.2.getLastD ("", BrigadierTreeNodeChildren.nodes [])).2), entry.1.1)) := by
      rcases entry with ⟨⟨s, ex⟩, candidates⟩
      match candidates with
      | [] => intro hq; exact Or.inl hq
      | [single] =>
        intro hq
        rcases mem_insertPair hq with h | h
        · exact Or.inr (Or.inl ⟨single, rfl, h⟩)
        · exact Or.inl h
      | c1 :: c2 :: crest =>
        intro hq
        rcases mem_insertPair hq with h | h
        · refine Or.inr (Or.inr ⟨by simp, ?_⟩)
          simpa using h
        · exact Or.inl h
    rcases ih (consolidateMerge acc entry) q h with h | ⟨e, he, hp⟩
    · rcases hstep h with h | h
      · exact Or.inl h
      · exact Or.inr ⟨entry, List.mem_cons.mpr (Or.inl rfl), h⟩
    · exact Or.inr ⟨e, List.mem_cons.mpr (Or.inr he), hp⟩

/-! ### Sortedness of the three tree producers (C7) -/

/-- Every node of the consolidated pair set's origin: reduce membership in the
final child set to a pair produced by the loops. -/
theorem consolidateStep_children (ord : MergeOrd) (hord : ∀ l, List.Perm (ord l) l)
    (processed : List (BrigadierTreeNode × String))
    (hproc : ∀ cs ∈ processed, nodeSortedB cs.1 = true) :
    childrenSortedB (consolidateStep ord processed).1 = true := by
  simp only [consolidateStep]
  simp only [childrenSortedB, Bool.and_eq_true]
  constructor
  · exact foldl_insertPairNode_sorted _ [] rfl
  · rw [nodeListSortedB_iff]
    intro x hx
    rcases mem_foldl_insertNode hx with h | ⟨q, hq, hxq⟩
    · cases h
    subst hxq
    rcases consolidateMerge_fold_mem _ _ q hq with h | ⟨entry, hentry, hp⟩
    · rcases (consolidateAccumulate_spec processed ([], [])).1 q h with h | h
      · cases h
      · exact hproc q h
    · have hentry2 : (entry.1, entry.2) ∈ (processed.foldl consolidateAccumulate ([], [])).2 :=
        (hord _).mem_iff.mp hentry
      rcases hp with ⟨single, hs, hq2⟩ | ⟨hlen, hq2⟩
      · subst hq2
        have hsing : single ∈ entry.2 := by
          rw [hs]
          exact List.mem_singleton.mpr rfl
        rcases (consolidateAccumulate_spec processed ([], [])).2 entry.1 entry.2 single
            hentry2 hsing with ⟨vs', hvs', _⟩ | h
        · cases hvs'
        · have := hproc _ h
          simpa [nodeSortedB] using this
      · subst hq2
        have hne : entry.2 ≠ [] := by
          intro hcon
          rw [hcon] at hlen
          simp at hlen
        have hlast := getLastD_mem entry.2 ("", BrigadierTreeNodeChildren.nodes []) hne
        rcases (consolidateAccumulate_spec processed ([], [])).2 entry.1 entry.2
            (entry.2.getLastD ("", BrigadierTreeNodeChildren.nodes []))
            hentry2 hlast with ⟨vs', hvs', _⟩ | h
        · cases hvs'
        · have := hproc _ h
          simpa [nodeSortedB] using this

mutual

theorem consInner_sorted (ord : MergeOrd) (hord : ∀ l, List.Perm (ord l) l) :
    ∀ n : BrigadierTreeNode,
      nodeSortedB (consolidate_literals_into_enums_inner ord n).1 = true
  | .argument name executable parser properties children => by
      simp only [consolidate_literals_into_enums_inner, nodeSortedB]
      exact consChildren_sorted ord hord children
  | .enum name values executable children => by
      simp only [consolidate_literals_into_enums_inner, nodeSortedB]
      exact consChildren_sorted ord hord children
  | .literal name executable children => by
      simp only [consolidate_literals_into_enums_inner, nodeSortedB]
      exact consChildren_sorted ord hord children

theorem consChildren_sorted (ord : MergeOrd) (hord : ∀ l, List.Perm (ord l) l) :
    ∀ ch : BrigadierTreeNodeChildren,
      childrenSortedB (consolidateChildren ord ch).1 = true
  | .redirect path => by simp [consolidateChildren, childrenSortedB]
  | .nodes l => by
      simp only [consolidateChildren]
      exact consolidateStep_children ord hord (consolidateList ord l)
        (consList_sorted ord hord l)

theorem consList_sorted (ord : MergeOrd) (hord : ∀ l, List.Perm (ord l) l) :
    ∀ l : List BrigadierTreeNode,
      ∀ cs ∈ consolidateList ord l, nodeSortedB cs.1 = true
  | [] => by simp [consolidateList]
  | c :: rest => by
      intro cs hcs
      simp only [consolidateList] at hcs
      rcases List.mem_cons.mp hcs with rfl | h
      · exact consInner_sorted ord hord c
      · exact consList_sorted ord hord rest cs h

end

mutual

theorem handleExecInner_sorted :
    ∀ (n n2 : BrigadierTreeNode), nodeSortedB n = true →
      handle_execute_command_inner n = some n2 → nodeSortedB n2 = true
  | .argument name executable parser properties children, n2 => by
      intro hs h
      simp only [handle_execute_command_inner] at h
      cases hch : handleExecuteChildren children with
      | none => rw [hch] at h; cases h
      | some ch2 =>
        rw [hch] at h
        cases h
        simp only [nodeSortedB] at hs ⊢
        exact handleExecChildren_sorted children ch2 hs hch
  | .enum name values executable children, n2 => by
      intro hs h
      simp only [handle_execute_command_inner] at h
      cases hch : handleExecuteChildren children with
      | none => rw [hch] at h; cases h
      | some ch2 =>
        rw [hch] at h
        cases h
        simp only [nodeSortedB] at hs ⊢
        exact handleExecChildren_sorted children ch2 hs hch
  | .literal name executable children, n2 => by
      intro hs h
      simp only [handle_execute_command_inner] at h
      cases hch : handleExecuteChildren children with
      | none => rw [hch] at h; cases h
      | some ch2 =>
        rw [hch] at h
        cases h
        simp only [nodeSortedB] at hs ⊢
        exact handleExecChildren_sorted children ch2 hs hch

theorem handleExecChildren_sorted :
    ∀ (ch ch2 : BrigadierTreeNodeChildren), childrenSortedB ch = true →
      handleExecuteChildren ch = some ch2 → childrenSortedB ch2 = true
  | .nodes l, ch2 => by
      intro hs h
      simp only [handleExecuteChildren] at h
      cases hl : handleExecuteList l with
      | none => rw [hl] at h; cases h
      | some l2 =>
        rw [hl] at h
        cases h
        simp only [childrenSortedB, Bool.and_eq_true] at hs ⊢
        refine ⟨collectNodes_sorted l2, ?_⟩
        rw [nodeListSortedB_iff]
        intro x hx
        exact handleExecList_sorted l l2 ((nodeListSortedB_iff l).mp hs.2)
          hl x (mem_collectNodes hx)
  | .redirect [], ch2 => by
      intro hs h
      simp only [handleExecuteChildren] at h
      cases h
  | .redirect (e :: rest), ch2 => by
      intro hs h
      simp only [handleExecuteChildren] at h
      cases h
      by_cases he : e = "execute"
      · simp [he, childrenSortedB, namesSortedB, nodeListSortedB, nodeSortedB]
      · simp [he, childrenSortedB, namesSortedB, nodeListSortedB]

theorem handleExecList_sorted :
    ∀ (l l2 : List BrigadierTreeNode), (∀ x ∈ l, nodeSortedB x = true) →
      handleExecuteList l = some l2 → ∀ x ∈ l2, nodeSortedB x = true
  | [], l2 => by
      intro hs h
      simp only [handleExecuteList] at h
      cases h
      intro x hx
      cases hx
  | c :: rest, l2 => by
      intro hs h
      simp only [handleExecuteList] at h
      cases hc : handle_execute_command_inner c with
      | none => rw [hc] at h; cases h
      | some c2 =>
        rw [hc] at h
        cases hrest : handleExecuteList rest with
        | none => rw [hrest] at h; cases h
        | some rest2 =>
          rw [hrest] at h
          have hl2 : l2 = c2 :: rest2 := by
            cases h
            rfl
          subst hl2
          intro x hx
          rcases List.mem_cons.mp hx with rfl | hx
          · exact handleExecInner_sorted c x (hs c (List.mem_cons.mpr (Or.inl rfl))) hc
          · exact handleExecList_sorted rest rest2
              (fun y hy => hs y (List.mem_cons.mpr (Or.inr hy))) hrest x hx

end

mutual

theorem toNode_sorted :
    ∀ (name : String) (j : BrigadierJsonNode) (depth : Nat) (n : BrigadierTreeNode),
      to_brigadier_tree_node name j depth = Except.ok n → nodeSortedB n = true
  | name, .mk ty ch ex p pr rd, depth, n => by
      intro h
      cases ty with
      | root =>
        exfalso
        cases ch with
        | some l =>
          cases hcl : jsonChildrenToNodes l (depth + 1) with
          | error e =>
            rw [show to_brigadier_tree_node name (.mk .root (some l) ex p pr rd) depth =
                Except.error e by simp only [to_brigadier_tree_node, hcl]; rfl] at h
            cases h
          | ok conv =>
            rw [show to_brigadier_tree_node name (.mk .root (some l) ex p pr rd) depth =
                Except.error (ConversionError.malformedTree
                  "Found a `type=root` node within the JSON tree.") by
              simp only [to_brigadier_tree_node, hcl]; rfl] at h
            cases h
        | none =>
          cases rd with
          | some path =>
            rw [show to_brigadier_tree_node name (.mk .root none ex p pr (some path)) depth =
                Except.error (ConversionError.malformedTree
                  "Found a `type=root` node within the JSON tree.") by
              simp only [to_brigadier_tree_node]; rfl] at h
            cases h
          | none =>
            rw [show to_brigadier_tree_node name (.mk .root none ex p pr none) depth =
                Except.error (ConversionError.malformedTree
                  "Found a `type=root` node within the JSON tree.") by
              simp only [to_brigadier_tree_node]; rfl] at h
            cases h
      | literal =>
        cases ch with
        | some l =>
          cases hcl : jsonChildrenToNodes l (depth + 1) with
          | error e =>
            rw [show to_brigadier_tree_node name (.mk .literal (some l) ex p pr rd) depth =
                Except.error e by simp only [to_brigadier_tree_node, hcl]; rfl] at h
            cases h
          | ok conv =>
            rw [show to_brigadier_tree_node name (.mk .literal (some l) ex p pr rd) depth =
                Except.ok (BrigadierTreeNode.literal name (ex.getD false)
                  (BrigadierTreeNodeChildren.nodes (collectNodes conv))) by
              simp only [to_brigadier_tree_node, hcl]; rfl] at h
            cases h
            simp only [nodeSortedB, childrenSortedB, Bool.and_eq_true]
            refine ⟨collectNodes_sorted conv, ?_⟩
            rw [nodeListSortedB_iff]
            intro x hx
            exact childrenToNodes_sorted l (depth + 1) conv hcl x (mem_collectNodes hx)
        | none =>
          cases rd with
          | some path =>
            rw [show to_brigadier_tree_node name (.mk .literal none ex p pr (some path)) depth =
                Except.ok (BrigadierTreeNode.literal name (ex.getD false)
                  (BrigadierTreeNodeChildren.redirect path)) by
              simp only [to_brigadier_tree_node]; rfl] at h
            cases h
            rfl
          | none =>
            rw [show to_brigadier_tree_node name (.mk .literal none ex p pr none) depth =
                Except.ok (BrigadierTreeNode.literal name (ex.getD false)
                  (BrigadierTreeNodeChildren.nodes [])) by
              simp only [to_brigadier_tree_node]; rfl] at h
            cases h
            rfl
      | argument =>
        cases p with
        | none =>
          exfalso
          cases ch with
          | some l =>
            cases hcl : jsonChildrenToNodes l (depth + 1) with
            | error e =>
              rw [show to_brigadier_tree_node name (.mk .argument (some l) ex none pr rd) depth =
                  Except.error e by simp only [to_brigadier_tree_node, hcl]; rfl] at h
              cases h
            | ok conv =>
              rw [show to_brigadier_tree_node name (.mk .argument (some l) ex none pr rd) depth =
                  Except.error (ConversionError.malformedTree
                    "Found a `type=argument` node without a `parser`.") by
                simp only [to_brigadier_tree_node, hcl]; rfl] at h
              cases h
          | none =>
            cases rd with
            | some path =>
              rw [show to_brigadier_tree_node name
                  (.mk .argument none ex none pr (some path)) depth =
                  Except.error (ConversionError.malformedTree
                    "Found a `type=argument` node without a `parser`.") by
                simp only [to_brigadier_tree_node]; rfl] at h
              cases h
            | none =>
              rw [show to_brigadier_tree_node name (.mk .argument none ex none pr none) depth =
                  Except.error (ConversionError.malformedTree
                    "Found a `type=argument` node without a `parser`.") by
                simp only [to_brigadier_tree_node]; rfl] at h
              cases h
        | some parser =>
          cases ch with
          | some l =>
            cases hcl : jsonChildrenToNodes l (depth + 1) with
            | error e =>
              rw [show to_brigadier_tree_node name
                  (.mk .argument (some l) ex (some parser) pr rd) depth =
                  Except.error e by simp only [to_brigadier_tree_node, hcl]; rfl] at h
              cases h
            | ok conv =>
              rw [show to_brigadier_tree_node name
                  (.mk .argument (some l) ex (some parser) pr rd) depth =
                  Except.ok (BrigadierTreeNode.argument name (ex.getD false) parser pr
                    (BrigadierTreeNodeChildren.nodes (collectNodes conv))) by
                simp only [to_brigadier_tree_node, hcl]; rfl] at h
              cases h
              simp only [nodeSortedB, childrenSortedB, Bool.and_eq_true]
              refine ⟨collectNodes_sorted conv, ?_⟩
              rw [nodeListSortedB_iff]
              intro x hx
              exact childrenToNodes_sorted l (depth + 1) conv hcl x (mem_collectNodes hx)
          | none =>
            cases rd with
            | some path =>
              rw [show to_brigadier_tree_node name
                  (.mk .argument none ex (some parser) pr (some path)) depth =
                  Except.ok (BrigadierTreeNode.argument name (ex.getD false) parser pr
                    (BrigadierTreeNodeChildren.redirect path)) by
                simp only [to_brigadier_tree_node]; rfl] at h
              cases h
              rfl
            | none =>
              rw [show to_brigadier_tree_node name
                  (.mk .argument none ex (some parser) pr none) depth =
                  Except.ok (BrigadierTreeNode.argument name (ex.getD false) parser pr
                    (BrigadierTreeNodeChildren.nodes [])) by
                simp only [to_brigadier_tree_node]; rfl] at h
              cases h
              rfl

theorem childrenToNodes_sorted :
    ∀ (l : List (String × BrigadierJsonNode)) (depth : Nat) (ns : List BrigadierTreeNode),
      jsonChildrenToNodes l depth = Except.ok ns → ∀ x ∈ ns, nodeSortedB x = true
  | [], depth, ns => by
      intro h x hx
      simp only [jsonChildrenToNodes] at h
      cases h
      cases hx
  | (nm, c) :: rest, depth, ns => by
      intro h x hx
      simp only [jsonChildrenToNodes] at h
      cases hc : to_brigadier_tree_node nm c depth with
      | error e => rw [hc] at h; cases h
      | ok n =>
        rw [hc] at h
        cases hrest : jsonChildrenToNodes rest depth with
        | error e => rw [hrest] at h; cases h
        | ok ns2 =>
          rw [hrest] at h
          have hns : ns = n :: ns2 := by
            cases h
            rfl
          subst hns
          rcases List.mem_cons.mp hx with rfl | hx
          · exact toNode_sorted nm c depth x hc
          · exact childrenToNodes_sorted rest depth ns2 hrest x hx

end

/-- C7: every tree produced by the tree builder, the literal consolidator
(under any HashMap iteration order that permutes the merge-candidate list), or
the redirect rewriter has all its children sets — and the top-level command
set — in strictly ascending lexicographic name order (hence no two siblings
share a name). -/
theorem claim_C7 :
    (∀ (j : BrigadierJsonNode) (t : BrigadierTree), brigadierTreeFromJson j = Except.ok t →
      treeSortedB t = true) ∧
    (∀ ord : MergeOrd, (∀ l, List.Perm (ord l) l) → ∀ t : BrigadierTree,
      treeSortedB (consolidate_literals_into_enums ord t) = true) ∧
    (∀ t t2 : BrigadierTree, treeSortedB t = true → handle_execute_command t = some t2 →
      treeSortedB t2 = true) := by
  refine ⟨?_, ?_, ?_⟩
  · intro j t h
    rcases j with ⟨ty, ch, ex, p, pr, rd⟩
    cases ch with
    | some l =>
      simp only [brigadierTreeFromJson, BrigadierJsonNode.children] at h
      cases hcl : jsonChildrenToNodes l 1 with
      | error e => rw [hcl] at h; cases h
      | ok conv =>
        rw [hcl] at h
        cases h
        simp only [treeSortedB, Bool.and_eq_true]
        refine ⟨collectNodes_sorted conv, ?_⟩
        rw [nodeListSortedB_iff]
        intro x hx
        exact childrenToNodes_sorted l 1 conv hcl x (mem_collectNodes hx)
    | none =>
      simp only [brigadierTreeFromJson, BrigadierJsonNode.children] at h
      cases h
      rfl
  · intro ord hord t
    simp only [consolidate_literals_into_enums, treeSortedB, Bool.and_eq_true]
    refine ⟨collectNodes_sorted _, ?_⟩
    rw [nodeListSortedB_iff]
    intro x hx
    rcases List.mem_map.mp (mem_collectNodes hx) with ⟨n, _, hn⟩
    rw [← hn]
    exact consInner_sorted ord hord n
  · intro t t2 hs h
    simp only [handle_execute_command, Option.bind_eq_bind] at h
    cases hm : t.commands.mapM (fun command =>
        if command.get_name = "execute" then handle_execute_command_inner command
        else some command) with
    | none => rw [hm] at h; cases h
    | some mapped =>
      rw [hm] at h
      have ht2 : t2 = ⟨collectNodes mapped⟩ := by
        cases h
        rfl
      subst ht2
      simp only [treeSortedB, Bool.and_eq_true] at hs ⊢
      refine ⟨collectNodes_sorted mapped, ?_⟩
      rw [nodeListSortedB_iff]
      intro x hx
      rcases optionMapM_mem _ t.commands mapped hm x (mem_collectNodes hx) with ⟨c, hc, hfc⟩
      have hcs : nodeSortedB c = true := (nodeListSortedB_iff t.commands).mp hs.2 c hc
      by_cases hname : c.get_name = "execute"
      · rw [if_pos hname] at hfc
        exact handleExecInner_sorted c x hcs hfc
      · rw [if_neg hname] at hfc
        cases hfc
        exact hcs

theorem charListLt_irrefl : ∀ a : List Char, charListLt a a = false := by
  intro a
  induction a with
  | nil => rfl
  | cons x xs ih => simp [charListLt, ih]

theorem charListLt_asymm : ∀ a b : List Char,
    charListLt a b = true → charListLt b a = false := by
  intro a
  induction a with
  | nil =>
    intro b h
    cases b with
    | nil => cases h
    | cons y ys => rfl
  | cons x xs ih =>
    intro b h
    cases b with
    | nil => cases h
    | cons y ys =>
      by_cases hxy : x < y
      · have hyx : ¬y < x := lt_asymm hxy
        simp [charListLt, hyx, hxy]
      · by_cases hyx : y < x
        · simp [charListLt, hxy, hyx] at h
        · have hxy2 : x = y := le_antisymm (not_lt.mp hyx) (not_lt.mp hxy)
          subst hxy2
          simp only [charListLt, if_neg hxy, if_neg hyx] at h ⊢
          exact ih ys h

theorem charListLt_trans : ∀ a b c : List Char,
    charListLt a b = true → charListLt b c = true → charListLt a c = true := by
  intro a
  induction a with
  | nil =>
    intro b c hab hbc
    cases b with
    | nil => cases hab
    | cons y ys =>
      cases c with
      | nil => cases hbc
      | cons z zs => rfl
  | cons x xs ih =>
    intro b c hab hbc
    cases b with
    | nil => cases hab
    | cons y ys =>
      cases c with
      | nil => cases hbc
      | cons z zs =>
        by_cases hxy : x < y
        · by_cases hyz : y < z
          · simp [charListLt, lt_trans hxy hyz]
          · by_cases hzy : z < y
            · simp [charListLt, hyz, hzy] at hbc
            · have : y = z := le_antisymm (not_lt.mp hzy) (not_lt.mp hyz)
              subst this
              simp [charListLt, hxy]
        · by_cases hyx : y < x
          · simp [charListLt, hxy, hyx] at hab
          · have : x = y := le_antisymm (not_lt.mp hyx) (not_lt.mp hxy)
            subst this
            simp only [charListLt, if_neg hxy, if_neg hyx] at hab
            by_cases hxz : x < z
            · simp [charListLt, hxz]
            · by_cases hzx : z < x
              · simp [charListLt, hxz, hzx] at hbc
              · have : x = z := le_antisymm (not_lt.mp hzx) (not_lt.mp hxz)
                subst this
                simp only [charListLt, if_neg hxz, if_neg hzx] at hbc ⊢
                exact ih ys zs hab hbc

theorem strLt_irrefl (a : String) : strLt a a = false := charListLt_irrefl a.data

theorem strLt_asymm {a b : String} (h : strLt a b = true) : strLt b a = false :=
  charListLt_asymm a.data b.data h

theorem strLt_trans {a b c : String} (hab : strLt a b = true) (hbc : strLt b c = true) :
    strLt a c = true := charListLt_trans a.data b.data c.data hab hbc

theorem strLt_ne {a b : String} (h : strLt a b = true) : a ≠ b := by
  intro hcon
  subst hcon
  rw [strLt_irrefl] at h
  cases h

/-- A sorted list inserts a strictly larger element at its end. -/
theorem insertNode_append_of_all_lt (n : BrigadierTreeNode) :
    ∀ l : List BrigadierTreeNode,
      (∀ y ∈ l, strLt y.get_name n.get_name = true) → insertNode n l = l ++ [n] := by
  intro l
  induction l with
  | nil => intro _; rfl
  | cons m rest ih =>
    intro hall
    have hmn : strLt m.get_name n.get_name = true := hall m (List.mem_cons.mpr (Or.inl rfl))
    have h1 : strLt n.get_name m.get_name = false := strLt_asymm hmn
    have h2 : n.get_name ≠ m.get_name := fun hcon => strLt_ne hmn hcon.symm
    simp only [insertNode, h1, if_neg h2]
    rw [ih (fun y hy => hall y (List.mem_cons.mpr (Or.inr hy)))]
    simp

/-- Pairwise form of strict name-sortedness. -/
theorem namesSortedB_pairwise {l : List BrigadierTreeNode}
    (h : namesSortedB l = true) :
    List.Pairwise (fun a b : BrigadierTreeNode => strLt a.get_name b.get_name = true) l := by
  induction l with
  | nil => exact List.Pairwise.nil
  | cons a rest ih =>
    cases rest with
    | nil => exact List.pairwise_singleton _ _
    | cons b rs =>
      have h1 : strLt a.get_name b.get_name = true := namesSortedB_cons h
      have htl := ih (namesSortedB_tail h)
      refine List.Pairwise.cons ?_ htl
      intro y hy
      rcases List.mem_cons.mp hy with rfl | hy
      · exact h1
      · have hby := (List.pairwise_cons.mp htl).1 y hy
        exact strLt_trans h1 hby

/-- Collecting an already-sorted iterator into a `BTreeSet` reproduces it. -/
theorem collectNodes_of_sorted {l : List BrigadierTreeNode}
    (h : namesSortedB l = true) : collectNodes l = l := by
  have general : ∀ (l : List BrigadierTreeNode) (acc : List BrigadierTreeNode),
      List.Pairwise (fun a b : BrigadierTreeNode => strLt a.get_name b.get_name = true)
        (acc ++ l) →
      l.foldl (fun a n => insertNode n a) acc = acc ++ l := by
    intro l
    induction l with
    | nil => intro acc _; simp
    | cons n rest ih =>
      intro acc hp
      simp only [List.foldl_cons]
      have hall : ∀ y ∈ acc, strLt y.get_name n.get_name = true := by
        intro y hy
        have := List.pairwise_append.mp hp
        exact this.2.2 y hy n (List.mem_cons.mpr (Or.inl rfl))
      rw [insertNode_append_of_all_lt n acc hall]
      rw [ih (acc ++ [n]) (by simpa using hp)]
      simp
  have := general l [] (by simpa using namesSortedB_pairwise h)
  simpa [collectNodes] using this

theorem optionMapM_forall2 {α β : Type} (f : α → Option β) :
    ∀ (l : List α) (l2 : List β), l.mapM f = some l2 →
      List.Forall₂ (fun x y => f x = some y) l l2 := by
  intro l
  induction l with
  | nil =>
    intro l2 h
    simp only [List.mapM_nil] at h
    cases h
    exact List.Forall₂.nil
  | cons a rest ih =>
    intro l2 h
    rw [List.mapM_cons] at h
    cases hfa : f a with
    | none => rw [hfa] at h; cases h
    | some b =>
      rw [hfa] at h
      cases hrest : rest.mapM f with
      | none => rw [hrest] at h; cases h
      | some bs =>
        rw [hrest] at h
        have hl2 : l2 = b :: bs := by
          have : some (b :: bs) = some l2 := h
          exact (Option.some.injEq _ _ ▸ this).symm
        subst hl2
        exact List.Forall₂.cons hfa (ih bs hrest)

/-- `handle_execute_command_inner` preserves the node name. -/
theorem handleExecInner_name :
    ∀ {n n2 : BrigadierTreeNode}, handle_execute_command_inner n = some n2 →
      n2.get_name = n.get_name := by
  intro n n2 h
  cases n with
  | argument name executable parser properties children =>
    simp only [handle_execute_command_inner] at h
    cases hch : handleExecuteChildren children with
    | none => rw [hch] at h; cases h
    | some ch2 => rw [hch] at h; cases h; rfl
  | enum name values executable children =>
    simp only [handle_execute_command_inner] at h
    cases hch : handleExecuteChildren children with
    | none => rw [hch] at h; cases h
    | some ch2 => rw [hch] at h; cases h; rfl
  | literal name executable children =>
    simp only [handle_execute_command_inner] at h
    cases hch : handleExecuteChildren children with
    | none => rw [hch] at h; cases h
    | some ch2 => rw [hch] at h; cases h; rfl

theorem noRedirectsListB_iff (l : List BrigadierTreeNode) :
    noRedirectsListB l = true ↔ ∀ x ∈ l, noRedirectsB x = true := by
  induction l with
  | nil => simp [noRedirectsListB]
  | cons n rest ih =>
    simp only [noRedirectsListB, Bool.and_eq_true, ih, List.mem_cons]
    constructor
    · rintro ⟨h1, h2⟩ x (rfl | hx)
      · exact h1
      · exact h2 x hx
    · intro h
      exact ⟨h n (Or.inl rfl), fun x hx => h x (Or.inr hx)⟩

mutual

theorem handleExecInner_noRedirects :
    ∀ (n n2 : BrigadierTreeNode), handle_execute_command_inner n = some n2 →
      noRedirectsB n2 = true
  | .argument name executable parser properties children, n2 => by
      intro h
      simp only [handle_execute_command_inner] at h
      cases hch : handleExecuteChildren children with
      | none => rw [hch] at h; cases h
      | some ch2 =>
        rw [hch] at h
        cases h
        simpa [noRedirectsB] using handleExecChildren_noRedirects children ch2 hch
  | .enum name values executable children, n2 => by
      intro h
      simp only [handle_execute_command_inner] at h
      cases hch : handleExecuteChildren children with
      | none => rw [hch] at h; cases h
      | some ch2 =>
        rw [hch] at h
        cases h
        simpa [noRedirectsB] using handleExecChildren_noRedirects children ch2 hch
  | .literal name executable children, n2 => by
      intro h
      simp only [handle_execute_command_inner] at h
      cases hch : handleExecuteChildren children with
      | none => rw [hch] at h; cases h
      | some ch2 =>
        rw [hch] at h
        cases h
        simpa [noRedirectsB] using handleExecChildren_noRedirects children ch2 hch

theorem handleExecChildren_noRedirects :
    ∀ (ch ch2 : BrigadierTreeNodeChildren), handleExecuteChildren ch = some ch2 →
      noRedirectsChildrenB ch2 = true
  | .nodes l, ch2 => by
      intro h
      simp only [handleExecuteChildren] at h
      cases hl : handleExecuteList l with
      | none => rw [hl] at h; cases h
      | some l2 =>
        rw [hl] at h
        cases h
        simp only [noRedirectsChildrenB]
        rw [noRedirectsListB_iff]
        intro x hx
        exact handleExecList_noRedirects l l2 hl x (mem_collectNodes hx)
  | .redirect [], ch2 => by
      intro h
      simp only [handleExecuteChildren] at h
      cases h
  | .redirect (e :: rest), ch2 => by
      intro h
      simp only [handleExecuteChildren] at h
      cases h
      by_cases he : e = "execute"
      · simp [he, noRedirectsChildrenB, noRedirectsListB, noRedirectsB]
      · simp [he, noRedirectsChildrenB, noRedirectsListB]

theorem handleExecList_noRedirects :
    ∀ (l l2 : List BrigadierTreeNode), handleExecuteList l = some l2 →
      ∀ x ∈ l2, noRedirectsB x = true
  | [], l2 => by
      intro h x hx
      simp only [handleExecuteList] at h
      cases h
      cases hx
  | c :: rest, l2 => by
      intro h x hx
      simp only [handleExecuteList] at h
      cases hc : handle_execute_command_inner c with
      | none => rw [hc] at h; cases h
      | some c2 =>
        rw [hc] at h
        cases hrest : handleExecuteList rest with
        | none => rw [hrest] at h; cases h
        | some rest2 =>
          rw [hrest] at h
          have hl2 : l2 = c2 :: rest2 := by
            cases h
            rfl
          subst hl2
          rcases List.mem_cons.mp hx with rfl | hx
          · exact handleExecInner_noRedirects c x hc
          · exact handleExecList_noRedirects rest rest2 hrest x hx

end

theorem forall2_mem_left {α β : Type} {R : α → β → Prop} :
    ∀ {l1 : List α} {l2 : List β}, List.Forall₂ R l1 l2 →
      ∀ x ∈ l1, ∃ y ∈ l2, R x y := by
  intro l1 l2 h
  induction h with
  | nil => intro x hx; cases hx
  | cons hxy _ ih =>
    intro x hx
    rcases List.mem_cons.mp hx with rfl | hx
    · exact ⟨_, List.mem_cons.mpr (Or.inl rfl), hxy⟩
    · rcases ih x hx with ⟨y, hy, hr⟩
      exact ⟨y, List.mem_cons.mpr (Or.inr hy), hr⟩

theorem forall2_mem_right {α β : Type} {R : α → β → Prop} :
    ∀ {l1 : List α} {l2 : List β}, List.Forall₂ R l1 l2 →
      ∀ y ∈ l2, ∃ x ∈ l1, R x y := by
  intro l1 l2 h
  induction h with
  | nil => intro y hy; cases hy
  | cons hxy _ ih =>
    intro y hy
    rcases List.mem_cons.mp hy with rfl | hy
    · exact ⟨_, List.mem_cons.mpr (Or.inl rfl), hxy⟩
    · rcases ih y hy with ⟨x, hx, hr⟩
      exact ⟨x, List.mem_cons.mpr (Or.inr hx), hr⟩

theorem forall2_namesSortedB {f : BrigadierTreeNode → Option BrigadierTreeNode}
    (hname : ∀ x y, f x = some y → y.get_name = x.get_name) :
    ∀ (l1 l2 : List BrigadierTreeNode),
      List.Forall₂ (fun x y => f x = some y) l1 l2 →
      namesSortedB l1 = true → namesSortedB l2 = true := by
  intro l1
  induction l1 with
  | nil =>
    intro l2 h _
    cases h
    rfl
  | cons x l1' ih =>
    intro l2 h hs
    rcases List.forall₂_cons_left_iff.mp h with ⟨y, l2', hxy, hrest, rfl⟩
    cases l1' with
    | nil =>
      cases hrest
      rfl
    | cons x2 l1'' =>
      rcases List.forall₂_cons_left_iff.mp hrest with ⟨y2, l2'', hxy2, hrest2, rfl⟩
      refine namesSortedB_cons_of ?_
        (ih (y2 :: l2'') (List.Forall₂.cons hxy2 hrest2) (namesSortedB_tail hs))
      rw [hname _ _ hxy, hname _ _ hxy2]
      exact namesSortedB_cons hs

/-- C6: the redirect rewriter changes only the top-level command named
`execute` (every other command is returned unchanged, in both directions);
after a successful rewrite the `execute` command contains no Redirect child
set anywhere; a Redirect child set whose first path element is `execute` is
replaced by a Nodes set holding exactly the non-executable childless Literal
`run`, and any other non-empty Redirect is replaced by an empty Nodes set;
and enumeration at a run-sentinel node (non-executable, empty child set)
appends a final non-optional `callback : TODO` Argument token to the emitted
variant. -/
theorem claim_C6 :
    (∀ t t2 : BrigadierTree, treeSortedB t = true → handle_execute_command t = some t2 →
      (∀ c ∈ t.commands, c.get_name ≠ "execute" → c ∈ t2.commands) ∧
      (∀ c ∈ t2.commands, c.get_name ≠ "execute" → c ∈ t.commands) ∧
      (∀ c ∈ t2.commands, c.get_name = "execute" → noRedirectsB c = true)) ∧
    (∀ (n n2 : BrigadierTreeNode) (path : List String),
      n.get_children_or_redirect = BrigadierTreeNodeChildren.redirect path →
      handle_execute_command_inner n = some n2 →
      (path.head? = some "execute" →
        n2 = n.cloneWith (.nodes [BrigadierTreeNode.literal "run" false (.nodes [])])) ∧
      (∀ e rest, path = e :: rest → e ≠ "execute" →
        n2 = n.cloneWith (.nodes []))) ∧
    (∀ (node : BrigadierTreeNode) (branch : List BrigadierTreeNode) (commands : CommandMap),
      node.is_executable = false →
      node.get_children_or_redirect = BrigadierTreeNodeChildren.nodes [] →
      ∃ toks, list_command_variants node branch commands =
        mapAppendVariant ((branch ++ [node]).headD node).get_name
          (toks ++ [CommandToken.argument "callback" "TODO" false]) commands) := by
  refine ⟨?_, ?_, ?_⟩
  · intro t t2 hs h
    simp only [handle_execute_command, Option.bind_eq_bind] at h
    cases hm : t.commands.mapM (fun command =>
        if command.get_name = "execute" then handle_execute_command_inner command
        else some command) with
    | none => rw [hm] at h; cases h
    | some mapped =>
      rw [hm] at h
      have ht2 : t2 = ⟨collectNodes mapped⟩ := by
        cases h
        rfl
      subst ht2
      have hf2 := optionMapM_forall2 _ t.commands mapped hm
      have hname : ∀ x y : BrigadierTreeNode,
          (if x.get_name = "execute" then handle_execute_command_inner x else some x) =
            some y → y.get_name = x.get_name := by
        intro x y hxy
        by_cases hx : x.get_name = "execute"
        · rw [if_pos hx] at hxy
          exact handleExecInner_name hxy
        · rw [if_neg hx] at hxy
          cases hxy
          rfl
      have hmsorted : namesSortedB mapped = true := by
        refine forall2_namesSortedB hname t.commands mapped hf2 ?_
        simp only [treeSortedB, Bool.and_eq_true] at hs
        exact hs.1
      have hcoll : collectNodes mapped = mapped := collectNodes_of_sorted hmsorted
      refine ⟨?_, ?_, ?_⟩
      · intro c hc hne
        rcases forall2_mem_left hf2 c hc with ⟨y, hy, hr⟩
        rw [if_neg hne] at hr
        cases hr
        show _ ∈ collectNodes mapped
        rw [hcoll]
        exact hy
      · intro c hc hne
        rw [show c ∈ (⟨collectNodes mapped⟩ : BrigadierTree).commands ↔
            c ∈ collectNodes mapped from Iff.rfl, hcoll] at hc
        rcases forall2_mem_right hf2 c hc with ⟨x, hx, hr⟩
        by_cases hxe : x.get_name = "execute"
        · rw [if_pos hxe] at hr
          have := handleExecInner_name hr
          rw [this, hxe] at hne
          exact absurd rfl hne
        · rw [if_neg hxe] at hr
          cases hr
          exact hx
      · intro c hc hce
        rw [show c ∈ (⟨collectNodes mapped⟩ : BrigadierTree).commands ↔
            c ∈ collectNodes mapped from Iff.rfl, hcoll] at hc
        rcases forall2_mem_right hf2 c hc with ⟨x, hx, hr⟩
        by_cases hxe : x.get_name = "execute"
        · rw [if_pos hxe] at hr
          exact handleExecInner_noRedirects x c hr
        · rw [if_neg hxe] at hr
          cases hr
          exact absurd hce hxe
  · intro n n2 path hpath h
    cases n with
    | argument name executable parser properties children =>
      simp only [BrigadierTreeNode.get_children_or_redirect] at hpath
      subst hpath
      cases path with
      | nil =>
        simp only [handle_execute_command_inner, handleExecuteChildren] at h
        cases h
      | cons e rest =>
        simp only [handle_execute_command_inner, handleExecuteChildren, Option.map_some'] at h
        cases h
        constructor
        · intro hh
          have he : e = "execute" := by simpa using hh
          simp [he, BrigadierTreeNode.cloneWith]
        · intro e2 rest2 heq hne
          rw [List.cons.injEq] at heq
          obtain ⟨he, _⟩ := heq
          subst he
          simp [if_neg hne, BrigadierTreeNode.cloneWith]
    | enum name values executable children =>
      simp only [BrigadierTreeNode.get_children_or_redirect] at hpath
      subst hpath
      cases path with
      | nil =>
        simp only [handle_execute_command_inner, handleExecuteChildren] at h
        cases h
      | cons e rest =>
        simp only [handle_execute_command_inner, handleExecuteChildren, Option.map_some'] at h
        cases h
        constructor
        · intro hh
          have he : e = "execute" := by simpa using hh
          simp [he, BrigadierTreeNode.cloneWith]
        · intro e2 rest2 heq hne
          rw [List.cons.injEq] at heq
          obtain ⟨he, _⟩ := heq
          subst he
          simp [if_neg hne, BrigadierTreeNode.cloneWith]
    | literal name executable children =>
      simp only [BrigadierTreeNode.get_children_or_redirect] at hpath
      subst hpath
      cases path with
      | nil =>
        simp only [handle_execute_command_inner, handleExecuteChildren] at h
        cases h
      | cons e rest =>
        simp only [handle_execute_command_inner, handleExecuteChildren, Option.map_some'] at h
        cases h
        constructor
        · intro hh
          have he : e = "execute" := by simpa using hh
          simp [he, BrigadierTreeNode.cloneWith]
        · intro e2 rest2 heq hne
          rw [List.cons.injEq] at heq
          obtain ⟨he, _⟩ := heq
          subst he
          simp [if_neg hne, BrigadierTreeNode.cloneWith]
  · intro node branch commands hex hch
    cases node with
    | argument name executable parser properties children =>
      simp only [BrigadierTreeNode.get_children_or_redirect] at hch
      simp only [BrigadierTreeNode.is_executable] at hex
      subst hch
      subst hex
      refine ⟨((branch ++ [BrigadierTreeNode.argument name false parser properties
        (.nodes [])]).drop 1).enum.map (fun p => tokenOfNode p.2
          (decide (p.1 + 1 > (branch ++ [BrigadierTreeNode.argument name false parser
            properties (.nodes [])]).length - 1))), ?_⟩
      simp [list_command_variants, nodeDepth, childrenDepth, nodeListDepth,
        listCommandVariantsFuel, optionalChain, BrigadierTreeNode.is_executable,
        BrigadierTreeNode.is_followed_by_any_command, BrigadierTreeNode.get_children,
        BrigadierTreeNode.get_children_or_redirect]
    | enum name values executable children =>
      simp only [BrigadierTreeNode.get_children_or_redirect] at hch
      simp only [BrigadierTreeNode.is_executable] at hex
      subst hch
      subst hex
      refine ⟨((branch ++ [BrigadierTreeNode.enum name values false
        (.nodes [])]).drop 1).enum.map (fun p => tokenOfNode p.2
          (decide (p.1 + 1 > (branch ++ [BrigadierTreeNode.enum name values false
            (.nodes [])]).length - 1))), ?_⟩
      simp [list_command_variants, nodeDepth, childrenDepth, nodeListDepth,
        listCommandVariantsFuel, optionalChain, BrigadierTreeNode.is_executable,
        BrigadierTreeNode.is_followed_by_any_command, BrigadierTreeNode.get_children,
        BrigadierTreeNode.get_children_or_redirect]
    | literal name executable children =>
      simp only [BrigadierTreeNode.get_children_or_redirect] at hch
      simp only [BrigadierTreeNode.is_executable] at hex
      subst hch
      subst hex
      refine ⟨((branch ++ [BrigadierTreeNode.literal name false
        (.nodes [])]).drop 1).enum.map (fun p => tokenOfNode p.2
          (decide (p.1 + 1 > (branch ++ [BrigadierTreeNode.literal name false
            (.nodes [])]).length - 1))), ?_⟩
      simp [list_command_variants, nodeDepth, childrenDepth, nodeListDepth,
        listCommandVariantsFuel, optionalChain, BrigadierTreeNode.is_executable,
        BrigadierTreeNode.is_followed_by_any_command, BrigadierTreeNode.get_children,
        BrigadierTreeNode.get_children_or_redirect]

/-- C6 witness: the rewriter's conjuncts applied at Scenario P-A-4: an
`execute` subtree with a `["execute"]` redirect leaf (rewritten to the `run`
sentinel), an unrelated command `seed` (kept), and the callback token appended
when enumerating the sentinel. -/
theorem claim_C6_witness :
    (BrigadierTreeNode.literal "seed" true (.nodes [])) ∈
      (⟨[.literal "execute" false
          (.nodes [.literal "as" false (.nodes [.literal "run" false (.nodes [])])]),
         .literal "seed" true (.nodes [])]⟩ : BrigadierTree).commands ∧
    handle_execute_command_inner
      (BrigadierTreeNode.literal "as" false (.redirect ["execute"])) =
      some (BrigadierTreeNode.literal "as" false
        (.nodes [BrigadierTreeNode.literal "run" false (.nodes [])])) ∧
    ∃ toks, list_command_variants (BrigadierTreeNode.literal "run" false (.nodes []))
        [BrigadierTreeNode.literal "execute" false (.nodes [])]
        [("execute", [])] =
      mapAppendVariant "execute"
        (toks ++ [CommandToken.argument "callback" "TODO" false]) [("execute", [])] := by
  have hc6 := claim_C6
  refine ⟨?_, ?_, ?_⟩
  · have := (hc6.1
      ⟨[.literal "execute" false (.nodes [.literal "as" false (.redirect ["execute"])]),
        .literal "seed" true (.nodes [])]⟩
      ⟨[.literal "execute" false
          (.nodes [.literal "as" false (.nodes [.literal "run" false (.nodes [])])]),
        .literal "seed" true (.nodes [])]⟩ rfl rfl).1
    exact this (BrigadierTreeNode.literal "seed" true (.nodes []))
      (List.mem_cons.mpr (Or.inr (List.mem_cons.mpr (Or.inl rfl)))) (by decide)
  · have h2 := (hc6.2.1 (BrigadierTreeNode.literal "as" false (.redirect ["execute"]))
      (BrigadierTreeNode.literal "as" false
        (.nodes [BrigadierTreeNode.literal "run" false (.nodes [])]))
      ["execute"] rfl rfl).1 rfl
    rw [h2]
    rfl
  · exact hc6.2.2 (BrigadierTreeNode.literal "run" false (.nodes []))
      [BrigadierTreeNode.literal "execute" false (.nodes [])] [("execute", [])] rfl rfl

/-- C7 witness: the three conjuncts applied to a concrete JSON node, tree, and
rewriter run. -/
theorem claim_C7_witness :
    treeSortedB ⟨[BrigadierTreeNode.literal "seed" true (.nodes [])]⟩ = true ∧
    treeSortedB (consolidate_literals_into_enums id
      ⟨[BrigadierTreeNode.literal "x" false (.nodes [litLeaf "a" true, litLeaf "b" true])]⟩) =
      true := by
  constructor
  · exact claim_C7.1 (.mk .root (some [("seed", .mk .literal none (some true) none none none)])
      none none none none) ⟨[BrigadierTreeNode.literal "seed" true (.nodes [])]⟩ rfl
  · exact claim_C7.2.1 id (fun l => List.Perm.refl l)
      ⟨[BrigadierTreeNode.literal "x" false (.nodes [litLeaf "a" true, litLeaf "b" true])]⟩

/-! ### Enum origin and value ordering (C5) -/

/-- Entries of the merge-candidates map after one `addCandidate` update: an
untouched old entry, a fresh singleton entry under the inserted key, or the
inserted key's old entry with the new candidate appended. -/
theorem addCandidate_entries {key0 : String × Bool} {v0 : MergeCandidate}
    {key : String × Bool} {vs : List MergeCandidate} :
    ∀ {cands : MergeCandidates}, (key, vs) ∈ addCandidate key0 v0 cands →
      (key, vs) ∈ cands ∨ (key = key0 ∧ vs = [v0]) ∨
        (key = key0 ∧ ∃ vs0, (key, vs0) ∈ cands ∧ vs = vs0 ++ [v0]) := by
  intro cands
  induction cands with
  | nil =>
    intro h
    simp only [addCandidate, List.mem_singleton] at h
    rw [Prod.mk.injEq] at h
    exact Or.inr (Or.inl ⟨h.1, h.2⟩)
  | cons e rest ih =>
    obtain ⟨k, vs0⟩ := e
    intro h
    by_cases hk : k = key0
    · rw [show addCandidate key0 v0 ((k, vs0) :: rest) = (k, vs0 ++ [v0]) :: rest by
        simp only [addCandidate]; rw [if_pos hk]] at h
      rcases List.mem_cons.mp h with h | h
      · rw [Prod.mk.injEq] at h
        obtain ⟨h1, h2⟩ := h
        exact Or.inr (Or.inr ⟨h1.trans hk, vs0,
          List.mem_cons.mpr (Or.inl (by rw [h1])), h2⟩)
      · exact Or.inl (List.mem_cons.mpr (Or.inr h))
    · rw [show addCandidate key0 v0 ((k, vs0) :: rest) =
          (k, vs0) :: addCandidate key0 v0 rest by
        simp only [addCandidate]; rw [if_neg hk]] at h
      rcases List.mem_cons.mp h with h | h
      · exact Or.inl (List.mem_cons.mpr (Or.inl h))
      · rcases ih h with h | h | ⟨h1, vsx, hvsx, h2⟩
        · exact Or.inl (List.mem_cons.mpr (Or.inr h))
        · exact Or.inr (Or.inl h)
        · exact Or.inr (Or.inr ⟨h1, vsx, List.mem_cons.mpr (Or.inr hvsx), h2⟩)

/-- The child rewriting loop is a `map`. -/
theorem consolidateList_eq_map (ord : MergeOrd) :
    ∀ l : List BrigadierTreeNode,
      consolidateList ord l = l.map (consolidate_literals_into_enums_inner ord)
  | [] => rfl
  | c :: rest => by
      simp only [consolidateList, List.map_cons]
      rw [consolidateList_eq_map ord rest]

/-- Consolidation preserves node names. -/
theorem consInner_name (ord : MergeOrd) :
    ∀ n : BrigadierTreeNode,
      (consolidate_literals_into_enums_inner ord n).1.get_name = n.get_name
  | .argument _ _ _ _ _ => rfl
  | .enum _ _ _ _ => rfl
  | .literal _ _ _ => rfl

/-- Only a Literal rewrites to a Literal, and it keeps its name and flag. -/
theorem consInner_literal_inv (ord : MergeOrd) :
    ∀ (n : BrigadierTreeNode) (nm : String) (ex : Bool)
      (ch2 : BrigadierTreeNodeChildren) (s : String),
      consolidate_literals_into_enums_inner ord n =
        (BrigadierTreeNode.literal nm ex ch2, s) →
      ∃ chl, n = BrigadierTreeNode.literal nm ex chl
  | .argument name executable parser properties children => by
      intro nm ex ch2 s h
      have h1 : BrigadierTreeNode.argument name executable parser properties
          (consolidateChildren ord children).1 = BrigadierTreeNode.literal nm ex ch2 :=
        congrArg Prod.fst h
      exact BrigadierTreeNode.noConfusion h1
  | .enum name values executable children => by
      intro nm ex ch2 s h
      have h1 : BrigadierTreeNode.enum name values executable
          (consolidateChildren ord children).1 = BrigadierTreeNode.literal nm ex ch2 :=
        congrArg Prod.fst h
      exact BrigadierTreeNode.noConfusion h1
  | .literal name executable children => by
      intro nm ex ch2 s h
      have h1 : BrigadierTreeNode.literal name executable
          (consolidateChildren ord children).1 = BrigadierTreeNode.literal nm ex ch2 :=
        congrArg Prod.fst h
      injection h1 with e1 e2 e3
      exact ⟨children, by rw [e1, e2]⟩

theorem allNodes_self : ∀ n : BrigadierTreeNode, n ∈ allNodes n
  | .argument name executable parser properties ch => by
      simp only [allNodes]
      exact List.mem_cons_self _ _
  | .enum name values executable ch => by
      simp only [allNodes]
      exact List.mem_cons_self _ _
  | .literal name executable ch => by
      simp only [allNodes]
      exact List.mem_cons_self _ _

theorem allNodesList_mem {x : BrigadierTreeNode} :
    ∀ {l : List BrigadierTreeNode}, x ∈ allNodesList l ↔ ∃ n ∈ l, x ∈ allNodes n := by
  intro l
  induction l with
  | nil => simp [allNodesList]
  | cons n rest ih =>
    simp only [allNodesList, List.mem_append, ih, List.mem_cons]
    constructor
    · rintro (h | ⟨m, hm, hx⟩)
      · exact ⟨n, Or.inl rfl, h⟩
      · exact ⟨m, Or.inr hm, hx⟩
    · rintro ⟨m, hm | hm, hx⟩
      · exact Or.inl (hm ▸ hx)
      · exact Or.inr ⟨m, hm, hx⟩

theorem noEnumListB_iff (l : List BrigadierTreeNode) :
    noEnumListB l = true ↔ ∀ x ∈ l, noEnumB x = true := by
  induction l with
  | nil => simp [noEnumListB]
  | cons n rest ih =>
    simp only [noEnumListB, Bool.and_eq_true, ih, List.mem_cons]
    constructor
    · rintro ⟨h1, h2⟩ x (rfl | hx)
      · exact h1
      · exact h2 x hx
    · intro h
      exact ⟨h n (Or.inl rfl), fun x hx => h x (Or.inr hx)⟩

theorem enumOriginIn_mono {ord : MergeOrd} {values : List String} {ex : Bool}
    {s1 s2 : List BrigadierTreeNode} (hsub : s1 ⊆ s2) :
    enumOriginIn ord values ex s1 → enumOriginIn ord values ex s2 := by
  rintro ⟨p, hp, cs, hcs, hsib⟩
  exact ⟨p, hsub hp, cs, hcs, hsib⟩

/-- The candidate `Vec` of every partition is pushed in sibling-name order:
if the rewritten children arrive strictly name-sorted (and every candidate
already accumulated precedes every upcoming name), each partition's candidate
list is strictly ascending by name. -/
theorem consolidateAccumulate_vs_sorted :
    ∀ (processed : List (BrigadierTreeNode × String))
      (acc : List (BrigadierTreeNode × String) × MergeCandidates),
      (∀ (key : String × Bool) (vs : List MergeCandidate), (key, vs) ∈ acc.2 →
        List.Pairwise (fun a b : MergeCandidate => strLt a.1 b.1 = true) vs ∧
        ∀ v ∈ vs, ∀ cs ∈ processed, strLt v.1 cs.1.get_name = true) →
      List.Pairwise (fun a b : BrigadierTreeNode × String =>
        strLt a.1.get_name b.1.get_name = true) processed →
      ∀ (key : String × Bool) (vs : List MergeCandidate),
        (key, vs) ∈ (processed.foldl consolidateAccumulate acc).2 →
        List.Pairwise (fun a b : MergeCandidate => strLt a.1 b.1 = true) vs := by
  intro processed
  induction processed with
  | nil =>
    intro acc hacc _ key vs h
    exact (hacc key vs (by simpa using h)).1
  | cons cs rest ih =>
    intro acc hacc hpair key vs h
    rw [List.pairwise_cons] at hpair
    simp only [List.foldl_cons] at h
    refine ih (consolidateAccumulate acc cs) ?_ hpair.2 key vs h
    rcases cs with ⟨c, s⟩
    cases c with
    | argument nm2 ex2 p2 pr2 ch2 =>
      intro key2 vs2 h2
      obtain ⟨hpw, hup⟩ := hacc key2 vs2 h2
      exact ⟨hpw, fun v hv cs2 hcs2 => hup v hv cs2 (List.mem_cons.mpr (Or.inr hcs2))⟩
    | enum nm2 values2 ex2 ch2 =>
      intro key2 vs2 h2
      obtain ⟨hpw, hup⟩ := hacc key2 vs2 h2
      exact ⟨hpw, fun v hv cs2 hcs2 => hup v hv cs2 (List.mem_cons.mpr (Or.inr hcs2))⟩
    | literal nm2 ex2 ch2 =>
      intro key2 vs2 h2
      have h2b : (key2, vs2) ∈ addCandidate (s, ex2) (nm2, ch2) acc.2 := h2
      rcases addCandidate_entries h2b with hold | ⟨hk, hvs⟩ | ⟨hk, vs0, hvs0, hvs⟩
      · obtain ⟨hpw, hup⟩ := hacc key2 vs2 hold
        exact ⟨hpw, fun v hv cs2 hcs2 => hup v hv cs2 (List.mem_cons.mpr (Or.inr hcs2))⟩
      · subst hvs
        refine ⟨List.pairwise_singleton _ _, ?_⟩
        intro v hv cs2 hcs2
        have hv2 : v = (nm2, ch2) := List.mem_singleton.mp hv
        subst hv2
        exact hpair.1 cs2 hcs2
      · subst hvs
        obtain ⟨hpw0, hup0⟩ := hacc key2 vs0 hvs0
        constructor
        · rw [List.pairwise_append]
          refine ⟨hpw0, List.pairwise_singleton _ _, ?_⟩
          intro a ha b hb
          have hb2 : b = (nm2, ch2) := List.mem_singleton.mp hb
          subst hb2
          exact hup0 a ha (BrigadierTreeNode.literal nm2 ex2 ch2, s)
            (List.mem_cons.mpr (Or.inl rfl))
        · intro v hv cs2 hcs2
          rcases List.mem_append.mp hv with hv0 | hv1
          · exact hup0 v hv0 cs2 (List.mem_cons.mpr (Or.inr hcs2))
          · have hv2 : v = (nm2, ch2) := List.mem_singleton.mp hv1
            subst hv2
            exact hpair.1 cs2 hcs2

mutual

/-- Under a faithful HashMap order, every Enum inside a consolidated
Enum-free, sorted node has at least two strictly ascending values, each
naming a Literal sibling (same partition canon and flag) of some input
children set. -/
theorem consInner_enum_origin (ord : MergeOrd) (hord : ∀ l, List.Perm (ord l) l) :
    ∀ n : BrigadierTreeNode, nodeSortedB n = true → noEnumB n = true →
      ∀ (nm : String) (values : List String) (ex : Bool)
        (ch : BrigadierTreeNodeChildren),
        BrigadierTreeNode.enum nm values ex ch ∈
          allNodes (consolidate_literals_into_enums_inner ord n).1 →
        2 ≤ values.length ∧
        List.Pairwise (fun a b : String => strLt a b = true) values ∧
        enumOriginIn ord values ex (allNodes n)
  | .argument name executable parser properties children => by
      intro hsort hnoenum nm values ex ch h
      simp only [consolidate_literals_into_enums_inner, allNodes] at h
      rcases List.mem_cons.mp h with heq | h2
      · exact BrigadierTreeNode.noConfusion heq
      · have hson : childrenSortedB children = true := by simpa [nodeSortedB] using hsort
        have hnon : noEnumChildrenB children = true := by simpa [noEnumB] using hnoenum
        have hres := consChildren_enum_origin ord hord children hson hnon nm values ex ch h2
        refine ⟨hres.1, hres.2.1, ?_⟩
        rcases hres.2.2 with ⟨l0, hl0, hsib⟩ | horig
        · refine ⟨BrigadierTreeNode.argument name executable parser properties children,
            allNodes_self _, l0, ?_, hsib⟩
          simp only [BrigadierTreeNode.get_children_or_redirect]
          exact hl0
        · refine enumOriginIn_mono ?_ horig
          intro x hx
          simp only [allNodes]
          exact List.mem_cons.mpr (Or.inr hx)
  | .enum name values0 executable children => by
      intro hsort hnoenum
      simp [noEnumB] at hnoenum
  | .literal name executable children => by
      intro hsort hnoenum nm values ex ch h
      simp only [consolidate_literals_into_enums_inner, allNodes] at h
      rcases List.mem_cons.mp h with heq | h2
      · exact BrigadierTreeNode.noConfusion heq
      · have hson : childrenSortedB children = true := by simpa [nodeSortedB] using hsort
        have hnon : noEnumChildrenB children = true := by simpa [noEnumB] using hnoenum
        have hres := consChildren_enum_origin ord hord children hson hnon nm values ex ch h2
        refine ⟨hres.1, hres.2.1, ?_⟩
        rcases hres.2.2 with ⟨l0, hl0, hsib⟩ | horig
        · refine ⟨BrigadierTreeNode.literal name executable children,
            allNodes_self _, l0, ?_, hsib⟩
          simp only [BrigadierTreeNode.get_children_or_redirect]
          exact hl0
        · refine enumOriginIn_mono ?_ horig
          intro x hx
          simp only [allNodes]
          exact List.mem_cons.mpr (Or.inr hx)

/-- Children version: an Enum in the consolidated children set was either
synthesised at this very level from Literal members of the input set, or
originates (with a witnessing parent) strictly below it. -/
theorem consChildren_enum_origin (ord : MergeOrd) (hord : ∀ l, List.Perm (ord l) l) :
    ∀ chn : BrigadierTreeNodeChildren, childrenSortedB chn = true →
      noEnumChildrenB chn = true →
      ∀ (nm : String) (values : List String) (ex : Bool)
        (ch : BrigadierTreeNodeChildren),
        BrigadierTreeNode.enum nm values ex ch ∈
          allNodesChildren (consolidateChildren ord chn).1 →
        2 ≤ values.length ∧
        List.Pairwise (fun a b : String => strLt a b = true) values ∧
        ((∃ l, chn = BrigadierTreeNodeChildren.nodes l ∧
            enumFromSiblings ord values ex l) ∨
          enumOriginIn ord values ex (allNodesChildren chn))
  | .redirect path => by
      intro hsort hnoenum nm values ex ch h
      simp [consolidateChildren, allNodesChildren] at h
  | .nodes l => by
      intro hsort hnoenum nm values ex ch h
      have hsn : namesSortedB l = true ∧ nodeListSortedB l = true := by
        simpa [childrenSortedB] using hsort
      have hne : noEnumListB l = true := by simpa [noEnumChildrenB] using hnoenum
      have hmain : ∀ (c : BrigadierTreeNode) (s : String),
          (c, s) ∈ consolidateList ord l →
          BrigadierTreeNode.enum nm values ex ch ∈ allNodes c →
          2 ≤ values.length ∧
          List.Pairwise (fun a b : String => strLt a b = true) values ∧
          enumOriginIn ord values ex (allNodesList l) :=
        fun c s hcs hm =>
          consList_enum_origin ord hord l hsn.2 hne c s hcs nm values ex ch hm
      simp only [consolidateChildren, consolidateStep, allNodesChildren] at h
      rcases allNodesList_mem.mp h with ⟨x, hx, hmemx⟩
      rcases mem_foldl_insertNode hx with hcon | ⟨q, hq, hxq⟩
      · cases hcon
      subst hxq
      rcases consolidateMerge_fold_mem _ _ q hq with hq1 | ⟨entry, hentry, hp⟩
      · rcases (consolidateAccumulate_spec (consolidateList ord l) ([], [])).1 q hq1
            with hc | hc
        · cases hc
        · have hres := hmain q.1 q.2 hc hmemx
          exact ⟨hres.1, hres.2.1, Or.inr hres.2.2⟩
      · have hentry2 : (entry.1, entry.2) ∈
            ((consolidateList ord l).foldl consolidateAccumulate ([], [])).2 :=
          (hord _).mem_iff.mp hentry
        rcases hp with ⟨single, hsingle, hq2⟩ | ⟨hlen, hq2⟩
        · have hq1f : q.1 = BrigadierTreeNode.literal single.1 entry.1.2 single.2 := by
            rw [hq2]
          rw [hq1f] at hmemx
          have hsingmem : single ∈ entry.2 := by
            rw [hsingle]
            exact List.mem_singleton.mpr rfl
          rcases (consolidateAccumulate_spec (consolidateList ord l) ([], [])).2
              entry.1 entry.2 single hentry2 hsingmem with ⟨vs2, hvs2, _⟩ | hlit
          · cases hvs2
          · have hres := hmain _ _ hlit hmemx
            exact ⟨hres.1, hres.2.1, Or.inr hres.2.2⟩
        · have hq1f : q.1 = BrigadierTreeNode.enum
              (sjoin "|" (entry.2.map (fun c => c.1))) (entry.2.map (fun c => c.1))
              entry.1.2
              ((entry.2.getLastD ("", BrigadierTreeNodeChildren.nodes [])).2) := by
            rw [hq2]
          rw [hq1f] at hmemx
          simp only [allNodes] at hmemx
          rcases List.mem_cons.mp hmemx with heq | hdeeper
          · injection heq with e1 e2 e3 e4
            subst e2
            subst e3
            have hnames : List.Pairwise (fun a b : BrigadierTreeNode × String =>
                strLt a.1.get_name b.1.get_name = true) (consolidateList ord l) := by
              rw [consolidateList_eq_map ord l, List.pairwise_map]
              refine (namesSortedB_pairwise hsn.1).imp ?_
              intro a b hab
              rw [consInner_name ord a, consInner_name ord b]
              exact hab
            have hcand := consolidateAccumulate_vs_sorted (consolidateList ord l)
              ([], []) (fun key vs2 hkv => nomatch hkv) hnames entry.1 entry.2 hentry2
            refine ⟨?_, ?_, Or.inl ⟨l, rfl, entry.1.1, ?_⟩⟩
            · rw [List.length_map]
              exact hlen
            · exact List.pairwise_map.mpr hcand
            · intro v hv
              rcases List.mem_map.mp hv with ⟨cand, hcandmem, hveq⟩
              rcases (consolidateAccumulate_spec (consolidateList ord l) ([], [])).2
                  entry.1 entry.2 cand hentry2 hcandmem with ⟨vs2, hvs2, _⟩ | hlit
              · cases hvs2
              · rw [consolidateList_eq_map ord l] at hlit
                rcases List.mem_map.mp hlit with ⟨child, hchild, hfc⟩
                rcases consInner_literal_inv ord child cand.1 entry.1.2 cand.2 entry.1.1
                    hfc with ⟨chl, hchl⟩
                subst hchl
                subst hveq
                exact ⟨chl, hchild, congrArg Prod.snd hfc⟩
          · have h2ne : entry.2 ≠ [] := by
              intro hcon
              rw [hcon] at hlen
              simp at hlen
            have hlastmem := getLastD_mem entry.2
              ("", BrigadierTreeNodeChildren.nodes []) h2ne
            rcases (consolidateAccumulate_spec (consolidateList ord l) ([], [])).2
                entry.1 entry.2
                (entry.2.getLastD ("", BrigadierTreeNodeChildren.nodes []))
                hentry2 hlastmem with ⟨vs2, hvs2, _⟩ | hlit
            · cases hvs2
            · have hmem2 : BrigadierTreeNode.enum nm values ex ch ∈ allNodes
                  (BrigadierTreeNode.literal
                    ((entry.2.getLastD ("", BrigadierTreeNodeChildren.nodes [])).1)
                    entry.1.2
                    ((entry.2.getLastD ("", BrigadierTreeNodeChildren.nodes [])).2)) := by
                simp only [allNodes]
                exact List.mem_cons.mpr (Or.inr hdeeper)
              have hres := hmain _ _ hlit hmem2
              exact ⟨hres.1, hres.2.1, Or.inr hres.2.2⟩

/-- List version, keyed on membership in the rewritten child list. -/
theorem consList_enum_origin (ord : MergeOrd) (hord : ∀ l, List.Perm (ord l) l) :
    ∀ l : List BrigadierTreeNode, nodeListSortedB l = true → noEnumListB l = true →
      ∀ (c : BrigadierTreeNode) (s : String), (c, s) ∈ consolidateList ord l →
      ∀ (nm : String) (values : List String) (ex : Bool)
        (ch : BrigadierTreeNodeChildren),
        BrigadierTreeNode.enum nm values ex ch ∈ allNodes c →
        2 ≤ values.length ∧
        List.Pairwise (fun a b : String => strLt a b = true) values ∧
        enumOriginIn ord values ex (allNodesList l)
  | [] => by
      intro _ _ c s hcs
      simp [consolidateList] at hcs
  | c0 :: rest => by
      intro hsort hnoenum c s hcs nm values ex ch h
      have hs1 : nodeSortedB c0 = true ∧ nodeListSortedB rest = true := by
        simpa [nodeListSortedB] using hsort
      have hn1 : noEnumB c0 = true ∧ noEnumListB rest = true := by
        simpa [noEnumListB] using hnoenum
      simp only [consolidateList] at hcs
      rcases List.mem_cons.mp hcs with heq | hmem2
      · have hc : (consolidate_literals_into_enums_inner ord c0).1 = c := by
          rw [← heq]
        have hres := consInner_enum_origin ord hord c0 hs1.1 hn1.1 nm values ex ch
          (by rw [hc]; exact h)
        refine ⟨hres.1, hres.2.1, ?_⟩
        refine enumOriginIn_mono ?_ hres.2.2
        intro x hx
        simp only [allNodesList]
        exact List.mem_append.mpr (Or.inl hx)
      · have hres := consList_enum_origin ord hord rest hs1.2 hn1.2 c s hmem2
          nm values ex ch h
        refine ⟨hres.1, hres.2.1, ?_⟩
        refine enumOriginIn_mono ?_ hres.2.2
        intro x hx
        simp only [allNodesList]
        exact List.mem_append.mpr (Or.inr hx)

end

/-- C5: for an Enum-free input tree (under the `BTreeSet` sortedness
invariant) and any faithful HashMap iteration order, every Enum node in the
output of literal consolidation has at least two values, its values list is
in strictly ascending lexicographic order, and each value is the name of a
Literal node that was a sibling in the corresponding input children set,
sharing the partition's canonical (rewritten-)subtree string and carrying the
Enum's executable flag. -/
theorem claim_C5 (ord : MergeOrd) (hord : ∀ l, List.Perm (ord l) l)
    (t : BrigadierTree) (hsorted : treeSortedB t = true)
    (hnoenum : treeNoEnumB t = true)
    (nm : String) (values : List String) (ex : Bool)
    (ch : BrigadierTreeNodeChildren)
    (hmem : BrigadierTreeNode.enum nm values ex ch ∈
      treeAllNodes (consolidate_literals_into_enums ord t)) :
    2 ≤ values.length ∧
    List.Pairwise (fun a b : String => strLt a b = true) values ∧
    enumOriginIn ord values ex (treeAllNodes t) := by
  have hcmds_sorted : nodeListSortedB t.commands = true := by
    simp only [treeSortedB, Bool.and_eq_true] at hsorted
    exact hsorted.2
  have hcmds_noenum : noEnumListB t.commands = true := hnoenum
  have h1 : treeAllNodes (consolidate_literals_into_enums ord t) =
      allNodesList (collectNodes (t.commands.map
        (fun node => (consolidate_literals_into_enums_inner ord node).1))) := rfl
  rw [h1] at hmem
  rcases allNodesList_mem.mp hmem with ⟨x, hx, hmemx⟩
  have hx2 := mem_collectNodes hx
  rcases List.mem_map.mp hx2 with ⟨cmd, hcmd, hfx⟩
  subst hfx
  have hcs : nodeSortedB cmd = true :=
    (nodeListSortedB_iff t.commands).mp hcmds_sorted cmd hcmd
  have hcn : noEnumB cmd = true :=
    (noEnumListB_iff t.commands).mp hcmds_noenum cmd hcmd
  have hres := consInner_enum_origin ord hord cmd hcs hcn nm values ex ch hmemx
  refine ⟨hres.1, hres.2.1, ?_⟩
  refine enumOriginIn_mono ?_ hres.2.2
  intro y hy
  exact allNodesList_mem.mpr ⟨cmd, hcmd, hy⟩

/-- C5 witness: on `c5InputTree` (sorted, Enum-free), the output Enum
`a|b` has two strictly ascending values drawn from the literal siblings `a`
and `b` of `x`. -/
theorem claim_C5_witness :
    2 ≤ (["a", "b"] : List String).length ∧
    List.Pairwise (fun a b : String => strLt a b = true) ["a", "b"] ∧
    enumOriginIn id ["a", "b"] true (treeAllNodes c5InputTree) :=
  claim_C5 id (fun l => List.Perm.refl l) c5InputTree rfl rfl "a|b" ["a", "b"] true
    (BrigadierTreeNodeChildren.nodes []) (by
      have h : treeAllNodes (consolidate_literals_into_enums id c5InputTree) =
          [BrigadierTreeNode.literal "x" false
            (BrigadierTreeNodeChildren.nodes [c5EnumNode]), c5EnumNode] := rfl
      rw [h]
      have h2 : BrigadierTreeNode.enum "a|b" ["a", "b"] true
          (BrigadierTreeNodeChildren.nodes []) = c5EnumNode := rfl
      rw [h2]
      exact List.mem_cons.mpr (Or.inr (List.mem_cons.mpr (Or.inl rfl))))

/-! ### Consolidation idempotence (C4): order-theoretic groundwork -/

/-- Inserting a pair whose name is fresh into a name-sorted pair list keeps it
name-sorted and never drops anything. -/
theorem insertPair_fresh (p : BrigadierTreeNode × String) :
    ∀ l : List (BrigadierTreeNode × String), List.Pairwise pairNameLt l →
      (∀ r ∈ l, p.1.get_name ≠ r.1.get_name) →
      List.Pairwise pairNameLt (insertPair p l) ∧
        List.Perm (insertPair p l) (p :: l) := by
  intro l
  induction l with
  | nil =>
    intro _ _
    constructor
    · simp only [insertPair]
      exact List.pairwise_singleton _ _
    · simp only [insertPair]
      exact List.Perm.refl _
  | cons q rest ih =>
    intro hsorted hfresh
    rw [List.pairwise_cons] at hsorted
    have hne : p.1.get_name ≠ q.1.get_name := hfresh q (List.mem_cons.mpr (Or.inl rfl))
    by_cases h1 : pairLt p q = true
    · have hpq : pairNameLt p q := by
        simp only [pairLt, Bool.or_eq_true, Bool.and_eq_true, decide_eq_true_eq] at h1
        rcases h1 with h1 | ⟨h1, _⟩
        · exact h1
        · exact absurd h1 hne
      constructor
      · simp only [insertPair, if_pos h1]
        refine List.Pairwise.cons ?_ (List.Pairwise.cons hsorted.1 hsorted.2)
        intro y hy
        rcases List.mem_cons.mp hy with rfl | hy
        · exact hpq
        · exact strLt_trans hpq (hsorted.1 y hy)
      · simp only [insertPair, if_pos h1]
        exact List.Perm.refl _
    · by_cases h2 : pairEq p q = true
      · exfalso
        simp only [pairEq, Bool.and_eq_true, decide_eq_true_eq] at h2
        exact hne h2.1
      · have hqp : pairNameLt q p := by
          rcases strLt_total p.1.get_name q.1.get_name with hx | hx | hx
          · exact absurd (by simp [pairLt, hx]) h1
          · exact absurd hx hne
          · exact hx
        obtain ⟨ihs, ihp⟩ := ih hsorted.2
          (fun r hr => hfresh r (List.mem_cons.mpr (Or.inr hr)))
        constructor
        · simp only [insertPair, if_neg h1, if_neg h2]
          refine List.Pairwise.cons ?_ ihs
          intro y hy
          rcases List.mem_cons.mp (ihp.mem_iff.mp hy) with rfl | hy2
          · exact hqp
          · exact hsorted.1 y hy2
        · simp only [insertPair, if_neg h1, if_neg h2]
          exact (ihp.cons q).trans (List.Perm.swap p q rest)

/-- Folding `insertPair` over pairwise-fresh names: the result is name-sorted
and a permutation of everything inserted. -/
theorem foldl_insertPair_nodup :
    ∀ (toIns acc : List (BrigadierTreeNode × String)),
      List.Pairwise pairNameLt acc →
      ((acc ++ toIns).map (fun cs => cs.1.get_name)).Nodup →
      List.Pairwise pairNameLt (toIns.foldl (fun a p => insertPair p a) acc) ∧
      List.Perm (toIns.foldl (fun a p => insertPair p a) acc) (acc ++ toIns) := by
  intro toIns
  induction toIns with
  | nil =>
    intro acc hs _
    exact ⟨by simpa using hs, by simp⟩
  | cons p rest ih =>
    intro acc hs hnodup
    simp only [List.foldl_cons]
    have hmapnodup := hnodup
    rw [List.map_append] at hmapnodup
    rcases List.nodup_append.mp hmapnodup with ⟨hA, hB, hdisj⟩
    have hfresh : ∀ r ∈ acc, p.1.get_name ≠ r.1.get_name := by
      intro r hr heq
      exact hdisj (List.mem_map.mpr ⟨r, hr, heq.symm⟩)
        (List.mem_cons.mpr (Or.inl rfl))
    have hstep := insertPair_fresh p acc hs hfresh
    have hperm1 : List.Perm (insertPair p acc ++ rest) (acc ++ p :: rest) :=
      (hstep.2.append (List.Perm.refl rest)).trans List.perm_middle.symm
    have hnodup2 : ((insertPair p acc ++ rest).map (fun cs => cs.1.get_name)).Nodup :=
      ((hperm1.map _).nodup_iff).mpr hnodup
    have hres := ih (insertPair p acc) hstep.1 hnodup2
    exact ⟨hres.1, hres.2.trans hperm1⟩

/-- Two name-sorted permutations of each other are equal. -/
theorem pairs_sorted_perm_eq {L1 L2 : List (BrigadierTreeNode × String)}
    (hperm : List.Perm L1 L2) (h1 : List.Pairwise pairNameLt L1)
    (h2 : List.Pairwise pairNameLt L2) : L1 = L2 := by
  haveI : IsAntisymm (BrigadierTreeNode × String) pairNameLt :=
    ⟨fun a b hab hba => by
      have h := strLt_asymm hab
      have hba2 : strLt b.1.get_name a.1.get_name = true := hba
      rw [hba2] at h
      exact Bool.noConfusion h⟩
  exact List.eq_of_perm_of_sorted hperm h1 h2

theorem namesSortedB_of_pairwise :
    ∀ {l : List BrigadierTreeNode},
      List.Pairwise (fun a b : BrigadierTreeNode =>
        strLt a.get_name b.get_name = true) l →
      namesSortedB l = true := by
  intro l
  induction l with
  | nil => intro _; rfl
  | cons a rest ih =>
    intro h
    rw [List.pairwise_cons] at h
    cases rest with
    | nil => rfl
    | cons b rs =>
      refine namesSortedB_cons_of ?_ (ih h.2)
      exact h.1 b (List.mem_cons.mpr (Or.inl rfl))

theorem nodeListNoPipeB_iff (l : List BrigadierTreeNode) :
    nodeListNoPipeB l = true ↔ ∀ x ∈ l, nodeNoPipeB x = true := by
  induction l with
  | nil => simp [nodeListNoPipeB]
  | cons n rest ih =>
    simp only [nodeListNoPipeB, Bool.and_eq_true, ih, List.mem_cons]
    constructor
    · rintro ⟨h1, h2⟩ x (rfl | hx)
      · exact h1
      · exact h2 x hx
    · intro h
      exact ⟨h n (Or.inl rfl), fun x hx => h x (Or.inr hx)⟩

theorem nodup_names_of_pairwise {P : List (BrigadierTreeNode × String)}
    (h : List.Pairwise pairNameLt P) :
    (P.map (fun cs => cs.1.get_name)).Nodup :=
  List.pairwise_map.mpr (h.imp (fun hab => strLt_ne hab))

/-- Members of a name-sorted pair list are determined by their names. -/
theorem name_inj_of_pairwise {P : List (BrigadierTreeNode × String)}
    (h : List.Pairwise pairNameLt P) :
    ∀ p ∈ P, ∀ q ∈ P, p.1.get_name = q.1.get_name → p = q := by
  induction P with
  | nil => intro p hp; cases hp
  | cons a rest ih =>
    rw [List.pairwise_cons] at h
    intro p hp q hq heq
    rcases List.mem_cons.mp hp with rfl | hp2
    · rcases List.mem_cons.mp hq with rfl | hq2
      · rfl
      · exact absurd heq (strLt_ne (h.1 q hq2))
    · rcases List.mem_cons.mp hq with rfl | hq2
      · exact absurd heq.symm (strLt_ne (h.1 p hp2))
      · exact ih h.2 p hp2 q hq2 heq

/-- The pair side of the first loop only sees non-Literal children, in
order. -/
theorem consolidateAccumulate_fst :
    ∀ (P : List (BrigadierTreeNode × String))
      (acc : List (BrigadierTreeNode × String) × MergeCandidates),
      (P.foldl consolidateAccumulate acc).1 =
        (P.filter (fun cs => (litKey cs).isNone)).foldl
          (fun a p => insertPair p a) acc.1 := by
  intro P
  induction P with
  | nil => intro acc; rfl
  | cons cs rest ih =>
    intro acc
    rcases cs with ⟨c, s⟩
    cases c with
    | argument nm ex p pr ch =>
      simp only [List.foldl_cons]
      rw [ih]
      rfl
    | enum nm vals ex ch =>
      simp only [List.foldl_cons]
      rw [ih]
      rfl
    | literal nm ex ch =>
      simp only [List.foldl_cons]
      rw [ih]
      rfl

theorem addCandidate_keys_mem {k : String × Bool} {v : MergeCandidate} :
    ∀ {cands : MergeCandidates}, k ∈ cands.map (fun e => e.1) →
      (addCandidate k v cands).map (fun e => e.1) = cands.map (fun e => e.1) := by
  intro cands
  induction cands with
  | nil =>
    intro h
    simp at h
  | cons e rest ih =>
    obtain ⟨k0, vs0⟩ := e
    intro h
    by_cases hk : k0 = k
    · rw [show addCandidate k v ((k0, vs0) :: rest) = (k0, vs0 ++ [v]) :: rest by
        simp only [addCandidate]; rw [if_pos hk]]
      rfl
    · rw [show addCandidate k v ((k0, vs0) :: rest) =
          (k0, vs0) :: addCandidate k v rest by
        simp only [addCandidate]; rw [if_neg hk]]
      simp only [List.map_cons] at h ⊢
      rcases List.mem_cons.mp h with h | h
      · exact absurd h.symm hk
      · rw [ih h]

theorem addCandidate_fresh {k : String × Bool} {v : MergeCandidate} :
    ∀ {cands : MergeCandidates}, k ∉ cands.map (fun e => e.1) →
      addCandidate k v cands = cands ++ [(k, [v])] := by
  intro cands
  induction cands with
  | nil => intro _; rfl
  | cons e rest ih =>
    obtain ⟨k0, vs0⟩ := e
    intro h
    have hk : ¬(k0 = k) := by
      intro hc
      subst hc
      exact h (by simp)
    rw [show addCandidate k v ((k0, vs0) :: rest) =
        (k0, vs0) :: addCandidate k v rest by
      simp only [addCandidate]; rw [if_neg hk]]
    rw [ih (fun hc => h (by
      simp only [List.map_cons]
      exact List.mem_cons.mpr (Or.inr hc)))]
    rfl

/-- If the accumulated keys and the upcoming Literal keys are jointly fresh,
the first loop's merge-candidates side appends one singleton entry per
Literal child. -/
theorem consolidateAccumulate_snd :
    ∀ (P : List (BrigadierTreeNode × String))
      (acc : List (BrigadierTreeNode × String) × MergeCandidates),
      ((acc.2.map (fun e => e.1)) ++ P.filterMap litKey).Nodup →
      (P.foldl consolidateAccumulate acc).2 = acc.2 ++ P.filterMap litEntry := by
  intro P
  induction P with
  | nil => intro acc _; simp
  | cons cs rest ih =>
    intro acc hnodup
    rcases cs with ⟨c, s⟩
    cases c with
    | argument nm ex p pr ch =>
      have hside : (((consolidateAccumulate acc
            (BrigadierTreeNode.argument nm ex p pr ch, s)).2.map (fun e => e.1)) ++
          rest.filterMap litKey).Nodup := hnodup
      simp only [List.foldl_cons]
      rw [ih _ hside]
      rfl
    | enum nm vals ex ch =>
      have hside : (((consolidateAccumulate acc
            (BrigadierTreeNode.enum nm vals ex ch, s)).2.map (fun e => e.1)) ++
          rest.filterMap litKey).Nodup := hnodup
      simp only [List.foldl_cons]
      rw [ih _ hside]
      rfl
    | literal nm ex ch =>
      have hnodup2 : ((acc.2.map (fun e => e.1)) ++
          ((s, ex) :: rest.filterMap litKey)).Nodup := hnodup
      have hfresh : (s, ex) ∉ acc.2.map (fun e => e.1) := by
        rcases List.nodup_append.mp hnodup2 with ⟨_, _, hdisj⟩
        intro hmem
        exact hdisj hmem (List.mem_cons.mpr (Or.inl rfl))
      have hside : (((consolidateAccumulate acc
            (BrigadierTreeNode.literal nm ex ch, s)).2.map (fun e => e.1)) ++
          rest.filterMap litKey).Nodup := by
        rw [show (consolidateAccumulate acc
            (BrigadierTreeNode.literal nm ex ch, s)).2 =
            addCandidate (s, ex) (nm, ch) acc.2 from rfl]
        rw [addCandidate_fresh hfresh, List.map_append, List.append_assoc]
        exact hnodup2
      simp only [List.foldl_cons]
      rw [ih _ hside]
      rw [show (consolidateAccumulate acc
          (BrigadierTreeNode.literal nm ex ch, s)).2 =
          addCandidate (s, ex) (nm, ch) acc.2 from rfl]
      rw [addCandidate_fresh hfresh, List.append_assoc]
      rfl

/-- The second loop is an `insertPair` fold over the entries' output pairs. -/
theorem consolidateMerge_foldl_eq :
    ∀ (entries : MergeCandidates) (acc : List (BrigadierTreeNode × String)),
      entries.foldl consolidateMerge acc =
        (entries.filterMap mergeEntryPair).foldl (fun a p => insertPair p a) acc := by
  intro entries
  induction entries with
  | nil => intro acc; rfl
  | cons e rest ih =>
    intro acc
    simp only [List.foldl_cons]
    rcases e with ⟨⟨s, ex⟩, _ | ⟨c1, _ | ⟨c2, cr⟩⟩⟩
    · rw [ih]
      rfl
    · rw [ih]
      rfl
    · rw [ih]
      rfl

/-- Keys of the merge-candidates map stay duplicate-free. -/
theorem consolidateAccumulate_keys_nodup :
    ∀ (P : List (BrigadierTreeNode × String))
      (acc : List (BrigadierTreeNode × String) × MergeCandidates),
      (acc.2.map (fun e => e.1)).Nodup →
      ((P.foldl consolidateAccumulate acc).2.map (fun e => e.1)).Nodup := by
  intro P
  induction P with
  | nil => intro acc h; simpa using h
  | cons cs rest ih =>
    intro acc h
    simp only [List.foldl_cons]
    refine ih _ ?_
    rcases cs with ⟨c, s⟩
    cases c with
    | argument nm ex p pr ch => exact h
    | enum nm vals ex ch => exact h
    | literal nm ex ch =>
      rw [show (consolidateAccumulate acc
          (BrigadierTreeNode.literal nm ex ch, s)).2 =
          addCandidate (s, ex) (nm, ch) acc.2 from rfl]
      by_cases hk : (s, ex) ∈ acc.2.map (fun e => e.1)
      · rw [addCandidate_keys_mem hk]
        exact h
      · rw [addCandidate_fresh hk, List.map_append]
        rw [List.nodup_append]
        refine ⟨h, List.nodup_singleton _, ?_⟩
        intro a ha hb
        have hab : a = (s, ex) := by simpa using hb
        subst hab
        exact hk ha

theorem litEntry_keys :
    ∀ P : List (BrigadierTreeNode × String),
      (P.filterMap litEntry).map (fun e => e.1) = P.filterMap litKey := by
  intro P
  induction P with
  | nil => rfl
  | cons cs rest ih =>
    rcases cs with ⟨c, s⟩
    cases c with
    | argument nm ex p pr ch => exact ih
    | enum nm vals ex ch => exact ih
    | literal nm ex ch => exact congrArg (List.cons (s, ex)) ih

theorem outputs_litKeys_sublist :
    ∀ entries : MergeCandidates,
      List.Sublist ((entries.filterMap mergeEntryPair).filterMap litKey)
        (entries.map (fun e => e.1)) := by
  intro entries
  induction entries with
  | nil => exact List.Sublist.refl _
  | cons e rest ih =>
    rcases e with ⟨⟨s, ex⟩, _ | ⟨c1, _ | ⟨c2, cr⟩⟩⟩
    · exact ih.cons _
    · exact ih.cons₂ _
    · exact ih.cons _

theorem litEntry_mergeEntryPair :
    ∀ P : List (BrigadierTreeNode × String),
      (P.filterMap litEntry).filterMap mergeEntryPair =
        P.filter (fun cs => (litKey cs).isSome) := by
  intro P
  induction P with
  | nil => rfl
  | cons cs rest ih =>
    rcases cs with ⟨c, s⟩
    cases c with
    | argument nm ex p pr ch => exact ih
    | enum nm vals ex ch => exact ih
    | literal nm ex ch =>
      exact congrArg (List.cons (BrigadierTreeNode.literal nm ex ch, s)) ih

theorem filter_isNone_litKey :
    ∀ P : List (BrigadierTreeNode × String),
      (P.filter (fun cs => (litKey cs).isNone)).filterMap litKey = [] := by
  intro P
  induction P with
  | nil => rfl
  | cons cs rest ih =>
    rcases cs with ⟨c, s⟩
    cases c with
    | argument nm ex p pr ch => exact ih
    | enum nm vals ex ch => exact ih
    | literal nm ex ch => exact ih

theorem stringDataInj {a b : String} (h : a.data = b.data) : a = b := by
  cases a with
  | mk d1 =>
    cases b with
    | mk d2 =>
      have h2 : d1 = d2 := h
      rw [h2]

theorem contains_false_not_mem : ∀ {cl : List Char}, cl.contains '|' = false → '|' ∉ cl := by
  intro cl
  induction cl with
  | nil =>
    intro _ h
    cases h
  | cons c rest ih =>
    intro h hmem
    rw [List.contains_cons, Bool.or_eq_false_iff] at h
    rcases List.mem_cons.mp hmem with rfl | hmem2
    · exact absurd rfl (beq_eq_false_iff_ne.mp h.1)
    · exact ih h.2 hmem2

theorem noPipe_not_mem {s : String} (h : stringNoPipe s = true) : '|' ∉ s.data := by
  apply contains_false_not_mem
  simp only [stringNoPipe] at h
  cases hc : s.data.contains '|' with
  | false => rfl
  | true =>
    rw [hc] at h
    simp at h

/-- A `'|'`-free prefix before the first `'|'` is uniquely determined. -/
theorem pipe_split_inj : ∀ (a1 : List Char), ∀ (a2 t1 t2 : List Char),
    '|' ∉ a1 → '|' ∉ a2 →
    a1 ++ '|' :: t1 = a2 ++ '|' :: t2 → a1 = a2 ∧ t1 = t2 := by
  intro a1
  induction a1 with
  | nil =>
    intro a2 t1 t2 _ h2 heq
    cases a2 with
    | nil =>
      injection heq with _ h
      exact ⟨rfl, h⟩
    | cons c a2' =>
      exfalso
      injection heq with h1 _
      exact h2 (List.mem_cons.mpr (Or.inl h1))
  | cons c a1' ih =>
    intro a2 t1 t2 h1 h2 heq
    cases a2 with
    | nil =>
      exfalso
      injection heq with hc _
      exact h1 (List.mem_cons.mpr (Or.inl hc.symm))
    | cons d a2' =>
      injection heq with hcd hrest
      have h1b : '|' ∉ a1' := fun hm => h1 (List.mem_cons.mpr (Or.inr hm))
      have h2b : '|' ∉ a2' := fun hm => h2 (List.mem_cons.mpr (Or.inr hm))
      obtain ⟨ha, ht⟩ := ih a2' t1 t2 h1b h2b hrest
      exact ⟨by rw [hcd, ha], ht⟩

theorem sjoin_data_cons2 (x y : String) (rest : List String) :
    (sjoin "|" (x :: y :: rest)).data = x.data ++ '|' :: (sjoin "|" (y :: rest)).data := by
  show (x ++ "|" ++ sjoin "|" (y :: rest)).data = _
  rw [String.data_append, String.data_append, List.append_assoc]
  rfl

theorem sjoin_pipe_mem (x y : String) (rest : List String) :
    '|' ∈ (sjoin "|" (x :: y :: rest)).data := by
  rw [sjoin_data_cons2]
  exact List.mem_append.mpr (Or.inr (List.mem_cons.mpr (Or.inl rfl)))

/-- `sjoin "|"` is injective on nonempty lists of `'|'`-free strings. -/
theorem sjoin_pipe_inj : ∀ (v1 v2 : List String),
    (∀ s ∈ v1, '|' ∉ s.data) → (∀ s ∈ v2, '|' ∉ s.data) →
    v1 ≠ [] → v2 ≠ [] → sjoin "|" v1 = sjoin "|" v2 → v1 = v2 := by
  intro v1
  induction v1 with
  | nil =>
    intro v2 _ _ hne
    exact absurd rfl hne
  | cons x1 r1 ih =>
    intro v2 hp1 hp2 _ hne2 heq
    cases v2 with
    | nil => exact absurd rfl hne2
    | cons x2 r2 =>
      cases r1 with
      | nil =>
        cases r2 with
        | nil =>
          have hx : x1 = x2 := heq
          rw [hx]
        | cons y2 rr2 =>
          exfalso
          have hmem := sjoin_pipe_mem x2 y2 rr2
          rw [← heq] at hmem
          exact hp1 x1 (List.mem_cons.mpr (Or.inl rfl)) hmem
      | cons y1 rr1 =>
        cases r2 with
        | nil =>
          exfalso
          have hmem := sjoin_pipe_mem x1 y1 rr1
          rw [heq] at hmem
          exact hp2 x2 (List.mem_cons.mpr (Or.inl rfl)) hmem
        | cons y2 rr2 =>
          have hdata := congrArg String.data heq
          rw [sjoin_data_cons2, sjoin_data_cons2] at hdata
          obtain ⟨ha, ht⟩ := pipe_split_inj x1.data x2.data _ _
            (hp1 x1 (List.mem_cons.mpr (Or.inl rfl)))
            (hp2 x2 (List.mem_cons.mpr (Or.inl rfl))) hdata
          have hx : x1 = x2 := stringDataInj ha
          have hrest : sjoin "|" (y1 :: rr1) = sjoin "|" (y2 :: rr2) := stringDataInj ht
          have htail := ih (y2 :: rr2)
            (fun s hs => hp1 s (List.mem_cons.mpr (Or.inr hs)))
            (fun s hs => hp2 s (List.mem_cons.mpr (Or.inr hs)))
            (by simp) (by simp) hrest
          rw [hx, htail]

theorem nodup_map_filterMap {α β γ : Type} (f : α → Option β) (g : β → γ) :
    ∀ l : List α,
      List.Pairwise (fun a b => ∀ pa pb, f a = some pa → f b = some pb →
        g pa ≠ g pb) l →
      ((l.filterMap f).map g).Nodup := by
  intro l
  induction l with
  | nil => intro _; exact List.Pairwise.nil
  | cons a rest ih =>
    intro h
    rw [List.pairwise_cons] at h
    cases hfa : f a with
    | none =>
      rw [List.filterMap_cons_none hfa]
      exact ih h.2
    | some b =>
      rw [List.filterMap_cons_some hfa, List.map_cons]
      refine List.Pairwise.cons ?_ (ih h.2)
      intro y hy
      rcases List.mem_map.mp hy with ⟨pb, hpb, rfl⟩
      rcases List.mem_filterMap.mp hpb with ⟨a2, ha2, hfa2⟩
      exact h.1 a2 ha2 b pb hfa hfa2

/-- The names surviving one consolidation level — passthrough non-Literals
plus merged outputs — are pairwise distinct, given name-sorted pipe-free-named
input pairs. -/
theorem consolidation_names_nodup (ord : MergeOrd) (hord : ∀ l, List.Perm (ord l) l)
    (P : List (BrigadierTreeNode × String))
    (Hnames : List.Pairwise pairNameLt P)
    (Hpipe : ∀ p ∈ P, stringNoPipe p.1.get_name = true) :
    ((P.filter (fun cs => (litKey cs).isNone) ++
        (ord (P.foldl consolidateAccumulate ([], [])).2).filterMap mergeEntryPair).map
      (fun cs => cs.1.get_name)).Nodup := by
  have hinj := name_inj_of_pairwise Hnames
  have hPnodup := nodup_names_of_pairwise Hnames
  have hkeys : (((P.foldl consolidateAccumulate ([], [])).2).map
      (fun e => e.1)).Nodup :=
    consolidateAccumulate_keys_nodup P ([], []) List.Pairwise.nil
  have hEperm := hord (P.foldl consolidateAccumulate ([], [])).2
  have htrace : ∀ e ∈ (P.foldl consolidateAccumulate ([], [])).2, ∀ c ∈ e.2,
      (BrigadierTreeNode.literal c.1 e.1.2 c.2, e.1.1) ∈ P := by
    intro e he c hc
    rcases (consolidateAccumulate_spec P ([], [])).2 e.1 e.2 c he hc with
      ⟨vs2, hvs2, _⟩ | h
    · cases hvs2
    · exact h
  have hcandpipe : ∀ e ∈ (P.foldl consolidateAccumulate ([], [])).2, ∀ c ∈ e.2,
      '|' ∉ (c.1 : String).data := by
    intro e he c hc
    exact noPipe_not_mem (Hpipe _ (htrace e he c hc))
  have hkeyspw : List.Pairwise (fun e1 e2 : (String × Bool) × List MergeCandidate =>
      e1.1 ≠ e2.1) (P.foldl consolidateAccumulate ([], [])).2 :=
    List.pairwise_map.mp hkeys
  have hpw_entries : List.Pairwise (fun e1 e2 => ∀ p1 p2, mergeEntryPair e1 = some p1 →
      mergeEntryPair e2 = some p2 → p1.1.get_name ≠ p2.1.get_name)
      (P.foldl consolidateAccumulate ([], [])).2 := by
    refine List.Pairwise.imp_of_mem ?_ hkeyspw
    intro e1 e2 he1 he2 hkne p1 p2 hp1 hp2 heqname
    rcases e1 with ⟨⟨s1, ex1⟩, _ | ⟨c11, _ | ⟨c12, cr1⟩⟩⟩
    · simp [mergeEntryPair] at hp1
    · -- e1 is a singleton partition
      have hp1e : (BrigadierTreeNode.literal c11.1 ex1 c11.2, s1) = p1 :=
        Option.some.inj hp1
      subst hp1e
      have hm1 : (BrigadierTreeNode.literal c11.1 ex1 c11.2, s1) ∈ P :=
        htrace _ he1 c11 (List.mem_cons.mpr (Or.inl rfl))
      rcases e2 with ⟨⟨s2, ex2⟩, _ | ⟨c21, _ | ⟨c22, cr2⟩⟩⟩
      · simp [mergeEntryPair] at hp2
      · have hp2e : (BrigadierTreeNode.literal c21.1 ex2 c21.2, s2) = p2 :=
          Option.some.inj hp2
        subst hp2e
        have hm2 : (BrigadierTreeNode.literal c21.1 ex2 c21.2, s2) ∈ P :=
          htrace _ he2 c21 (List.mem_cons.mpr (Or.inl rfl))
        have heq := hinj _ hm1 _ hm2 heqname
        rw [Prod.mk.injEq] at heq
        injection heq.1 with _ hex _
        exact hkne (by rw [Prod.mk.injEq]; exact ⟨heq.2, hex⟩)
      · have hp2e : (BrigadierTreeNode.enum
            (sjoin "|" ((c21 :: c22 :: cr2).map (fun c => c.1)))
            ((c21 :: c22 :: cr2).map (fun c => c.1)) ex2
            (((c21 :: c22 :: cr2).getLastD ("", BrigadierTreeNodeChildren.nodes [])).2),
            s2) = p2 := Option.some.inj hp2
        subst hp2e
        have hpipe1 : '|' ∉ (c11.1 : String).data :=
          hcandpipe _ he1 c11 (List.mem_cons.mpr (Or.inl rfl))
        have heqname2 : c11.1 =
            sjoin "|" (c21.1 :: c22.1 :: cr2.map (fun c => c.1)) := heqname
        have hmem := sjoin_pipe_mem c21.1 c22.1 (cr2.map (fun c => c.1))
        rw [← heqname2] at hmem
        exact hpipe1 hmem
    · -- e1 is a merged partition
      have hp1e : (BrigadierTreeNode.enum
          (sjoin "|" ((c11 :: c12 :: cr1).map (fun c => c.1)))
          ((c11 :: c12 :: cr1).map (fun c => c.1)) ex1
          (((c11 :: c12 :: cr1).getLastD ("", BrigadierTreeNodeChildren.nodes [])).2),
          s1) = p1 := Option.some.inj hp1
      subst hp1e
      rcases e2 with ⟨⟨s2, ex2⟩, _ | ⟨c21, _ | ⟨c22, cr2⟩⟩⟩
      · simp [mergeEntryPair] at hp2
      · have hp2e : (BrigadierTreeNode.literal c21.1 ex2 c21.2, s2) = p2 :=
          Option.some.inj hp2
        subst hp2e
        have hpipe2 : '|' ∉ (c21.1 : String).data :=
          hcandpipe _ he2 c21 (List.mem_cons.mpr (Or.inl rfl))
        have heqname2 : sjoin "|" (c11.1 :: c12.1 :: cr1.map (fun c => c.1)) =
            c21.1 := heqname
        have hmem := sjoin_pipe_mem c11.1 c12.1 (cr1.map (fun c => c.1))
        rw [heqname2] at hmem
        exact hpipe2 hmem
      · have hp2e : (BrigadierTreeNode.enum
            (sjoin "|" ((c21 :: c22 :: cr2).map (fun c => c.1)))
            ((c21 :: c22 :: cr2).map (fun c => c.1)) ex2
            (((c21 :: c22 :: cr2).getLastD ("", BrigadierTreeNodeChildren.nodes [])).2),
            s2) = p2 := Option.some.inj hp2
        subst hp2e
        have hvals : (c11 :: c12 :: cr1).map (fun c => c.1) =
            (c21 :: c22 :: cr2).map (fun c => c.1) := by
          have heqname2 : sjoin "|" ((c11 :: c12 :: cr1).map (fun c => c.1)) =
              sjoin "|" ((c21 :: c22 :: cr2).map (fun c => c.1)) := heqname
          refine sjoin_pipe_inj _ _ ?_ ?_ (by simp) (by simp) heqname2
          · intro x hx
            rcases List.mem_map.mp hx with ⟨c, hc, rfl⟩
            exact hcandpipe _ he1 c hc
          · intro x hx
            rcases List.mem_map.mp hx with ⟨c, hc, rfl⟩
            exact hcandpipe _ he2 c hc
        have hc11mem : c11.1 ∈ (c21 :: c22 :: cr2).map (fun c => c.1) := by
          rw [← hvals]
          exact List.mem_cons.mpr (Or.inl rfl)
        rcases List.mem_map.mp hc11mem with ⟨c2x, hc2x, hname⟩
        have hm1 : (BrigadierTreeNode.literal c11.1 ex1 c11.2, s1) ∈ P :=
          htrace _ he1 c11 (List.mem_cons.mpr (Or.inl rfl))
        have hm2 : (BrigadierTreeNode.literal c2x.1 ex2 c2x.2, s2) ∈ P :=
          htrace _ he2 c2x hc2x
        have heq := hinj _ hm1 _ hm2 (by exact hname.symm)
        rw [Prod.mk.injEq] at heq
        injection heq.1 with _ hex _
        exact hkne (by rw [Prod.mk.injEq]; exact ⟨heq.2, hex⟩)
  have hpw_ord : List.Pairwise (fun e1 e2 => ∀ p1 p2, mergeEntryPair e1 = some p1 →
      mergeEntryPair e2 = some p2 → p1.1.get_name ≠ p2.1.get_name)
      (ord (P.foldl consolidateAccumulate ([], [])).2) :=
    (hEperm.pairwise_iff
      (fun hxy q1 q2 hy hx => Ne.symm (hxy q2 q1 hx hy))).mpr hpw_entries
  have hBnodup := nodup_map_filterMap mergeEntryPair (fun cs => cs.1.get_name)
    (ord (P.foldl consolidateAccumulate ([], [])).2) hpw_ord
  have hAnodup : ((P.filter (fun cs => (litKey cs).isNone)).map
      (fun cs => cs.1.get_name)).Nodup :=
    hPnodup.sublist ((List.filter_sublist _).map _)
  rw [List.map_append, List.nodup_append]
  refine ⟨hAnodup, hBnodup, ?_⟩
  intro x hxA hxB
  rcases List.mem_map.mp hxA with ⟨a, haA, rfl⟩
  rcases List.mem_filter.mp haA with ⟨haP, haNone⟩
  rcases List.mem_map.mp hxB with ⟨p, hpB, hpn⟩
  rcases List.mem_filterMap.mp hpB with ⟨e, heB, hfe⟩
  have heE := hEperm.mem_iff.mp heB
  rcases e with ⟨⟨s2, ex2⟩, _ | ⟨c21, _ | ⟨c22, cr2⟩⟩⟩
  · simp [mergeEntryPair] at hfe
  · have hpe : (BrigadierTreeNode.literal c21.1 ex2 c21.2, s2) = p :=
      Option.some.inj hfe
    subst hpe
    have hm2 : (BrigadierTreeNode.literal c21.1 ex2 c21.2, s2) ∈ P :=
      htrace _ heE c21 (List.mem_cons.mpr (Or.inl rfl))
    have heq := hinj _ haP _ hm2 hpn.symm
    rw [heq] at haNone
    simp [litKey] at haNone
  · have hpe : (BrigadierTreeNode.enum
        (sjoin "|" ((c21 :: c22 :: cr2).map (fun c => c.1)))
        ((c21 :: c22 :: cr2).map (fun c => c.1)) ex2
        (((c21 :: c22 :: cr2).getLastD ("", BrigadierTreeNodeChildren.nodes [])).2),
        s2) = p := Option.some.inj hfe
    subst hpe
    have hpipea : '|' ∉ (a.1.get_name : String).data := noPipe_not_mem (Hpipe _ haP)
    have hpn2 : sjoin "|" (c21.1 :: c22.1 :: cr2.map (fun c => c.1)) =
        a.1.get_name := hpn
    have hmem := sjoin_pipe_mem c21.1 c22.1 (cr2.map (fun c => c.1))
    rw [hpn2] at hmem
    exact hpipea hmem

theorem foldl_insertNode_eq_collect :
    ∀ (P : List (BrigadierTreeNode × String)) (acc : List BrigadierTreeNode),
      P.foldl (fun acc cs => insertNode cs.1 acc) acc =
        (P.map (fun cs => cs.1)).foldl (fun a n => insertNode n a) acc := by
  intro P
  induction P with
  | nil => intro acc; rfl
  | cons p rest ih =>
    intro acc
    simp only [List.foldl_cons, List.map_cons]
    exact ih _

/-- One consolidation step reproduces a name-sorted pair list whose Literal
members have pairwise-distinct partition keys: nothing merges, nothing drops,
and the recorded canonical string matches. -/
theorem consolidateStep_rebuild (ord2 : MergeOrd) (hord2 : ∀ l, List.Perm (ord2 l) l)
    (P : List (BrigadierTreeNode × String))
    (HS : List.Pairwise pairNameLt P)
    (HK : (P.filterMap litKey).Nodup) :
    consolidateStep ord2 P =
      (BrigadierTreeNodeChildren.nodes (P.map (fun cs => cs.1)),
        sjoin ";" (P.map (fun cs =>
          cs.1.get_canonical_string ++ "[" ++ cs.2 ++ "]"))) := by
  have hsnd : (P.foldl consolidateAccumulate ([], [])).2 = P.filterMap litEntry :=
    consolidateAccumulate_snd P ([], []) HK
  have hfst : (P.foldl consolidateAccumulate ([], [])).1 =
      (P.filter (fun cs => (litKey cs).isNone)).foldl (fun a p => insertPair p a) [] :=
    consolidateAccumulate_fst P ([], [])
  have hAnodup : ((P.filter (fun cs => (litKey cs).isNone)).map
      (fun cs => cs.1.get_name)).Nodup :=
    (nodup_names_of_pairwise HS).sublist ((List.filter_sublist _).map _)
  have hA := foldl_insertPair_nodup (P.filter (fun cs => (litKey cs).isNone)) []
    List.Pairwise.nil hAnodup
  have hperm_lit : List.Perm ((ord2 (P.filterMap litEntry)).filterMap mergeEntryPair)
      (P.filter (fun cs => (litKey cs).isSome)) := by
    have h2 := (hord2 (P.filterMap litEntry)).filterMap mergeEntryPair
    rw [litEntry_mergeEntryPair] at h2
    exact h2
  have hfABP : List.Perm (P.filter (fun cs => (litKey cs).isNone) ++
      P.filter (fun cs => (litKey cs).isSome)) P := by
    have h := List.filter_append_perm (fun cs => (litKey cs).isSome) P
    have hcong : P.filter (fun a => !(litKey a).isSome) =
        P.filter (fun cs => (litKey cs).isNone) := by
      apply List.filter_congr
      intro x _
      cases hx : litKey x with
      | none => rfl
      | some k => rfl
    rw [hcong] at h
    exact List.perm_append_comm.trans h
  have hpermAll : List.Perm
      ((P.filter (fun cs => (litKey cs).isNone)).foldl (fun a p => insertPair p a) [] ++
        (ord2 (P.filterMap litEntry)).filterMap mergeEntryPair) P :=
    (hA.2.append hperm_lit).trans hfABP
  have hnodupAll : (((P.filter (fun cs => (litKey cs).isNone)).foldl
        (fun a p => insertPair p a) [] ++
        (ord2 (P.filterMap litEntry)).filterMap mergeEntryPair).map
      (fun cs => cs.1.get_name)).Nodup :=
    ((hpermAll.map _).nodup_iff).mpr (nodup_names_of_pairwise HS)
  have hB := foldl_insertPair_nodup
    ((ord2 (P.filterMap litEntry)).filterMap mergeEntryPair)
    ((P.filter (fun cs => (litKey cs).isNone)).foldl (fun a p => insertPair p a) [])
    hA.1 hnodupAll
  have hfinal : ((ord2 (P.filterMap litEntry)).filterMap mergeEntryPair).foldl
      (fun a p => insertPair p a)
      ((P.filter (fun cs => (litKey cs).isNone)).foldl (fun a p => insertPair p a) []) =
      P :=
    pairs_sorted_perm_eq (hB.2.trans hpermAll) hB.1 HS
  have hnc : P.foldl (fun acc cs => insertNode cs.1 acc) [] = P.map (fun cs => cs.1) := by
    rw [foldl_insertNode_eq_collect P []]
    show collectNodes (P.map (fun cs => cs.1)) = _
    apply collectNodes_of_sorted
    apply namesSortedB_of_pairwise
    exact List.pairwise_map.mpr HS
  simp only [consolidateStep]
  rw [hsnd, hfst, consolidateMerge_foldl_eq, hfinal, hnc]

theorem nodeNoPipeB_name {n : BrigadierTreeNode} (h : nodeNoPipeB n = true) :
    stringNoPipe n.get_name = true := by
  cases n with
  | argument nm ex p pr ch =>
    simp only [nodeNoPipeB, Bool.and_eq_true] at h
    exact h.1
  | enum nm vals ex ch =>
    simp only [nodeNoPipeB, Bool.and_eq_true] at h
    exact h.1
  | literal nm ex ch =>
    simp only [nodeNoPipeB, Bool.and_eq_true] at h
    exact h.1

/-- The children step, phrased through `consolidatePairs`. -/
theorem consolidateChildren_nodes (ord : MergeOrd) (l : List BrigadierTreeNode) :
    consolidateChildren ord (BrigadierTreeNodeChildren.nodes l) =
      (BrigadierTreeNodeChildren.nodes
        ((consolidatePairs ord l).foldl (fun acc cs => insertNode cs.1 acc) []),
       sjoin ";" ((consolidatePairs ord l).map
         (fun cs => cs.1.get_canonical_string ++ "[" ++ cs.2 ++ "]"))) := rfl

/-- The pass-one pair list is name-sorted and a no-drop permutation of the
non-Literal passthroughs plus the merged outputs. -/
theorem consolidatePairs_spec (ord : MergeOrd) (hord : ∀ l, List.Perm (ord l) l)
    (l : List BrigadierTreeNode)
    (hnames : List.Pairwise pairNameLt (consolidateList ord l))
    (hpipes : ∀ p ∈ consolidateList ord l, stringNoPipe p.1.get_name = true) :
    List.Pairwise pairNameLt (consolidatePairs ord l) ∧
    List.Perm (consolidatePairs ord l)
      ((consolidateList ord l).filter (fun cs => (litKey cs).isNone) ++
        (ord ((consolidateList ord l).foldl consolidateAccumulate ([], [])).2).filterMap
          mergeEntryPair) := by
  have hallnodup := consolidation_names_nodup ord hord (consolidateList ord l)
    hnames hpipes
  have hfst1 : ((consolidateList ord l).foldl consolidateAccumulate ([], [])).1 =
      ((consolidateList ord l).filter (fun cs => (litKey cs).isNone)).foldl
        (fun a p => insertPair p a) [] :=
    consolidateAccumulate_fst (consolidateList ord l) ([], [])
  have hAnodup : (((consolidateList ord l).filter (fun cs => (litKey cs).isNone)).map
      (fun cs => cs.1.get_name)).Nodup := by
    have h := hallnodup
    rw [List.map_append] at h
    exact (List.nodup_append.mp h).1
  have hA := foldl_insertPair_nodup
    ((consolidateList ord l).filter (fun cs => (litKey cs).isNone)) []
    List.Pairwise.nil hAnodup
  have hpermAB : List.Perm
      (((consolidateList ord l).filter (fun cs => (litKey cs).isNone)).foldl
          (fun a p => insertPair p a) [] ++
        (ord ((consolidateList ord l).foldl consolidateAccumulate ([], [])).2).filterMap
          mergeEntryPair)
      ((consolidateList ord l).filter (fun cs => (litKey cs).isNone) ++
        (ord ((consolidateList ord l).foldl consolidateAccumulate ([], [])).2).filterMap
          mergeEntryPair) :=
    hA.2.append (List.Perm.refl _)
  have hABnodup := ((hpermAB.map (fun cs => cs.1.get_name)).nodup_iff).mpr hallnodup
  have hB := foldl_insertPair_nodup
    ((ord ((consolidateList ord l).foldl consolidateAccumulate ([], [])).2).filterMap
      mergeEntryPair)
    (((consolidateList ord l).filter (fun cs => (litKey cs).isNone)).foldl
      (fun a p => insertPair p a) [])
    hA.1 hABnodup
  have hform : consolidatePairs ord l =
      ((ord ((consolidateList ord l).foldl consolidateAccumulate ([], [])).2).filterMap
        mergeEntryPair).foldl (fun a p => insertPair p a)
        (((consolidateList ord l).filter (fun cs => (litKey cs).isNone)).foldl
          (fun a p => insertPair p a) []) := by
    show (ord ((consolidateList ord l).foldl consolidateAccumulate ([], [])).2).foldl
        consolidateMerge
        ((consolidateList ord l).foldl consolidateAccumulate ([], [])).1 = _
    rw [consolidateMerge_foldl_eq, hfst1]
  constructor
  · rw [hform]
    exact hB.1
  · rw [hform]
    exact hB.2.trans hpermAB

mutual

/-- Consolidation is a projection on sorted, pipe-free-named subtrees: a
second pass (under any faithful iteration order) reproduces the rewritten
node and its canonical string. -/
theorem consInner_stable (ord ord2 : MergeOrd)
    (hord : ∀ l, List.Perm (ord l) l) (hord2 : ∀ l, List.Perm (ord2 l) l) :
    ∀ n : BrigadierTreeNode, nodeSortedB n = true → nodeNoPipeB n = true →
      consolidate_literals_into_enums_inner ord2
          (consolidate_literals_into_enums_inner ord n).1 =
        consolidate_literals_into_enums_inner ord n
  | .argument name executable parser properties children => by
      intro hsort hpipe
      have hp : stringNoPipe name = true ∧ childrenNoPipeB children = true := by
        simpa [nodeNoPipeB] using hpipe
      have hch := consChildren_stable ord ord2 hord hord2 children
        (by simpa [nodeSortedB] using hsort) hp.2
      show (BrigadierTreeNode.argument name executable parser properties
          (consolidateChildren ord2 (consolidateChildren ord children).1).1,
          (consolidateChildren ord2 (consolidateChildren ord children).1).2) =
        (BrigadierTreeNode.argument name executable parser properties
          (consolidateChildren ord children).1,
          (consolidateChildren ord children).2)
      rw [hch]
  | .enum name values executable children => by
      intro hsort hpipe
      have hp : stringNoPipe name = true ∧ childrenNoPipeB children = true := by
        simpa [nodeNoPipeB] using hpipe
      have hch := consChildren_stable ord ord2 hord hord2 children
        (by simpa [nodeSortedB] using hsort) hp.2
      show (BrigadierTreeNode.enum name values executable
          (consolidateChildren ord2 (consolidateChildren ord children).1).1,
          (consolidateChildren ord2 (consolidateChildren ord children).1).2) =
        (BrigadierTreeNode.enum name values executable
          (consolidateChildren ord children).1,
          (consolidateChildren ord children).2)
      rw [hch]
  | .literal name executable children => by
      intro hsort hpipe
      have hp : stringNoPipe name = true ∧ childrenNoPipeB children = true := by
        simpa [nodeNoPipeB] using hpipe
      have hch := consChildren_stable ord ord2 hord hord2 children
        (by simpa [nodeSortedB] using hsort) hp.2
      show (BrigadierTreeNode.literal name executable
          (consolidateChildren ord2 (consolidateChildren ord children).1).1,
          (consolidateChildren ord2 (consolidateChildren ord children).1).2) =
        (BrigadierTreeNode.literal name executable
          (consolidateChildren ord children).1,
          (consolidateChildren ord children).2)
      rw [hch]

/-- Children version of consolidation stability. -/
theorem consChildren_stable (ord ord2 : MergeOrd)
    (hord : ∀ l, List.Perm (ord l) l) (hord2 : ∀ l, List.Perm (ord2 l) l) :
    ∀ chn : BrigadierTreeNodeChildren, childrenSortedB chn = true →
      childrenNoPipeB chn = true →
      consolidateChildren ord2 (consolidateChildren ord chn).1 =
        consolidateChildren ord chn
  | .redirect path => by
      intro _ _
      rfl
  | .nodes l => by
      intro hsort hpipe
      have hsn : namesSortedB l = true ∧ nodeListSortedB l = true := by
        simpa [childrenSortedB] using hsort
      have hpn : nodeListNoPipeB l = true := by simpa [childrenNoPipeB] using hpipe
      have hstab : ∀ (c : BrigadierTreeNode) (s : String),
          (c, s) ∈ consolidateList ord l →
          consolidate_literals_into_enums_inner ord2 c = (c, s) :=
        fun c s hcs => consList_stable ord ord2 hord hord2 l hsn.2 hpn c s hcs
      have hnames : List.Pairwise pairNameLt (consolidateList ord l) := by
        rw [consolidateList_eq_map ord l, List.pairwise_map]
        refine (namesSortedB_pairwise hsn.1).imp ?_
        intro a b hab
        show strLt (consolidate_literals_into_enums_inner ord a).1.get_name
            (consolidate_literals_into_enums_inner ord b).1.get_name = true
        rw [consInner_name ord a, consInner_name ord b]
        exact hab
      have hpipes : ∀ p ∈ consolidateList ord l, stringNoPipe p.1.get_name = true := by
        intro p hp
        rw [consolidateList_eq_map ord l] at hp
        rcases List.mem_map.mp hp with ⟨child, hchild, rfl⟩
        show stringNoPipe
          (consolidate_literals_into_enums_inner ord child).1.get_name = true
        rw [consInner_name ord child]
        exact nodeNoPipeB_name ((nodeListNoPipeB_iff l).mp hpn child hchild)
      obtain ⟨hsorted1, hperm1⟩ := consolidatePairs_spec ord hord l hnames hpipes
      have hstab_all : ∀ q ∈ consolidatePairs ord l,
          consolidate_literals_into_enums_inner ord2 q.1 = q := by
        intro q hq
        rcases List.mem_append.mp ((hperm1.mem_iff).mp hq) with hqA | hqB
        · rcases List.mem_filter.mp hqA with ⟨hqP, _⟩
          exact hstab q.1 q.2 hqP
        · rcases List.mem_filterMap.mp hqB with ⟨e, heB, hfe⟩
          have heE := (hord _).mem_iff.mp heB
          rcases e with ⟨⟨s2, ex2⟩, _ | ⟨c1, _ | ⟨c2, cr⟩⟩⟩
          · simp [mergeEntryPair] at hfe
          · have hqe : (BrigadierTreeNode.literal c1.1 ex2 c1.2, s2) = q :=
              Option.some.inj hfe
            have hm : (BrigadierTreeNode.literal c1.1 ex2 c1.2, s2) ∈
                consolidateList ord l := by
              rcases (consolidateAccumulate_spec (consolidateList ord l) ([], [])).2
                  (s2, ex2) [c1] c1 heE (List.mem_cons.mpr (Or.inl rfl)) with
                ⟨vs2, hvs2, _⟩ | h
              · cases hvs2
              · exact h
            subst hqe
            exact hstab _ _ hm
          · have hqe : (BrigadierTreeNode.enum
                (sjoin "|" ((c1 :: c2 :: cr).map (fun c => c.1)))
                ((c1 :: c2 :: cr).map (fun c => c.1)) ex2
                (((c1 :: c2 :: cr).getLastD
                  ("", BrigadierTreeNodeChildren.nodes [])).2),
                s2) = q := Option.some.inj hfe
            have hlastmem := getLastD_mem (c1 :: c2 :: cr)
              ("", BrigadierTreeNodeChildren.nodes []) (by simp)
            have hm : (BrigadierTreeNode.literal
                ((c1 :: c2 :: cr).getLastD
                  ("", BrigadierTreeNodeChildren.nodes [])).1 ex2
                ((c1 :: c2 :: cr).getLastD
                  ("", BrigadierTreeNodeChildren.nodes [])).2,
                s2) ∈ consolidateList ord l := by
              rcases (consolidateAccumulate_spec (consolidateList ord l) ([], [])).2
                  (s2, ex2) (c1 :: c2 :: cr) _ heE hlastmem with ⟨vs2, hvs2, _⟩ | h
              · cases hvs2
              · exact h
            have hstabl := hstab _ _ hm
            rw [show consolidate_literals_into_enums_inner ord2
                (BrigadierTreeNode.literal
                  ((c1 :: c2 :: cr).getLastD
                    ("", BrigadierTreeNodeChildren.nodes [])).1 ex2
                  ((c1 :: c2 :: cr).getLastD
                    ("", BrigadierTreeNodeChildren.nodes [])).2) =
                (BrigadierTreeNode.literal
                  ((c1 :: c2 :: cr).getLastD
                    ("", BrigadierTreeNodeChildren.nodes [])).1 ex2
                  (consolidateChildren ord2
                    ((c1 :: c2 :: cr).getLastD
                      ("", BrigadierTreeNodeChildren.nodes [])).2).1,
                 (consolidateChildren ord2
                    ((c1 :: c2 :: cr).getLastD
                      ("", BrigadierTreeNodeChildren.nodes [])).2).2)
                from rfl] at hstabl
            rw [Prod.mk.injEq] at hstabl
            injection hstabl.1 with _ _ hch
            subst hqe
            show (BrigadierTreeNode.enum
                (sjoin "|" ((c1 :: c2 :: cr).map (fun c => c.1)))
                ((c1 :: c2 :: cr).map (fun c => c.1)) ex2
                (consolidateChildren ord2
                  (((c1 :: c2 :: cr).getLastD
                    ("", BrigadierTreeNodeChildren.nodes [])).2)).1,
               (consolidateChildren ord2
                  (((c1 :: c2 :: cr).getLastD
                    ("", BrigadierTreeNodeChildren.nodes [])).2)).2) = _
            rw [hch, hstabl.2]
      have hnc1 : (consolidatePairs ord l).foldl
          (fun acc cs => insertNode cs.1 acc) [] =
          (consolidatePairs ord l).map (fun cs => cs.1) := by
        rw [foldl_insertNode_eq_collect]
        show collectNodes ((consolidatePairs ord l).map (fun cs => cs.1)) = _
        apply collectNodes_of_sorted
        apply namesSortedB_of_pairwise
        exact List.pairwise_map.mpr hsorted1
      have hlist2 : consolidateList ord2
          ((consolidatePairs ord l).map (fun cs => cs.1)) =
          consolidatePairs ord l := by
        rw [consolidateList_eq_map, List.map_map]
        have hcongr : ∀ q ∈ consolidatePairs ord l,
            (consolidate_literals_into_enums_inner ord2 ∘ fun cs => cs.1) q = id q :=
          fun q hq => hstab_all q hq
        rw [List.map_congr_left hcongr, List.map_id]
      have hlitk : ((consolidatePairs ord l).filterMap litKey).Nodup := by
        have hpermk := hperm1.filterMap litKey
        rw [List.filterMap_append, filter_isNone_litKey] at hpermk
        refine (hpermk.nodup_iff).mpr ?_
        have hkeys := consolidateAccumulate_keys_nodup (consolidateList ord l)
          ([], []) List.Pairwise.nil
        have hkeys2 := (((hord _).map (fun e => e.1)).nodup_iff).mpr hkeys
        exact hkeys2.sublist (outputs_litKeys_sublist _)
      have hreb := consolidateStep_rebuild ord2 hord2 (consolidatePairs ord l)
        hsorted1 hlitk
      rw [consolidateChildren_nodes ord l, hnc1]
      show consolidateStep ord2 (consolidateList ord2
          ((consolidatePairs ord l).map (fun cs => cs.1))) =
        (BrigadierTreeNodeChildren.nodes ((consolidatePairs ord l).map (fun cs => cs.1)),
         sjoin ";" ((consolidatePairs ord l).map
           (fun cs => cs.1.get_canonical_string ++ "[" ++ cs.2 ++ "]")))
      rw [hlist2, hreb]

/-- List version of consolidation stability. -/
theorem consList_stable (ord ord2 : MergeOrd)
    (hord : ∀ l, List.Perm (ord l) l) (hord2 : ∀ l, List.Perm (ord2 l) l) :
    ∀ l : List BrigadierTreeNode, nodeListSortedB l = true →
      nodeListNoPipeB l = true →
      ∀ (c : BrigadierTreeNode) (s : String), (c, s) ∈ consolidateList ord l →
        consolidate_literals_into_enums_inner ord2 c = (c, s)
  | [] => by
      intro _ _ c s hcs
      simp [consolidateList] at hcs
  | c0 :: rest => by
      intro hsort hpipe c s hcs
      have hs1 : nodeSortedB c0 = true ∧ nodeListSortedB rest = true := by
        simpa [nodeListSortedB] using hsort
      have hp1 : nodeNoPipeB c0 = true ∧ nodeListNoPipeB rest = true := by
        simpa [nodeListNoPipeB] using hpipe
      simp only [consolidateList] at hcs
      rcases List.mem_cons.mp hcs with heq | hmem
      · have h := consInner_stable ord ord2 hord hord2 c0 hs1.1 hp1.1
        rw [← heq] at h
        exact h
      · exact consList_stable ord ord2 hord hord2 rest hs1.2 hp1.2 c s hmem

end

/-- C4 (amended): literal consolidation is idempotent on input trees that
satisfy the `BTreeSet` sortedness invariant and whose node names contain no
`|` character — for any two faithful HashMap iteration orders, the second
pass reproduces the first pass's output exactly.  (The unrestricted claim is
refuted by `claim_C4_counterexample`: a `|`-named sibling can collide with a
synthesised Enum, drop a node, and leave a stale canonical string that makes
a second pass merge further.) -/
theorem claim_C4 (ord ord2 : MergeOrd) (hord : ∀ l, List.Perm (ord l) l)
    (hord2 : ∀ l, List.Perm (ord2 l) l) (t : BrigadierTree)
    (hsorted : treeSortedB t = true) (hnopipe : treeNoPipeB t = true) :
    consolidate_literals_into_enums ord2 (consolidate_literals_into_enums ord t) =
      consolidate_literals_into_enums ord t := by
  have hns : namesSortedB t.commands = true ∧ nodeListSortedB t.commands = true := by
    simpa [treeSortedB] using hsorted
  have hnp : nodeListNoPipeB t.commands = true := hnopipe
  have hmapped_names : List.Pairwise (fun a b : BrigadierTreeNode =>
      strLt a.get_name b.get_name = true)
      (t.commands.map
        (fun node => (consolidate_literals_into_enums_inner ord node).1)) := by
    rw [List.pairwise_map]
    refine (namesSortedB_pairwise hns.1).imp ?_
    intro a b hab
    show strLt (consolidate_literals_into_enums_inner ord a).1.get_name
        (consolidate_literals_into_enums_inner ord b).1.get_name = true
    rw [consInner_name ord a, consInner_name ord b]
    exact hab
  have hcoll : collectNodes (t.commands.map
      (fun node => (consolidate_literals_into_enums_inner ord node).1)) =
      t.commands.map (fun node => (consolidate_literals_into_enums_inner ord node).1) :=
    collectNodes_of_sorted (namesSortedB_of_pairwise hmapped_names)
  have hstep1 : consolidate_literals_into_enums ord t = BrigadierTree.mk
      (t.commands.map
        (fun node => (consolidate_literals_into_enums_inner ord node).1)) := by
    show BrigadierTree.mk (collectNodes _) = _
    rw [hcoll]
  rw [hstep1]
  show BrigadierTree.mk (collectNodes
    ((t.commands.map (fun node => (consolidate_literals_into_enums_inner ord node).1)).map
      (fun node => (consolidate_literals_into_enums_inner ord2 node).1))) = _
  rw [List.map_map]
  have hfix : ∀ n ∈ t.commands,
      ((fun node => (consolidate_literals_into_enums_inner ord2 node).1) ∘
        (fun node => (consolidate_literals_into_enums_inner ord node).1)) n =
      (fun node => (consolidate_literals_into_enums_inner ord node).1) n := by
    intro n hn
    have hsn := (nodeListSortedB_iff t.commands).mp hns.2 n hn
    have hpn := (nodeListNoPipeB_iff t.commands).mp hnp n hn
    have h := consInner_stable ord ord2 hord hord2 n hsn hpn
    show (consolidate_literals_into_enums_inner ord2
        (consolidate_literals_into_enums_inner ord n).1).1 = _
    rw [h]
  rw [List.map_congr_left hfix, hcoll]

/-- C4 witness: on the sorted, pipe-free tree `c5InputTree` (whose
consolidation synthesises an Enum), a second consolidation pass is the
identity. -/
theorem claim_C4_witness :
    consolidate_literals_into_enums id (consolidate_literals_into_enums id c5InputTree) =
      consolidate_literals_into_enums id c5InputTree :=
  claim_C4 id id (fun l => List.Perm.refl l) (fun l => List.Perm.refl l) c5InputTree
    rfl rfl

end Smelter